import Mathlib

/-!
# asma-async: the concurrent streaming pipelines

A shallow embedding of the backup (`StreamBlobsToTar`, `processBlobBatch`),
restore (`RestoreFromTarFile`) and batched-delete (`DeleteBatch`) pipelines of
`backup.go`, `restore.go` and `delete.go`, and of the helpers around them: the
worker-count flag of `asma-async.go`, the archive path (`TarFile`,
`DeleteTarFile`), `ByteCountSI` and `Divisor`, and the chunk loop of
`DownloadBlobToBuffer`.

Conventions of the embedding.

* The remote store is an oracle: a pager is the list of the results of its
  `NextPage` calls, and downloads, archive writes and batch submissions
  succeed or fail as an environment record says.
* A producer loop is a pure function returning the values it sends on its
  channel, in order, and the error it returns.
* The goroutines of `StreamBlobsToTar` and of `DeleteBatch` are step
  functions on an explicit state, driven by a schedule (the list of the
  moves of the threads); a bounded channel is its buffer, and a blocked
  move leaves the state unchanged.
* Go `int64` values are integers, wrapped to 64 bits where an operation can
  overflow.
-/

namespace AsmaAsync

/-! ## Data model -/

/-- The fields of `container.BlobItem` the program reads: `*blobItem.Name`,
`*blobItem.Properties.ContentLength`, `*blobItem.Properties.LastModified`
(a time, as an integer instant). -/
structure BlobItem where
  Name : String
  ContentLength : Int
  LastModified : Int
deriving DecidableEq, Repr

/-- The result of one `pager.NextPage` call: `page.Segment.BlobItems`, or an error. -/
abbrev PageResult := Except String (List BlobItem)

/-! ## delete.go -/

/-- The state of a `container.BatchBuilder` the program depends on: the delete
sub-requests added by `batch.Delete`, in order. -/
structure BatchBuilder where
  subRequests : List String
deriving DecidableEq, Repr

/-- Go `type batchProcessor struct { batch *container.BatchBuilder; count int }`. -/
structure batchProcessor where
  batch : BatchBuilder
  count : Nat
deriving DecidableEq, Repr

/-- delete.go:19 `NewBatchProcessor`. -/
def NewBatchProcessor (batch : BatchBuilder) (batchLen : Nat) : batchProcessor :=
  { batch := batch, count := batchLen }

/-- delete.go:69 `maxResults := 256`. -/
def maxResults : Nat := 256

/-- delete.go:70 `maxPagerResults := int32(5000)`. -/
def maxPagerResults : Nat := 5000

/-- What the store client answers to the producer of `DeleteBatch`:
whether `containerClient.NewBatchBuilder()` succeeds, and for which names
`batch.Delete(name, nil)` succeeds. -/
structure DeleteEnv where
  newBatchOk : Bool
  deleteOk : String → Bool

/-- delete.go:143-159, the loop `for k, blobItem := range page.Segment.BlobItems`.
`n` is `len(page.Segment.BlobItems)`, `k` the index of the head of the
remaining items, `batch` the current builder. Returns the batch processors
sent on `batchChan`, in order, and the builder left at the end of the page or
the error returned. -/
def deletePage (env : DeleteEnv) (n : Nat) :
    Nat → List BlobItem → BatchBuilder → List batchProcessor × Except String BatchBuilder
  | _, [], batch => ([], .ok batch)
  | k, blobItem :: rest, batch =>
    if env.deleteOk blobItem.Name then
      let batch' : BatchBuilder := { subRequests := batch.subRequests ++ [blobItem.Name] }
      if (k + 1) % maxResults = 0 ∨ k + 1 = n then
        if env.newBatchOk then
          let r := deletePage env n (k + 1) rest { subRequests := [] }
          (NewBatchProcessor batch' (k + 1) :: r.1, r.2)
        else
          ([NewBatchProcessor batch' (k + 1)], .error "failed to build batch")
      else
        deletePage env n (k + 1) rest batch'
    else
      ([], .error "add delete request to batch")

/-- delete.go:136-160, the loop `for pager.More()`: the batch processors sent
on `batchChan`, in order, and the error returned (`none` when the loop ends
and the channel is closed). -/
def deletePages (env : DeleteEnv) :
    List PageResult → BatchBuilder → List batchProcessor × Option String
  | [], _ => ([], none)
  | .error _ :: _, _ => ([], some "failed to list blobs")
  | .ok items :: rest, batch =>
    match deletePage env items.length 0 items batch with
    | (sent, .error e) => (sent, some e)
    | (sent, .ok batch') =>
      let r := deletePages env rest batch'
      (sent ++ r.1, r.2)

/-- The producer of delete.go:64 `DeleteBatch`: the first builder of line 93,
then the page loop. The result is the sequence of values the loop sends on
`batchChan` when it runs to its end or to its first error, and the error
returned; whether a send can proceed depends on the buffer of the channel and
on the workers, which `runDeleteBatch` accounts for. -/
def DeleteBatch (env : DeleteEnv) (pages : List PageResult) :
    List batchProcessor × Option String :=
  if env.newBatchOk then deletePages env pages { subRequests := [] }
  else ([], some "failed to build batch")

/-- The fields of `container.BatchResponseItem` the worker prints:
`*resp.BlobName` and `resp.Error`. -/
structure BatchResponseItem where
  BlobName : String
  Error : Option String
deriving DecidableEq, Repr

/-- What `containerClient.SubmitBatch` returns: `r.Responses` and `err`. -/
structure SubmitResult where
  Responses : List BatchResponseItem
  err : Option String
deriving DecidableEq, Repr

/-- What the `select` of a worker of `DeleteBatch` yields in one iteration
(delete.go:106-132): a value received from `batchChan` (a nil pointer is
`none`), the channel found closed, or `ctx.Done()`. -/
inductive Select where
  | recv (batcher : Option batchProcessor)
  | closed
  | cancelled
deriving DecidableEq, Repr

/-- delete.go:117-125: the lines a worker prints for one submitted batch. The
line of delete.go:119 is printed when the submission failed; the loop of
delete.go:121-125 prints a response item when `err != nil`, where `err` is the
error of the submission. -/
def submitAndLog (r : SubmitResult) : List String :=
  (match r.err with
    | some e => ["failed to submit batch: " ++ e]
    | none => []) ++
  (r.Responses.enum.flatMap fun nresp =>
    if r.err.isSome then
      ["[" ++ toString nresp.1 ++ "][" ++ nresp.2.BlobName ++ "] - " ++
        nresp.2.Error.getD "<nil>"]
    else [])

/-- delete.go:105-133, the loop of one worker of `DeleteBatch`, over what its
`select` yields in successive iterations: the lines printed and the batches
submitted, in order. The loop ends at a closed channel or a cancelled context. -/
def deleteWorker (submit : BatchBuilder → SubmitResult) :
    List Select → List String × List BatchBuilder
  | [] => ([], [])
  | .closed :: _ => ([], [])
  | .cancelled :: _ => ([], [])
  | .recv none :: rest => deleteWorker submit rest
  | .recv (some batcher) :: rest =>
    let r := deleteWorker submit rest
    (submitAndLog (submit batcher.batch) ++ r.1, batcher.batch :: r.2)

/-- A submission that succeeds as a whole while its single response item
carries an error: the deletion of the already deleted name `a`. -/
def alreadyDeleted : BatchBuilder → SubmitResult :=
  fun _ => { Responses := [{ BlobName := "a", Error := some "BlobNotFound" }], err := none }

/-! ## backup.go -/

/-- The fields of `tar.Header` that `processBlobBatch` sets. -/
structure Header where
  Name : String
  Size : Int
  ModTime : Int
  Uid : Int
  Gid : Int
  Mode : Int
deriving DecidableEq, Repr

/-- The bytes of an object body. -/
abbrev Body := List Nat

/-- What a goroutine writes to the shared `tar.Writer`: a `WriteHeader`, the
complete body of the current entry by an `io.Copy` that returns no error, or
the bytes that an `io.Copy` had already written when it returned an error
(`part`): those stay in the archive after the header. -/
inductive TarWrite where
  | header (h : Header)
  | body (b : Body)
  | part (b : Body)
deriving DecidableEq, Repr

/-- The resources closed by the deferred calls of `StreamBlobsToTar`. -/
inductive Resource where
  | tarWriter
  | gzipWriter
  | tarFile
deriving DecidableEq, Repr

/-- What the outside world answers during a backup: `download` is the body
that `DownloadStream` yields for an object (`none` when the call fails),
`writeHeaderOk` and `copyOk` say whether `tarWriter.WriteHeader` and `io.Copy`
succeed for it, `copied` is the number of bytes that a failing `io.Copy` has
written when it returns its error, and the last three say whether the deferred
`Close` calls succeed. -/
structure BackupEnv where
  download : BlobItem → Option Body
  writeHeaderOk : BlobItem → Bool
  copyOk : BlobItem → Bool
  copied : BlobItem → Nat
  tarCloseOk : Bool
  gzipCloseOk : Bool
  fileCloseOk : Bool

/-- blockarchiver.go:14 `BlobArchiver`. The private field `prefix` is `pfx`
here. `BatchSize` and `Workers` are Go `int`s: a negative `BatchSize` panics
in `make(chan ..., b.BatchSize)` and a negative `Workers` starts no goroutine,
as 0 does. -/
structure BlobArchiver where
  ConnectionString : String := ""
  ContainerName : String := ""
  pfx : String
  Compression : Bool
  Path : String := ""
  TarFileName : String := ""
  TarFileTags : List (String × String) := []
  Overwrite : Bool := false
  DestinationConnectionString : String := ""
  DestinationContainerName : String := ""
  destinationPath : String := ""
  TimeStr : String := ""
  BatchSize : Nat
  Workers : Nat
deriving DecidableEq, Repr

/-- backup.go:132-139, the header built for a listed object. -/
def mkHeader (blobItem : BlobItem) : Header :=
  { Name := blobItem.Name
    Size := blobItem.ContentLength
    ModTime := blobItem.LastModified
    Uid := 1000
    Gid := 1000
    Mode := 0o600 }

/-- backup.go:117 `processBlobBatch`, run without interference: the archive
log after the batch, and the error returned. When `io.Copy` fails
(backup.go:147) the header and the bytes copied before the error are in the
log. -/
def processBlobBatch (env : BackupEnv) :
    List BlobItem → List TarWrite → List TarWrite × Option String
  | [], tar => (tar, none)
  | blobItem :: rest, tar =>
    match env.download blobItem with
    | none => (tar, some ("failed to download blob " ++ blobItem.Name))
    | some body =>
      if env.writeHeaderOk blobItem then
        if env.copyOk blobItem then
          processBlobBatch env rest (tar ++ [.header (mkHeader blobItem), .body body])
        else
          (tar ++ [.header (mkHeader blobItem), .part (body.take (env.copied blobItem))],
            some ("failed to write blob " ++ blobItem.Name ++ " to tar"))
      else
        (tar, some ("failed to write tar header for " ++ blobItem.Name))

/-- backup.go:93-101, the loop over one page: the batches sent on `blobChan`
and the batch left at the end of the page. -/
def streamItems (BatchSize : Nat) :
    List BlobItem → List BlobItem → List (List BlobItem) × List BlobItem
  | [], batch => ([], batch)
  | blobItem :: rest, batch =>
    let batch' := batch ++ [blobItem]
    if batch'.length ≥ BatchSize then
      let r := streamItems BatchSize rest []
      (batch' :: r.1, r.2)
    else
      streamItems BatchSize rest batch'

/-- backup.go:87-102, the loop `for pager.More()`: the batches sent on
`blobChan`, and the batch left after the last page or the listing error. -/
def streamPages (BatchSize : Nat) :
    List PageResult → List BlobItem → List (List BlobItem) × Except String (List BlobItem)
  | [], batch => ([], .ok batch)
  | .error _ :: _, _ => ([], .error "failed to list blobs")
  | .ok items :: rest, batch =>
    let r := streamItems BatchSize items batch
    let r' := streamPages BatchSize rest r.2
    (r.1 ++ r'.1, r'.2)

/-- The operations of the producer of `StreamBlobsToTar` that other goroutines
can observe: `blobChan <- batch`, `close(blobChan)`, `wg.Wait()`, and the
return (with its deferred closes). -/
inductive ProducerOp where
  | send (batch : List BlobItem)
  | close
  | wait
  | ret (err : Option String)
deriving DecidableEq, Repr

/-- backup.go:84-113: the producer of `StreamBlobsToTar` as the sequence of
its operations. A listing error returns at once (line 90); otherwise the last
partial batch is sent, the channel closed and the workers awaited. -/
def producer (BatchSize : Nat) (pages : List PageResult) : List ProducerOp :=
  match streamPages BatchSize pages [] with
  | (sent, .error e) => sent.map .send ++ [.ret (some e)]
  | (sent, .ok batch) =>
    sent.map .send ++ (if batch.length > 0 then [.send batch] else []) ++
      [.close, .wait, .ret none]

/-- The batches among a sequence of producer operations. -/
def sendsOf : List ProducerOp → List (List BlobItem)
  | [] => []
  | .send batch :: ops => batch :: sendsOf ops
  | _ :: ops => sendsOf ops

/-- Where a worker goroutine of `StreamBlobsToTar` (backup.go:73-80) stands. -/
inductive Worker where
  /-- at `for batch := range blobChan` -/
  | recv
  /-- at the head of the loop of `processBlobBatch`, with the items left -/
  | next (batch : List BlobItem)
  /-- the download done, at `tarMutex.Lock()` -/
  | lock (blobItem : BlobItem) (body : Body) (rest : List BlobItem)
  /-- holding the mutex, at `tarWriter.WriteHeader` -/
  | hdr (blobItem : BlobItem) (body : Body) (rest : List BlobItem)
  /-- holding the mutex, the header written, at `io.Copy` -/
  | copy (blobItem : BlobItem) (body : Body) (rest : List BlobItem)
  /-- returned, `wg.Done()` called -/
  | done
deriving DecidableEq, Repr

/-- The goroutine has returned. -/
def Worker.isDone : Worker → Bool
  | .done => true
  | _ => false

/-- The goroutine holds `tarMutex`. -/
def Worker.holds : Worker → Bool
  | .hdr _ _ _ => true
  | .copy _ _ _ => true
  | _ => false

/-- The state of a run of `StreamBlobsToTar` once the workers are started.
`sent` records the batches sent so far and `mutex` the holder of `tarMutex`;
`closes` lists the deferred `Close` calls run, with their outcome, and
`printed` the errors of `processBlobBatch` that backup.go:77 prints. -/
structure State where
  prog : List ProducerOp
  chan : List (List BlobItem)
  closed : Bool
  workers : List Worker
  mutex : Option Nat
  tar : List TarWrite
  sent : List (List BlobItem)
  closes : List (Resource × Bool)
  result : Option (Option String)
  printed : List String
deriving DecidableEq, Repr

/-- backup.go:42-58, the deferred calls in the order they run:
`tarWriter.Close()`, `gzipWriter.Close()` when compressing, `tarFile.Close()`.
The errors they return are dropped. -/
def deferred (b : BlobArchiver) (env : BackupEnv) : List (Resource × Bool) :=
  [(Resource.tarWriter, env.tarCloseOk)] ++
    (if b.Compression then [(Resource.gzipWriter, env.gzipCloseOk)] else []) ++
    [(Resource.tarFile, env.fileCloseOk)]

/-- The state after backup.go:81: the workers started, nothing listed yet. -/
def State.init (b : BlobArchiver) (pages : List PageResult) : State :=
  { prog := producer b.BatchSize pages
    chan := []
    closed := false
    workers := List.replicate b.Workers Worker.recv
    mutex := none
    tar := []
    sent := []
    closes := []
    result := none
    printed := [] }

/-- One move of the producer goroutine. A send needs room in the buffer of
`blobChan` (capacity `b.BatchSize`) and `wg.Wait()` needs every worker done;
otherwise the producer is blocked and the state is unchanged. -/
def producerStep (b : BlobArchiver) (env : BackupEnv) (st : State) : State :=
  match st.prog with
  | [] => st
  | .send batch :: prog =>
    if st.chan.length < b.BatchSize then
      { st with prog := prog, chan := st.chan ++ [batch], sent := st.sent ++ [batch] }
    else st
  | .close :: prog => { st with prog := prog, closed := true }
  | .wait :: prog => if st.workers.all Worker.isDone then { st with prog := prog } else st
  | .ret err :: _ => { st with prog := [], closes := deferred b env, result := some err }

/-- One move of worker `i` (backup.go:75-79 and, inlined, the loop of
`processBlobBatch`, backup.go:118-152). A receive takes the oldest buffered
batch, or the batch of a producer standing at its send, or ends the loop when
the channel is closed and empty; `tarMutex.Lock()` needs the mutex free; an
error of `processBlobBatch` is printed, the mutex released if held, and the
worker is back at the receive. When the move is not possible the state is
unchanged. -/
def workerStep (env : BackupEnv) (i : Nat) (st : State) : State :=
  match st.workers[i]? with
  | none => st
  | some .recv =>
    match st.chan with
    | batch :: chan => { st with chan := chan, workers := st.workers.set i (.next batch) }
    | [] =>
      match st.prog with
      | .send batch :: prog =>
        { st with prog := prog, sent := st.sent ++ [batch],
                  workers := st.workers.set i (.next batch) }
      | _ => if st.closed then { st with workers := st.workers.set i .done } else st
  | some (.next []) => { st with workers := st.workers.set i .recv }
  | some (.next (blobItem :: rest)) =>
    match env.download blobItem with
    | none =>
      { st with workers := st.workers.set i .recv,
                printed := st.printed ++ ["failed to download blob " ++ blobItem.Name] }
    | some body => { st with workers := st.workers.set i (.lock blobItem body rest) }
  | some (.lock blobItem body rest) =>
    match st.mutex with
    | none => { st with mutex := some i, workers := st.workers.set i (.hdr blobItem body rest) }
    | some _ => st
  | some (.hdr blobItem body rest) =>
    if env.writeHeaderOk blobItem then
      { st with tar := st.tar ++ [.header (mkHeader blobItem)],
                workers := st.workers.set i (.copy blobItem body rest) }
    else
      { st with mutex := none, workers := st.workers.set i .recv,
                printed := st.printed ++ ["failed to write tar header for " ++ blobItem.Name] }
  | some (.copy blobItem body rest) =>
    if env.copyOk blobItem then
      { st with tar := st.tar ++ [.body body], mutex := none,
                workers := st.workers.set i (.next rest) }
    else
      { st with tar := st.tar ++ [.part (body.take (env.copied blobItem))], mutex := none,
                workers := st.workers.set i .recv,
                printed := st.printed ++ ["failed to write blob " ++ blobItem.Name ++ " to tar"] }
  | some .done => st

/-- One move of the run: thread 0 is the producer, thread `i + 1` worker `i`. -/
def step (b : BlobArchiver) (env : BackupEnv) (st : State) : Nat → State
  | 0 => producerStep b env st
  | i + 1 => workerStep env i st

/-- The state after the threads of a schedule have moved, in order. -/
def run (b : BlobArchiver) (env : BackupEnv) (st : State) (sched : List Nat) : State :=
  sched.foldl (step b env) st

/-- backup.go:21 `StreamBlobsToTar`, from the start of the workers on: the state
a schedule leads to. The function has returned when `result` is set. -/
def StreamBlobsToTar (b : BlobArchiver) (env : BackupEnv) (pages : List PageResult)
    (sched : List Nat) : State :=
  run b env (State.init b pages) sched

/-! ## restore.go -/

/-- Go `type tarFileStruct struct { Name string; Content io.Reader }`, the
content being the bytes the reader yields. -/
structure tarFileStruct where
  Name : String
  Content : Body
deriving DecidableEq, Repr

/-- restore.go:96-99: the name a restored object is uploaded under. -/
def restoreName (pfx blobName : String) : String :=
  if pfx ≠ "" then pfx ++ "/" ++ blobName else blobName

/-- restore.go:87-109, the loop over the entries of the archive: the units
sent on `fileChan`, in order, and the error returned. The `tar.Reader` yields
the entries of the log in order, a header by `Next` and its body by `io.Copy`;
a log that is not a sequence of complete entries is reported as an error. -/
def restoreLoop (pfx : String) : List TarWrite → List tarFileStruct × Option String
  | [] => ([], none)
  | .header h :: .body body :: tar =>
    let r := restoreLoop pfx tar
    ({ Name := restoreName pfx h.Name, Content := body } :: r.1, r.2)
  | .header _ :: _ => ([], some "failed to copy tar file content")
  | .body _ :: _ => ([], some "failed to read tar file")
  | .part _ :: _ => ([], some "failed to read tar file")

/-- restore.go:25 `RestoreFromTarFile`, the reader side: the upload units sent
to the workers for an archive, and the error returned. -/
def RestoreFromTarFile (b : BlobArchiver) (tar : List TarWrite) :
    List tarFileStruct × Option String :=
  restoreLoop b.pfx tar

/-- The upload unit expected for a listed object: its name under the prefix
rule and the body the store yields for it. -/
def uploadOf (env : BackupEnv) (pfx : String) (blobItem : BlobItem) : tarFileStruct :=
  { Name := restoreName pfx blobItem.Name, Content := (env.download blobItem).getD [] }

/-- The archive file a restore can read once `StreamBlobsToTar` has returned:
the log of the writes, provided the deferred closes have run and all
succeeded. A failed close may leave the file without its last blocks, so
nothing is said of the file then. -/
def archiveFile (st : State) : Option (List TarWrite) :=
  if !st.closes.isEmpty && st.closes.all (fun c => c.2) then some st.tar else none

/-! ## Invariants of a run of `StreamBlobsToTar` -/

/-- The place of an operation in the producer's program: sends come first,
then `close`, `wait` and the return. -/
def rank : ProducerOp → Nat
  | .send _ => 0
  | .close => 1
  | .wait => 2
  | .ret _ => 3

/-- Every worker goroutine has returned. -/
def allDone (st : State) : Prop := ∀ w ∈ st.workers, w = Worker.done

/-- The facts that hold in every state of every run started from
`State.init`, whatever the environment answers. `ops0` is the producer's whole
program. -/
structure Inv (b : BlobArchiver) (env : BackupEnv) (ops0 : List ProducerOp)
    (st : State) : Prop where
  mutex : ∀ i w, st.workers[i]? = some w → (w.holds = true ↔ st.mutex = some i)
  held : ∀ i, st.mutex = some i → i < st.workers.length
  done : ∀ w ∈ st.workers, w = Worker.done → st.closed = true ∧ st.chan = []
  closed : st.closed = true → ∀ op ∈ st.prog, 1 ≤ rank op
  sorted : st.prog.Pairwise (fun x y => rank x ≤ rank y)
  wait : ProducerOp.wait ∈ st.prog → ProducerOp.close ∈ st.prog ∨ st.closed = true
  retNone : ProducerOp.ret none ∈ st.prog → ProducerOp.wait ∈ st.prog ∨ allDone st
  resNone : st.result = some none → allDone st
  pending : st.result = none → ∃ e, ProducerOp.ret e ∈ st.prog
  sent : st.sent ++ sendsOf st.prog = sendsOf ops0
  suffix : st.prog <:+ ops0
  result : ∀ r, st.result = some r →
    ProducerOp.ret r ∈ ops0 ∧ st.closes = deferred b env ∧ st.prog = []
  closes : st.result = none → st.closes = []
  workers : st.workers.length = b.Workers

/-- The moves a batch still needs once it is in the buffer of `blobChan`. -/
def batchCost (batch : List BlobItem) : Nat := 4 * batch.length + 2

/-- The moves a worker can still make on what it holds. -/
def Worker.cost : Worker → Nat
  | .recv => 1
  | .next batch => 4 * batch.length + 2
  | .lock _ _ rest => 4 * rest.length + 5
  | .hdr _ _ rest => 4 * rest.length + 4
  | .copy _ _ rest => 4 * rest.length + 3
  | .done => 0

/-- The moves an operation of the producer stands for. -/
def opCost : ProducerOp → Nat
  | .send batch => batchCost batch + 1
  | _ => 1

/-- A bound on the moves left in a state: every move that changes the state
lowers it. -/
def State.cost (st : State) : Nat :=
  (st.prog.map opCost).sum + (st.chan.map batchCost).sum + (st.workers.map Worker.cost).sum

/-- The objects a worker has taken and not yet completed in the archive. -/
def Worker.pending : Worker → List BlobItem
  | .next batch => batch
  | .lock blobItem _ rest => blobItem :: rest
  | .hdr blobItem _ rest => blobItem :: rest
  | .copy blobItem _ rest => blobItem :: rest
  | _ => []

/-- The object a worker has downloaded and the body it got. -/
def Worker.fetched : Worker → Option (BlobItem × Body)
  | .lock blobItem body _ => some (blobItem, body)
  | .hdr blobItem body _ => some (blobItem, body)
  | .copy blobItem body _ => some (blobItem, body)
  | _ => none

/-- How often object `x` occurs in what is still to be archived: in the
batches the producer has yet to send, in the buffer of `blobChan` and in the
hands of the workers. -/
def outstanding (x : BlobItem) (st : State) : Nat :=
  ((sendsOf st.prog).map (List.count x)).sum + (st.chan.map (List.count x)).sum +
    (st.workers.map (fun w => w.pending.count x)).sum

/-- The header of the entry being written: that of the holder of the mutex
when it stands between `WriteHeader` and the end of `io.Copy`. -/
def inflight (mutex : Option Nat) (workers : List Worker) : List TarWrite :=
  match mutex with
  | none => []
  | some i =>
    match workers[i]? with
    | some (.copy blobItem _ _) => [.header (mkHeader blobItem)]
    | _ => []

/-- The archive log of complete entries for a list of objects: for each, its
header followed by the body the store yields for it. -/
def archiveOf (env : BackupEnv) (items : List BlobItem) : List TarWrite :=
  items.flatMap fun blobItem =>
    [.header (mkHeader blobItem), .body ((env.download blobItem).getD [])]

/-- No download and no archive write fails for the objects of `items`. -/
def noFailure (env : BackupEnv) (items : List BlobItem) : Prop :=
  ∀ blobItem ∈ items, (env.download blobItem).isSome = true ∧
    env.writeHeaderOk blobItem = true ∧ env.copyOk blobItem = true

/-- The names of the entries of an archive log, one per header written. -/
def entryNames : List TarWrite → List String
  | [] => []
  | .header h :: tar => h.Name :: entryNames tar
  | .body _ :: tar => entryNames tar
  | .part _ :: tar => entryNames tar

/-- The objects of the pages of a listing, in listing order. -/
def listed (pages : List (List BlobItem)) : List BlobItem := pages.flatten

/-- Conservation, when nothing fails for the objects of `items`: the archive
is the complete entries of a list `d` of objects, followed by the header in
flight, and every object of `items` is, with its multiplicity, either in `d`
or still outstanding. -/
def Conserve (env : BackupEnv) (items : List BlobItem) (st : State) : Prop :=
  (∀ (i : Nat) (w : Worker) (blobItem : BlobItem) (body : Body), st.workers[i]? = some w →
      w.fetched = some (blobItem, body) → env.download blobItem = some body) ∧
  ∃ d : List BlobItem, st.tar = archiveOf env d ++ inflight st.mutex st.workers ∧
    ∀ x, d.count x + outstanding x st = items.count x

/-- The consecutive chunks of size `s` of a list, as the specification words
them: `floor(n/s)` chunks of exactly `s` elements, then one chunk of the
`n mod s` elements left when that is not zero. -/
def chunks {α : Type} (s : Nat) (l : List α) : List (List α) :=
  (List.range (l.length / s)).map (fun i => (l.drop (i * s)).take s) ++
    (if l.length % s = 0 then [] else [l.drop (l.length / s * s)])

/-! ## Concrete inputs -/

/-- An environment in which nothing fails: the download of an object yields as
many bytes as its listed length, each of them `7`. -/
def okEnv : BackupEnv :=
  { download := fun blobItem => some (List.replicate blobItem.ContentLength.toNat 7)
    writeHeaderOk := fun _ => true
    copyOk := fun _ => true
    copied := fun _ => 0
    tarCloseOk := true
    gzipCloseOk := true
    fileCloseOk := true }

/-- The object named `name`, of length `n`. -/
def blob (name : String) (n : Int) : BlobItem :=
  { Name := name, ContentLength := n, LastModified := 0 }

/-- Ten objects, listed in two pages of four and six. -/
def tenObjects : List (List BlobItem) :=
  [[blob "a" 1, blob "b" 2, blob "c" 3, blob "d" 4],
   [blob "e" 5, blob "f" 6, blob "g" 7, blob "h" 8, blob "i" 9, blob "j" 10]]

/-- Batches of 3, two workers, no compression, no prefix. -/
def threeByTwo : BlobArchiver :=
  { pfx := "", Compression := false, BatchSize := 3, Workers := 2 }

/-- A store client for which every `batch.Delete` and `NewBatchBuilder` succeeds. -/
def okDeleteEnv : DeleteEnv :=
  { newBatchOk := true, deleteOk := fun _ => true }

/-- One listing page of 300 objects named `0`, `1`, ..., `299`. -/
def page300 : List BlobItem :=
  (List.range 300).map fun i => blob (toString i) i

/-- An environment in which nothing fails except the deferred closes of the
tar writer and of the compressor. -/
def closeFailEnv : BackupEnv :=
  { okEnv with tarCloseOk := false, gzipCloseOk := false }

/-- Batches of 1, one worker, compression on, no prefix. -/
def oneByOneGz : BlobArchiver :=
  { pfx := "", Compression := true, BatchSize := 1, Workers := 1 }

/-- Batches of 1, one worker, no compression, no prefix. -/
def oneByOne : BlobArchiver :=
  { pfx := "", Compression := false, BatchSize := 1, Workers := 1 }

/-- A schedule that backs up one object with one worker: the producer sends
the batch, the worker takes it, downloads, locks, writes header and body and
returns to the channel; the producer closes the channel, the worker ends, the
producer passes `wg.Wait()` and returns. -/
def oneObjectSchedule : List Nat := [0, 1, 1, 1, 1, 1, 1, 0, 1, 0, 0]

/-- A listing whose first page holds one object and whose second page call fails. -/
def failingListing : List PageResult :=
  [Except.ok [blob "a" 1], Except.error "boom"]

/-- The download, the header write and the body copy of an object all succeed. -/
def succeeds (env : BackupEnv) (blobItem : BlobItem) : Bool :=
  (env.download blobItem).isSome && env.writeHeaderOk blobItem && env.copyOk blobItem

/-- What `processBlobBatch` has written of the object at which it stops:
nothing when its download or its `WriteHeader` failed, its header and the
bytes copied before the error when its `io.Copy` failed. -/
def leftover (env : BackupEnv) (blobItem : BlobItem) : List TarWrite :=
  match env.download blobItem with
  | none => []
  | some body =>
    if env.writeHeaderOk blobItem then
      [.header (mkHeader blobItem), .part (body.take (env.copied blobItem))]
    else []

/-- An environment in which only the `io.Copy` of the object named `a` fails,
after two bytes. -/
def failCopyEnv : BackupEnv :=
  { okEnv with copyOk := fun blobItem => decide (blobItem.Name ≠ "a"), copied := fun _ => 2 }

/-- An environment in which only the download of the object named `a` fails. -/
def failFirstEnv : BackupEnv :=
  { okEnv with
    download := fun blobItem => if blobItem.Name = "a" then none else okEnv.download blobItem }

/-- Batches of 2, one worker, no compression, no prefix. -/
def twoByOne : BlobArchiver :=
  { pfx := "", Compression := false, BatchSize := 2, Workers := 1 }

/-- Batches of 1, one worker, no compression, restore under the prefix `restored`. -/
def withPrefix : BlobArchiver :=
  { pfx := "restored", Compression := false, BatchSize := 1, Workers := 1 }

/-- Batches of 1 and no worker at all (`-w 0`), no compression, no prefix. -/
def oneByZero : BlobArchiver :=
  { pfx := "", Compression := false, BatchSize := 1, Workers := 0 }

/-- Batches of 3 and no worker at all (`-w 0`), no compression, no prefix. -/
def threeByZero : BlobArchiver :=
  { pfx := "", Compression := false, BatchSize := 3, Workers := 0 }

/-! ## delete.go: the worker loop, step by step -/

/-- Where the loop of one worker of `DeleteBatch` (delete.go:105-133) stands:
whether it has returned, the lines printed and the batches submitted so far. -/
structure DeleteWorkerState where
  exited : Bool
  printed : List String
  submitted : List BatchBuilder
deriving DecidableEq, Repr

/-- One iteration of the loop of delete.go:105-133 on what its `select` yields:
a closed channel or a cancelled context ends the loop, a nil batch is passed
over, any other batch is submitted once and its lines printed. A worker that
has returned does nothing more. -/
def deleteWorkerStep (submit : BatchBuilder → SubmitResult) (st : DeleteWorkerState) :
    Select → DeleteWorkerState
  | .closed => if st.exited then st else { st with exited := true }
  | .cancelled => if st.exited then st else { st with exited := true }
  | .recv none => st
  | .recv (some batcher) =>
    if st.exited then st
    else
      { st with printed := st.printed ++ submitAndLog (submit batcher.batch)
                submitted := st.submitted ++ [batcher.batch] }

/-- The loop of one worker of `DeleteBatch` run over the successive outcomes
of its `select`, from the start of the goroutine. -/
def deleteWorkerLoop (submit : BatchBuilder → SubmitResult) (events : List Select) :
    DeleteWorkerState :=
  events.foldl (deleteWorkerStep submit) { exited := false, printed := [], submitted := [] }

/-- The `select` yields a received value: neither a closed channel nor a
cancelled context. -/
def Select.isRecv : Select → Bool
  | .recv _ => true
  | _ => false

/-- The builder of a received non-nil batch. -/
def Select.batch? : Select → Option BatchBuilder
  | .recv (some batcher) => some batcher.batch
  | _ => none

/-- A store client for which nothing fails while the batches are built. -/
def DeleteEnv.noFailure (env : DeleteEnv) : Prop :=
  env.newBatchOk = true ∧ ∀ name, env.deleteOk name = true

/-- The outcomes of a `select`: a batch, a nil batch, a batch, the channel
closed, and a further batch that is never received. -/
def fiveEvents : List Select :=
  [Select.recv (some (NewBatchProcessor { subRequests := ["a"] } 1)),
   Select.recv none,
   Select.recv (some (NewBatchProcessor { subRequests := ["b"] } 1)),
   Select.closed,
   Select.recv (some (NewBatchProcessor { subRequests := ["c"] } 1))]

/-! ## The archive log as a sequence of entries -/

/-- How far the `io.Copy` of an entry of the archive got: not returned yet
(`pending`), returned without error (`whole`), or returned an error (`cut`). -/
inductive CopyState where
  | pending
  | whole
  | cut
deriving DecidableEq, Repr

/-- The writes of one entry of the archive: the header of the object, followed
by its body when the copy is `whole`, by the bytes copied before the error
when the copy is `cut`, and by nothing while the copy is `pending`. -/
def segment (env : BackupEnv) (s : BlobItem × CopyState) : List TarWrite :=
  TarWrite.header (mkHeader s.1) ::
    (match s.2 with
     | .pending => []
     | .whole => [TarWrite.body ((env.download s.1).getD [])]
     | .cut => [TarWrite.part (((env.download s.1).getD []).take (env.copied s.1))])

/-- What holds of the archive log in every state of every run, whatever fails:
a worker that has downloaded an object holds the body the store yields for
it, the log is a sequence of entries, and while a worker stands between
`WriteHeader` and the end of `io.Copy` the last entry is the header of its
object. -/
structure Writes (env : BackupEnv) (st : State) : Prop where
  fetched : ∀ (i : Nat) (w : Worker) (blobItem : BlobItem) (body : Body),
    st.workers[i]? = some w → w.fetched = some (blobItem, body) →
    env.download blobItem = some body
  segments : ∃ segs : List (BlobItem × CopyState), st.tar = segs.flatMap (segment env) ∧
    ∀ (i : Nat) (blobItem : BlobItem) (body : Body) (rest : List BlobItem),
      st.workers[i]? = some (Worker.copy blobItem body rest) →
      ∃ segs', segs = segs' ++ [(blobItem, CopyState.pending)]

/-- Batches of 1, two workers, no compression, no prefix. -/
def oneByTwo : BlobArchiver :=
  { pfx := "", Compression := false, BatchSize := 1, Workers := 2 }

/-! ## asma-async.go: the worker-count flag -/

/-- The part of the state of Go's `flag` package that concerns one `int`
variable: the value `*p` and the names of the flags defined on it. -/
structure IntFlag where
  value : Int
  names : List String
deriving DecidableEq, Repr

/-- Go `flag.Int(name, value, usage)`: a new variable holding `value`, with the
flag `name` defined on it. -/
def flagInt (name : String) (value : Int) : IntFlag :=
  { value := value, names := [name] }

/-- Go `flag.IntVar(p, name, value, usage)`: defines the flag `name` on the
variable `p` and stores the default `value` in it (`newIntValue` assigns
`*p = val`), whatever it held. -/
def flagIntVar (p : IntFlag) (name : String) (value : Int) : IntFlag :=
  { value := value, names := p.names ++ [name] }

/-- Go `flag.CommandLine.Parse`, for one variable: `given` lists the flags
present on the command line, in order, with the integer each is given; a flag
defined on the variable stores its integer in it. -/
def flagParse (p : IntFlag) : List (String × Int) → IntFlag
  | [] => p
  | (name, v) :: rest =>
    flagParse (if name ∈ p.names then { p with value := v } else p) rest

/-- asma-async.go:171-172, 178 and 199: the value of `*workers` passed to
`NewBlobArchiver`, for the flags given on the command line. -/
def workersArg (given : List (String × Int)) : Int :=
  (flagParse (flagIntVar (flagInt "w" 8) "workers" 25) given).value

/-! ## blockarchiver.go and delete.go: the path of the tar file -/

/-- blockarchiver.go:74 `TarFile`. `join` is `filepath.Join` on two elements. -/
def TarFile (join : String → String → String) (b : BlobArchiver) : String :=
  let ext := if b.Compression then "tgz" else "tar"
  if b.Path ≠ "" ∧ b.TarFileName ≠ "" then join b.Path b.TarFileName
  else if b.TarFileName ≠ "" then b.TarFileName
  else if b.Path ≠ "" then join b.Path (b.ContainerName ++ "-" ++ b.TimeStr ++ "." ++ ext)
  else b.ContainerName ++ "-" ++ b.TimeStr ++ "." ++ ext

/-- delete.go:55 `DeleteTarFile`: the path handed to `os.Remove`. -/
def DeleteTarFile (b : BlobArchiver) : String := b.TarFileName

/-- The configuration of a backup of the container `photos` on 2025-01-01 with
neither `-P` nor `-t` given. -/
def photos : BlobArchiver :=
  { ContainerName := "photos", TimeStr := "2025-01-01", pfx := "", Compression := false,
    BatchSize := 25, Workers := 8 }

/-! ## blockarchive-helpers.go -/

/-- A 64-bit signed integer operation wraps around. -/
def wrap64 (x : Int) : Int :=
  (x + 9223372036854775808) % 18446744073709551616 - 9223372036854775808

/-- blockarchive-helpers.go:19-23, the loop
`for n := b / unit; n >= unit; n /= unit { div *= unit; exp++ }`: the final
`div` and `exp`. -/
def siLoop (n div : Int) (exp : Nat) : Int × Nat :=
  if 1000 ≤ n then siLoop (n / 1000) (wrap64 (div * 1000)) (exp + 1) else (div, exp)
termination_by n.toNat
decreasing_by omega

/-- The string indexed at blockarchive-helpers.go:25. -/
def unitTable : List Char := ['k', 'M', 'G', 'T', 'P', 'E']

/-- blockarchive-helpers.go:13 `ByteCountSI`, as far as `Divisor` reads it: the
text returned is a number, a space and a unit, and the number (`%d` or `%.1f`)
holds no space, so the result here is the unit, the field `s[1]` of
`strings.Split`. It is `none` where the index into the table is out of range. -/
def ByteCountSI (b : Int) : Option String :=
  if b < 1000 then some "B"
  else (unitTable[(siLoop (b / 1000) 1000 0).2]?).map fun c => String.mk [c, 'B']

/-- blockarchive-helpers.go:28 `Divisor`: the `switch` on the unit of
`ByteCountSI(b)`, with `divisor` left at 0 when no case matches. -/
def Divisor (b : Int) : Option Int :=
  (ByteCountSI b).map fun unit =>
    if unit = "KB" then 32768
    else if unit = "MB" then 8388608
    else if unit = "GB" then 104857600
    else 0

/-! ## backup.go: `DownloadBlobToBuffer` -/

/-- backup.go:276 `var bufferLen int64 = 104057600`. -/
def bufferLen : Int := 104057600

/-- backup.go:284-305, the loop of `DownloadBlobToBuffer` when no download
fails, on 64-bit integers: the ranges `{Offset, Count}` requested, in order.
Each iteration takes one unit of fuel; the result is `none` when the fuel runs
out before the loop breaks. -/
def downloadLoop (blobSize : Int) : Nat → Int → Int → Option (List (Int × Int))
  | 0, _, _ => none
  | fuel + 1, offset, count =>
    let count' := if wrap64 (offset + count) > blobSize then 0 else count
    if offset ≥ blobSize then some []
    else
      (downloadLoop blobSize fuel (wrap64 (offset + bufferLen)) count').map
        fun ranges => (offset, count') :: ranges

/-- backup.go:253 `DownloadBlobToBuffer`, from line 276 on: the loop started
with `offset = 0` and `count = bufferLen`. -/
def DownloadBlobToBuffer (blobSize : Int) (fuel : Nat) : Option (List (Int × Int)) :=
  downloadLoop blobSize fuel 0 bufferLen

/-- The end of the bytes an `HTTPRange` asks for in a blob of `blobSize` bytes:
a `Count` of 0 means up to the end of the blob. -/
def rangeEnd (blobSize : Int) (r : Int × Int) : Int :=
  if r.2 = 0 then blobSize else r.1 + r.2

/-- The ranges, in order, start at `pos`, each starts where the one before
ends, is not empty, spans at most `bufferLen` bytes and stays within the
blob, and the last ends at `blobSize`. -/
def covers (blobSize : Int) : Int → List (Int × Int) → Prop
  | pos, [] => pos = blobSize
  | pos, r :: rest =>
    r.1 = pos ∧ pos < rangeEnd blobSize r ∧ rangeEnd blobSize r - pos ≤ bufferLen ∧
      rangeEnd blobSize r ≤ blobSize ∧ covers blobSize (rangeEnd blobSize r) rest

/-! ## delete.go: the run of `DeleteBatch`, step by step -/

/-- delete.go:77 `batchChan := make(chan *batchProcessor, 25)`: the capacity
of the channel between the producer and the workers. -/
def batchChanCap : Nat := 25

/-- The operations of the goroutine of `DeleteBatch` once the workers are
started (delete.go:136-165): a send on `batchChan`, `close(batchChan)`,
`wg.Wait()`, and the return, which runs the deferred `cancel` calls. -/
inductive DeleteOp where
  | send (batcher : batchProcessor)
  | close
  | wait
  | ret (err : Option String)
deriving DecidableEq, Repr

/-- delete.go:93-165: the producer of `DeleteBatch` as the sequence of its
operations. An error returns at once; otherwise, after the last page, the
channel is closed and the workers awaited. -/
def deleteProducer (env : DeleteEnv) (pages : List PageResult) : List DeleteOp :=
  match DeleteBatch env pages with
  | (sent, some e) => sent.map .send ++ [.ret (some e)]
  | (sent, none) => sent.map .send ++ [.close, .wait, .ret none]

/-- The state of a run of `DeleteBatch`: what is left of the producer's
operations, the buffer of `batchChan`, whether the channel is closed and the
context cancelled, the workers, the batches sent so far and the value
returned. -/
structure DeleteState where
  prog : List DeleteOp
  chan : List batchProcessor
  closed : Bool
  cancelled : Bool
  workers : List DeleteWorkerState
  sent : List batchProcessor
  result : Option (Option String)
deriving DecidableEq, Repr

/-- The state at delete.go:136. The `b.Workers` goroutines of delete.go:100
are started only when the first `NewBatchBuilder` (delete.go:93) succeeded;
otherwise the function returns before the loop that starts them. -/
def DeleteState.init (b : BlobArchiver) (env : DeleteEnv) (pages : List PageResult) :
    DeleteState :=
  { prog := deleteProducer env pages
    chan := []
    closed := false
    cancelled := false
    workers :=
      if env.newBatchOk then
        List.replicate b.Workers { exited := false, printed := [], submitted := [] }
      else []
    sent := []
    result := none }

/-- One move of the goroutine of `DeleteBatch`. A send needs room in the
buffer of `batchChan` and `wg.Wait()` needs every worker returned; otherwise
the producer is blocked and the state is unchanged. The return runs the
deferred `childCancel()` and `cancel()`. -/
def deleteProducerStep (st : DeleteState) : DeleteState :=
  match st.prog with
  | [] => st
  | .send batcher :: prog =>
    if st.chan.length < batchChanCap then
      { st with prog := prog, chan := st.chan ++ [batcher], sent := st.sent ++ [batcher] }
    else st
  | .close :: prog => { st with prog := prog, closed := true }
  | .wait :: prog =>
    if st.workers.all (fun w => w.exited) then { st with prog := prog } else st
  | .ret err :: _ => { st with prog := [], cancelled := true, result := some err }

/-- A move of a run of `DeleteBatch`: one of the producer, or one iteration of
the `select` of worker `i`, taking the case of `batchChan` (`receive`) or the
case of `ctx.Done()` (`done`). -/
inductive DeleteMove where
  | producer
  | receive (i : Nat)
  | done (i : Nat)
deriving DecidableEq, Repr

/-- One move of a run of `DeleteBatch` (delete.go:105-133 for the workers).
The case of `batchChan` yields the oldest buffered batch, or the closed
channel when it is closed and empty; the case of `ctx.Done()` needs the
context cancelled. When the move is not possible the state is unchanged. -/
def deleteStep (submit : BatchBuilder → SubmitResult) (st : DeleteState) :
    DeleteMove → DeleteState
  | .producer => deleteProducerStep st
  | .receive i =>
    match st.workers[i]? with
    | none => st
    | some w =>
      if w.exited then st
      else
        match st.chan with
        | batcher :: chan =>
          { st with chan := chan
                    workers := st.workers.set i
                      (deleteWorkerStep submit w (.recv (some batcher))) }
        | [] =>
          if st.closed then
            { st with workers := st.workers.set i (deleteWorkerStep submit w .closed) }
          else st
  | .done i =>
    match st.workers[i]? with
    | none => st
    | some w =>
      if st.cancelled then
        { st with workers := st.workers.set i (deleteWorkerStep submit w .cancelled) }
      else st

/-- The state after the moves of a schedule. -/
def deleteRun (submit : BatchBuilder → SubmitResult) (st : DeleteState)
    (sched : List DeleteMove) : DeleteState :=
  sched.foldl (deleteStep submit) st

/-- delete.go:64 `DeleteBatch`, run under a schedule of its goroutines. -/
def runDeleteBatch (b : BlobArchiver) (env : DeleteEnv) (submit : BatchBuilder → SubmitResult)
    (pages : List PageResult) (sched : List DeleteMove) : DeleteState :=
  deleteRun submit (DeleteState.init b env pages) sched

/-- What is left of the producer's work, for the measure of a run. -/
def DeleteOp.cost : DeleteOp → Nat
  | .send _ => 2
  | _ => 1

/-- A worker that has not returned counts for one move. -/
def DeleteWorkerState.cost (w : DeleteWorkerState) : Nat :=
  if w.exited then 0 else 1

/-- A measure that every effective move of a run of `DeleteBatch` lowers. -/
def DeleteState.cost (st : DeleteState) : Nat :=
  (st.prog.map DeleteOp.cost).sum + st.chan.length +
    (st.workers.map DeleteWorkerState.cost).sum

/-- What holds in every state of every run of `DeleteBatch`: the number of
workers, the bound of the channel buffer, and where the producer stands: still
sending, with the channel open and every worker in its loop; at `wg.Wait()`;
at the return; or returned, with the context cancelled. -/
structure DeleteInv (b : BlobArchiver) (env : DeleteEnv) (pages : List PageResult)
    (st : DeleteState) : Prop where
  workers : st.workers.length = if env.newBatchOk then b.Workers else 0
  cap : st.chan.length ≤ batchChanCap
  phase :
    (∃ (rest : List batchProcessor) (tail : List DeleteOp),
      st.prog = rest.map DeleteOp.send ++ tail ∧
      ((tail = [.close, .wait, .ret none] ∧ (DeleteBatch env pages).2 = none) ∨
        ∃ e, tail = [.ret (some e)] ∧ (DeleteBatch env pages).2 = some e) ∧
      st.sent ++ rest = (DeleteBatch env pages).1 ∧
      st.closed = false ∧ st.cancelled = false ∧ st.result = none ∧
      ∀ w ∈ st.workers, w.exited = false) ∨
    (st.prog = [.wait, .ret none] ∧ st.sent = (DeleteBatch env pages).1 ∧
      st.closed = true ∧ st.cancelled = false ∧ st.result = none ∧
      (DeleteBatch env pages).2 = none) ∨
    (st.prog = [.ret none] ∧ st.sent = (DeleteBatch env pages).1 ∧
      st.closed = true ∧ st.cancelled = false ∧ st.result = none ∧
      (DeleteBatch env pages).2 = none) ∨
    (st.prog = [] ∧ st.sent = (DeleteBatch env pages).1 ∧ st.cancelled = true ∧
      st.result = some (DeleteBatch env pages).2)

/-- Twenty-six listing pages of one object each, named `0`, ..., `25`. -/
def pages26 : List (List BlobItem) :=
  (List.range 26).map fun i => [blob (toString i) 1]

/-- A store for which every submitted batch succeeds, with no response items. -/
def okSubmit : BatchBuilder → SubmitResult :=
  fun _ => { Responses := [], err := none }

/-- A schedule that deletes the objects of two batches with two workers: the
producer sends both batches and closes the channel, each worker takes one
batch and then finds the channel closed, and the producer passes `wg.Wait()`
and returns. -/
def twoBatchSchedule : List DeleteMove :=
  [.producer, .producer, .producer, .receive 0, .receive 1, .receive 0, .receive 1,
   .producer, .producer]

/-! ## Theorems: delete.go -/

theorem deletePage_bounded (env : DeleteEnv) (n : Nat) :
    ∀ (rest : List BlobItem) (k : Nat) (batch : BatchBuilder),
      k + rest.length = n →
      batch.subRequests.length ≤ k % maxResults →
      (rest = [] → batch.subRequests = []) →
      (∀ bp ∈ (deletePage env n k rest batch).1, bp.batch.subRequests.length ≤ maxResults) ∧
      (∀ b, (deletePage env n k rest batch).2 = .ok b → b.subRequests = []) := by
  intro rest
  induction rest with
  | nil =>
    intro k batch _ _ hnil
    refine ⟨by simp [deletePage], ?_⟩
    intro b hb
    simp only [deletePage, Except.ok.injEq] at hb
    subst hb
    exact hnil rfl
  | cons item rest ih =>
    intro k batch hk hlen _
    have hmod : k % maxResults < maxResults := Nat.mod_lt _ (by decide)
    simp only [deletePage]
    by_cases hdel : env.deleteOk item.Name = true
    · simp only [hdel, if_true]
      by_cases hsend : (k + 1) % maxResults = 0 ∨ k + 1 = n
      · simp only [hsend, if_true]
        by_cases hnew : env.newBatchOk = true
        · simp only [hnew, if_true]
          have h := ih (k + 1) { subRequests := [] }
            (by simp only [List.length_cons] at hk; omega) (by simp) (by simp)
          refine ⟨?_, h.2⟩
          intro bp hbp
          rcases List.mem_cons.1 hbp with rfl | hbp
          · simp only [NewBatchProcessor, List.length_append, List.length_singleton]
            omega
          · exact h.1 bp hbp
        · simp only [hnew]
          refine ⟨?_, by intro b hb; simp at hb⟩
          intro bp hbp
          simp only [Bool.false_eq_true, if_false, List.mem_singleton] at hbp
          subst hbp
          simp only [NewBatchProcessor, List.length_append, List.length_singleton]
          omega
      · simp only [hsend, if_false]
        have hne : rest ≠ [] := by
          intro h
          subst h
          simp only [List.length_cons, List.length_nil] at hk
          exact hsend (Or.inr (by omega))
        have hstep : (k + 1) % maxResults = k % maxResults + 1 := by
          have h0 : ¬ (k + 1) % maxResults = 0 := fun h => hsend (Or.inl h)
          simp only [maxResults] at *
          omega
        exact ih (k + 1) _ (by simp only [List.length_cons] at hk; omega)
          (by simp only [List.length_append, List.length_singleton]; omega)
          (fun h => absurd h hne)
    · simp only [hdel, Bool.false_eq_true, if_false]
      exact ⟨by simp, by intro b hb; simp at hb⟩

theorem deletePages_bounded (env : DeleteEnv) :
    ∀ (pages : List PageResult) (batch : BatchBuilder), batch.subRequests = [] →
      ∀ bp ∈ (deletePages env pages batch).1, bp.batch.subRequests.length ≤ maxResults := by
  intro pages
  induction pages with
  | nil => intro batch _ bp hbp; simp [deletePages] at hbp
  | cons page rest ih =>
    intro batch hb bp hbp
    cases page with
    | error e => simp [deletePages] at hbp
    | ok items =>
      have h := deletePage_bounded env items.length items 0 batch (by simp)
        (by simp [hb]) (fun _ => hb)
      simp only [deletePages] at hbp
      rcases hres : deletePage env items.length 0 items batch with ⟨sent, r⟩
      rw [hres] at hbp h
      cases r with
      | error e => exact h.1 bp hbp
      | ok batch' =>
        simp only [List.mem_append] at hbp
        rcases hbp with hbp | hbp
        · exact h.1 bp hbp
        · exact ih batch' (h.2 batch' rfl) bp hbp

/-- C1: for every sequence of listing pages, of any lengths and with any
listing, `batch.Delete` or `NewBatchBuilder` failures, every batch that
`DeleteBatch` sends on the batch channel holds at most 256 delete operations. -/
theorem DeleteBatch_batch_le_256 (env : DeleteEnv) (pages : List PageResult)
    (bp : batchProcessor) (h : bp ∈ (DeleteBatch env pages).1) :
    bp.batch.subRequests.length ≤ 256 := by
  unfold DeleteBatch at h
  by_cases hnew : env.newBatchOk = true
  · rw [if_pos hnew] at h
    exact deletePages_bounded env pages _ rfl bp h
  · rw [if_neg hnew] at h
    simp at h



set_option maxRecDepth 100000 in
/-- The instance of C1 for a page of 300 objects: its second batch, of the 44
objects after the first 256, is sent and is within the cap. -/
theorem DeleteBatch_batch_le_256_witness :
    ((DeleteBatch okDeleteEnv [Except.ok page300]).1.map
        (fun bp => bp.batch.subRequests.length) = [256, 44] ∧
      NewBatchProcessor { subRequests := (page300.drop 256).map BlobItem.Name } 300 ∈
        (DeleteBatch okDeleteEnv [Except.ok page300]).1) ∧
    (NewBatchProcessor { subRequests := (page300.drop 256).map BlobItem.Name }
      300).batch.subRequests.length ≤ 256 := by
  have hmem : NewBatchProcessor { subRequests := (page300.drop 256).map BlobItem.Name } 300 ∈
      (DeleteBatch okDeleteEnv [Except.ok page300]).1 := by decide
  exact ⟨⟨by decide, hmem⟩, DeleteBatch_batch_le_256 okDeleteEnv [Except.ok page300] _ hmem⟩

theorem submitAndLog_of_success (r : SubmitResult) (h : r.err = none) :
    submitAndLog r = [] := by
  unfold submitAndLog
  rw [h]
  simp

/-- C5, at the failing input: two batches are received, each submission
succeeds and each response carries the per-item error of an already deleted
name. The worker submits both batches, so it does go on after the first, but
it prints nothing: no per-item error is logged. -/
theorem deleteWorker_drops_item_errors :
    deleteWorker alreadyDeleted
        [Select.recv (some (NewBatchProcessor { subRequests := ["a"] } 1)),
         Select.recv (some (NewBatchProcessor { subRequests := ["a"] } 1)), Select.closed] =
      ([], [{ subRequests := ["a"] }, { subRequests := ["a"] }]) ∧
    submitAndLog (alreadyDeleted { subRequests := ["a"] }) = [] := by
  decide

/-! ## Theorems: the run of `StreamBlobsToTar` -/

theorem getElem?_set_some {α : Type} {l : List α} {i j : Nat} {a w : α}
    (h : (l.set i a)[j]? = some w) :
    (j = i ∧ w = a ∧ i < l.length) ∨ (j ≠ i ∧ l[j]? = some w) := by
  by_cases hij : i = j
  · subst hij
    rw [List.getElem?_set_self'] at h
    cases hl : l[i]? with
    | none => rw [hl] at h; simp at h
    | some x =>
      rw [hl] at h
      simp at h
      have : i < l.length := by
        rcases List.getElem?_eq_some.1 hl with ⟨hlt, _⟩
        exact hlt
      exact Or.inl ⟨rfl, h.symm, this⟩
  · rw [List.getElem?_set_ne hij] at h
    exact Or.inr ⟨fun h' => hij h'.symm, h⟩

theorem mem_set_cases {α : Type} {l : List α} {i : Nat} {a w : α}
    (h : w ∈ l.set i a) : w = a ∨ w ∈ l := by
  rcases List.mem_or_eq_of_mem_set h with h | h
  · exact Or.inr h
  · exact Or.inl h

theorem sendsOf_eq_nil_of_rank {ops : List ProducerOp}
    (h : ∀ op ∈ ops, 1 ≤ rank op) : sendsOf ops = [] := by
  induction ops with
  | nil => rfl
  | cons op ops ih =>
    have h1 := h op (List.mem_cons_self _ _)
    have h2 := ih (fun o ho => h o (List.mem_cons_of_mem _ ho))
    cases op <;> simp_all [sendsOf, rank]

theorem sendsOf_append (xs ys : List ProducerOp) :
    sendsOf (xs ++ ys) = sendsOf xs ++ sendsOf ys := by
  induction xs with
  | nil => rfl
  | cons op xs ih => cases op <;> simp [sendsOf, ih]

theorem sendsOf_map_send (bs : List (List BlobItem)) :
    sendsOf (bs.map ProducerOp.send) = bs := by
  induction bs with
  | nil => rfl
  | cons x xs ih => simp [sendsOf, ih]

theorem allDone_all (st : State) : st.workers.all Worker.isDone = true ↔ allDone st := by
  simp only [List.all_eq_true, allDone]
  constructor
  · intro h w hw
    have := h w hw
    cases w <;> simp_all [Worker.isDone]
  · intro h w hw
    rw [h w hw]
    rfl

theorem inv_producerStep {b : BlobArchiver} {env : BackupEnv} {ops0 : List ProducerOp}
    {st : State} (h : Inv b env ops0 st) : Inv b env ops0 (producerStep b env st) := by
  unfold producerStep
  split
  · exact h
  · rename_i batch prog hp
    split
    · have hs := h.sorted
      rw [hp] at hs
      have hs' := List.pairwise_cons.1 hs
      have hc : st.closed = false := by
        cases hcl : st.closed with
        | false => rfl
        | true =>
          have := h.closed hcl (.send batch) (by rw [hp]; exact List.mem_cons_self _ _)
          simp [rank] at this
      refine ⟨h.mutex, h.held, ?_, ?_, hs'.2, ?_, ?_, h.resNone, ?_, ?_, ?_, ?_, h.closes, h.workers⟩
      · intro w hw hd
        have := (h.done w hw hd).1
        rw [hc] at this
        cases this
      · intro hcl
        simp only at hcl
        rw [hc] at hcl
        cases hcl
      · intro hw
        have := h.wait (by rw [hp]; exact List.mem_cons_of_mem _ hw)
        rw [hp] at this
        simpa using this
      · intro hr
        have := h.retNone (by rw [hp]; exact List.mem_cons_of_mem _ hr)
        rw [hp] at this
        simpa [allDone] using this
      · intro hr
        obtain ⟨e, he⟩ := h.pending hr
        rw [hp] at he
        exact ⟨e, by simpa using he⟩
      · have := h.sent
        rw [hp] at this
        simpa [sendsOf] using this
      · have := h.suffix
        rw [hp] at this
        exact (List.suffix_cons _ _).trans this
      · intro r hr
        have := h.result r hr
        rw [hp] at this
        simp at this
    · exact h
  · rename_i prog hp
    have hs := h.sorted
    rw [hp] at hs
    have hs' := List.pairwise_cons.1 hs
    refine ⟨h.mutex, h.held, ?_, ?_, hs'.2, ?_, ?_, h.resNone, ?_, ?_, ?_, ?_, h.closes, h.workers⟩
    · intro w hw hd
      have hd' := h.done w hw hd
      exact ⟨rfl, hd'.2⟩
    · intro _ op hop
      have := hs'.1 op hop
      simpa [rank] using this
    · intro _
      exact Or.inr rfl
    · intro hr
      have := h.retNone (by rw [hp]; exact List.mem_cons_of_mem _ hr)
      rw [hp] at this
      simpa [allDone] using this
    · intro hr
      obtain ⟨e, he⟩ := h.pending hr
      rw [hp] at he
      exact ⟨e, by simpa using he⟩
    · have := h.sent
      rw [hp] at this
      simpa [sendsOf] using this
    · have := h.suffix
      rw [hp] at this
      exact (List.suffix_cons _ _).trans this
    · intro r hr
      have := h.result r hr
      rw [hp] at this
      simp at this
  · rename_i prog hp
    split
    · rename_i hall
      have hall' := (allDone_all st).1 hall
      have hs := h.sorted
      rw [hp] at hs
      have hs' := List.pairwise_cons.1 hs
      have hcl : st.closed = true := by
        rcases h.wait (by rw [hp]; exact List.mem_cons_self _ _) with hc | hc
        · rw [hp] at hc
          rcases List.mem_cons.1 hc with hc | hc
          · cases hc
          · have := hs'.1 _ hc
            simp [rank] at this
        · exact hc
      refine ⟨h.mutex, h.held, h.done, ?_, hs'.2, ?_, ?_, h.resNone, ?_, ?_, ?_, ?_, h.closes,
        h.workers⟩
      · intro _ op hop
        exact h.closed hcl op (by rw [hp]; exact List.mem_cons_of_mem _ hop)
      · intro _
        exact Or.inr hcl
      · intro _
        exact Or.inr hall'
      · intro hr
        obtain ⟨e, he⟩ := h.pending hr
        rw [hp] at he
        exact ⟨e, by simpa using he⟩
      · have := h.sent
        rw [hp] at this
        simpa [sendsOf] using this
      · have := h.suffix
        rw [hp] at this
        exact (List.suffix_cons _ _).trans this
      · intro r hr
        have := h.result r hr
        rw [hp] at this
        simp at this
    · exact h
  · rename_i err prog hp
    have hs := h.sorted
    rw [hp] at hs
    have hs' := List.pairwise_cons.1 hs
    have hns : sendsOf prog = [] := by
      apply sendsOf_eq_nil_of_rank
      intro op hop
      have := hs'.1 op hop
      have h3 : rank (ProducerOp.ret err) = 3 := rfl
      omega
    refine ⟨h.mutex, h.held, h.done, ?_, List.Pairwise.nil, ?_, ?_, ?_, ?_, ?_, ?_, ?_, ?_, h.workers⟩
    · intro _ op hop
      cases hop
    · intro hw
      cases hw
    · intro hw
      cases hw
    · intro hr
      simp only [Option.some.injEq] at hr
      subst hr
      rcases h.retNone (by rw [hp]; exact List.mem_cons_self _ _) with hw | hd
      · rw [hp] at hw
        rcases List.mem_cons.1 hw with hw | hw
        · cases hw
        · have := hs'.1 _ hw
          simp [rank] at this
      · exact hd
    · intro hr
      cases hr
    · have := h.sent
      rw [hp] at this
      simpa [sendsOf, hns] using this
    · exact List.nil_suffix
    · intro r hr
      simp only [Option.some.injEq] at hr
      subst hr
      exact ⟨h.suffix.subset (by rw [hp]; exact List.mem_cons_self _ _), rfl, rfl⟩
    · intro hr
      cases hr

theorem allDone_getElem? {st : State} (h : allDone st) {i : Nat} {w : Worker}
    (hw : st.workers[i]? = some w) : w = Worker.done :=
  h w (List.mem_iff_getElem?.2 ⟨i, hw⟩)

/-- A move of worker `i` from `w` to `w'` keeps the invariant when it takes at
most one batch (from the buffer or from the producer's send) and handles the
mutex as its new place says. -/
theorem inv_update {b : BlobArchiver} {env : BackupEnv} {ops0 : List ProducerOp}
    {st st' : State} {i : Nat} {w w' : Worker} (h : Inv b env ops0 st)
    (hw : st.workers[i]? = some w) (hnd : w ≠ Worker.done)
    (hworkers : st'.workers = st.workers.set i w')
    (hclosed : st'.closed = st.closed) (hresult : st'.result = st.result)
    (hcloses : st'.closes = st.closes)
    (hprog : (st'.prog = st.prog ∧ st'.sent = st.sent) ∨
      ∃ batch, st.prog = ProducerOp.send batch :: st'.prog ∧ st'.sent = st.sent ++ [batch])
    (hchan : st'.chan = st.chan ∨ ∃ batch, st.chan = batch :: st'.chan)
    (hmutex : (w'.holds = true ↔ st'.mutex = some i) ∧
      ∀ j, j ≠ i → (st'.mutex = some j ↔ st.mutex = some j))
    (hdone : w' = Worker.done → st.closed = true ∧ st'.chan = []) :
    Inv b env ops0 st' := by
  have hnot : ¬ allDone st := fun hall => hnd (allDone_getElem? hall hw)
  have hsub : ∀ op, op ∈ st'.prog → op ∈ st.prog := by
    intro op hop
    rcases hprog with ⟨hp, _⟩ | ⟨batch, hp, _⟩
    · rw [← hp]; exact hop
    · rw [hp]; exact List.mem_cons_of_mem _ hop
  have hsup : ∀ op, rank op ≠ 0 → op ∈ st.prog → op ∈ st'.prog := by
    intro op hr hop
    rcases hprog with ⟨hp, _⟩ | ⟨batch, hp, _⟩
    · rw [hp]; exact hop
    · rw [hp] at hop
      rcases List.mem_cons.1 hop with hop | hop
      · subst hop
        simp [rank] at hr
      · exact hop
  have hnopen : (∃ batch, st.prog = ProducerOp.send batch :: st'.prog) → st.closed = false := by
    rintro ⟨batch, hp⟩
    cases hcl : st.closed with
    | false => rfl
    | true =>
      have := h.closed hcl (.send batch) (by rw [hp]; exact List.mem_cons_self _ _)
      simp [rank] at this
  have hlt : i < st.workers.length := (List.getElem?_eq_some.1 hw).1
  refine ⟨?_, ?_, ?_, ?_, ?_, ?_, ?_, ?_, ?_, ?_, ?_, ?_, ?_, ?_⟩
  · intro j x hx
    rw [hworkers] at hx
    rcases getElem?_set_some hx with ⟨hj, hxw, _⟩ | ⟨hj, hx⟩
    · subst hj; subst hxw
      exact hmutex.1
    · rw [hmutex.2 j hj]
      exact h.mutex j x hx
  · intro j hj
    rw [hworkers, List.length_set]
    by_cases hji : j = i
    · rw [hji]; exact hlt
    · exact h.held j ((hmutex.2 j hji).1 hj)
  · intro x hx hxd
    rw [hworkers] at hx
    rcases mem_set_cases hx with hx | hx
    · subst hx
      have := hdone hxd
      exact ⟨by rw [hclosed]; exact this.1, this.2⟩
    · have hd := h.done x hx hxd
      refine ⟨by rw [hclosed]; exact hd.1, ?_⟩
      rcases hchan with hc | ⟨batch, hc⟩
      · rw [hc]; exact hd.2
      · rw [hd.2] at hc
        cases hc
  · intro hcl op hop
    rw [hclosed] at hcl
    exact h.closed hcl op (hsub op hop)
  · rcases hprog with ⟨hp, _⟩ | ⟨batch, hp, _⟩
    · rw [hp]; exact h.sorted
    · have := h.sorted
      rw [hp] at this
      exact (List.pairwise_cons.1 this).2
  · intro hwt
    rcases h.wait (hsub _ hwt) with hc | hc
    · exact Or.inl (hsup _ (by simp [rank]) hc)
    · exact Or.inr (by rw [hclosed]; exact hc)
  · intro hr
    rcases h.retNone (hsub _ hr) with hc | hc
    · exact Or.inl (hsup _ (by simp [rank]) hc)
    · exact absurd hc hnot
  · intro hr
    rw [hresult] at hr
    exact absurd (h.resNone hr) hnot
  · intro hr
    rw [hresult] at hr
    obtain ⟨e, he⟩ := h.pending hr
    exact ⟨e, hsup _ (by simp [rank]) he⟩
  · rcases hprog with ⟨hp, hs⟩ | ⟨batch, hp, hs⟩
    · rw [hp, hs]; exact h.sent
    · have := h.sent
      rw [hp] at this
      rw [hs]
      simpa [sendsOf] using this
  · rcases hprog with ⟨hp, _⟩ | ⟨batch, hp, _⟩
    · rw [hp]; exact h.suffix
    · have := h.suffix
      rw [hp] at this
      exact (List.suffix_cons _ _).trans this
  · intro r hr
    rw [hresult] at hr
    have := h.result r hr
    refine ⟨this.1, by rw [hcloses]; exact this.2.1, ?_⟩
    rcases hprog with ⟨hp, _⟩ | ⟨batch, hp, _⟩
    · rw [hp]; exact this.2.2
    · rw [this.2.2] at hp
      cases hp
  · intro hr
    rw [hresult] at hr
    rw [hcloses]
    exact h.closes hr
  · rw [hworkers, List.length_set]
    exact h.workers

theorem inv_workerStep {b : BlobArchiver} {env : BackupEnv} {ops0 : List ProducerOp}
    {st : State} (i : Nat) (h : Inv b env ops0 st) :
    Inv b env ops0 (workerStep env i st) := by
  have hfree : ∀ w, st.workers[i]? = some w → w.holds = false → st.mutex ≠ some i := by
    intro w hw hh hm
    have := (h.mutex i w hw).2 hm
    rw [hh] at this
    cases this
  have hheld : ∀ w, st.workers[i]? = some w → w.holds = true → st.mutex = some i :=
    fun w hw hh => (h.mutex i w hw).1 hh
  have hother : ∀ j, j ≠ i → ¬ (some i = some j) := by
    intro j hj hij
    exact hj (Option.some.inj hij).symm
  unfold workerStep
  split
  · exact h
  · rename_i hw
    split
    · rename_i batch chan hc
      exact inv_update h hw (by simp) rfl rfl rfl rfl (Or.inl ⟨rfl, rfl⟩)
        (Or.inr ⟨batch, hc⟩)
        ⟨by simpa [Worker.holds] using hfree _ hw rfl, fun _ _ => Iff.rfl⟩ (by simp)
    · rename_i hc
      split
      · rename_i batch prog hp
        exact inv_update h hw (by simp) rfl rfl rfl rfl (Or.inr ⟨batch, hp, rfl⟩)
          (Or.inl rfl)
          ⟨by simpa [Worker.holds] using hfree _ hw rfl, fun _ _ => Iff.rfl⟩ (by simp)
      · split
        · rename_i hcl
          exact inv_update h hw (by simp) rfl rfl rfl rfl (Or.inl ⟨rfl, rfl⟩) (Or.inl rfl)
            ⟨by simpa [Worker.holds] using hfree _ hw rfl, fun _ _ => Iff.rfl⟩
            (fun _ => ⟨hcl, hc⟩)
        · exact h
  · rename_i hw
    exact inv_update h hw (by simp) rfl rfl rfl rfl (Or.inl ⟨rfl, rfl⟩) (Or.inl rfl)
      ⟨by simpa [Worker.holds] using hfree _ hw rfl, fun _ _ => Iff.rfl⟩ (by simp)
  · rename_i blobItem rest hw
    split
    · exact inv_update h hw (by simp) rfl rfl rfl rfl (Or.inl ⟨rfl, rfl⟩) (Or.inl rfl)
        ⟨by simpa [Worker.holds] using hfree _ hw rfl, fun _ _ => Iff.rfl⟩ (by simp)
    · exact inv_update h hw (by simp) rfl rfl rfl rfl (Or.inl ⟨rfl, rfl⟩) (Or.inl rfl)
        ⟨by simpa [Worker.holds] using hfree _ hw rfl, fun _ _ => Iff.rfl⟩ (by simp)
  · rename_i blobItem body rest hw
    split
    · rename_i hm
      exact inv_update h hw (by simp) rfl rfl rfl rfl (Or.inl ⟨rfl, rfl⟩) (Or.inl rfl)
        ⟨by simp [Worker.holds], fun j hj => by simp [hm, hother j hj]⟩ (by simp)
    · exact h
  · rename_i blobItem body rest hw
    have hm := hheld _ hw rfl
    split
    · exact inv_update h hw (by simp) rfl rfl rfl rfl (Or.inl ⟨rfl, rfl⟩) (Or.inl rfl)
        ⟨by simp [Worker.holds, hm], fun _ _ => Iff.rfl⟩ (by simp)
    · exact inv_update h hw (by simp) rfl rfl rfl rfl (Or.inl ⟨rfl, rfl⟩) (Or.inl rfl)
        ⟨by simp [Worker.holds], fun j hj => by simp [hm, hother j hj]⟩ (by simp)
  · rename_i blobItem body rest hw
    have hm := hheld _ hw rfl
    split
    · exact inv_update h hw (by simp) rfl rfl rfl rfl (Or.inl ⟨rfl, rfl⟩) (Or.inl rfl)
        ⟨by simp [Worker.holds], fun j hj => by simp [hm, hother j hj]⟩ (by simp)
    · exact inv_update h hw (by simp) rfl rfl rfl rfl (Or.inl ⟨rfl, rfl⟩) (Or.inl rfl)
        ⟨by simp [Worker.holds], fun j hj => by simp [hm, hother j hj]⟩ (by simp)
  · exact h

theorem inv_step {b : BlobArchiver} {env : BackupEnv} {ops0 : List ProducerOp}
    {st : State} (t : Nat) (h : Inv b env ops0 st) : Inv b env ops0 (step b env st t) := by
  cases t with
  | zero => exact inv_producerStep h
  | succ i => exact inv_workerStep i h

theorem inv_run {b : BlobArchiver} {env : BackupEnv} {ops0 : List ProducerOp}
    (sched : List Nat) : ∀ {st : State}, Inv b env ops0 st → Inv b env ops0 (run b env st sched) := by
  induction sched with
  | nil => intro st h; exact h
  | cons t sched ih =>
    intro st h
    exact ih (inv_step t h)

/-! ### The initial state -/

theorem producer_shape (BatchSize : Nat) (pages : List PageResult) :
    ∃ bs : List (List BlobItem),
      producer BatchSize pages = bs.map ProducerOp.send ++ [.close, .wait, .ret none] ∨
      ∃ e, producer BatchSize pages = bs.map ProducerOp.send ++ [.ret (some e)] := by
  unfold producer
  rcases streamPages BatchSize pages [] with ⟨sent, r⟩
  cases r with
  | error e => exact ⟨sent, Or.inr ⟨e, rfl⟩⟩
  | ok batch =>
    by_cases hb : batch.length > 0
    · refine ⟨sent ++ [batch], Or.inl ?_⟩
      simp [hb]
    · refine ⟨sent, Or.inl ?_⟩
      simp [hb]

theorem inv_init (b : BlobArchiver) (env : BackupEnv) (pages : List PageResult) :
    Inv b env (producer b.BatchSize pages) (State.init b pages) := by
  obtain ⟨bs, hshape⟩ := producer_shape b.BatchSize pages
  have hsorted : (producer b.BatchSize pages).Pairwise (fun x y => rank x ≤ rank y) := by
    have hsends : (bs.map ProducerOp.send).Pairwise (fun x y => rank x ≤ rank y) := by
      rw [List.pairwise_map]
      exact List.pairwise_of_forall (fun _ _ => Nat.le_refl _)
    have hlow : ∀ x ∈ bs.map ProducerOp.send, ∀ y : ProducerOp, rank x ≤ rank y := by
      intro x hx y
      obtain ⟨batch, _, rfl⟩ := List.mem_map.1 hx
      exact Nat.zero_le _
    rcases hshape with h | ⟨e, h⟩ <;> rw [h] <;> rw [List.pairwise_append] <;>
      refine ⟨hsends, ?_, fun x hx y _ => hlow x hx y⟩ <;> simp [rank]
  have hwait : ProducerOp.wait ∈ producer b.BatchSize pages →
      ProducerOp.close ∈ producer b.BatchSize pages := by
    rcases hshape with h | ⟨e, h⟩ <;> rw [h] <;> simp
  have hret : ProducerOp.ret none ∈ producer b.BatchSize pages →
      ProducerOp.wait ∈ producer b.BatchSize pages := by
    rcases hshape with h | ⟨e, h⟩ <;> rw [h] <;> simp
  have hpend : ∃ e, ProducerOp.ret e ∈ producer b.BatchSize pages := by
    rcases hshape with h | ⟨e, h⟩
    · exact ⟨none, by rw [h]; simp⟩
    · exact ⟨some e, by rw [h]; simp⟩
  refine ⟨?_, ?_, ?_, ?_, hsorted, ?_, ?_, ?_, ?_, ?_, ?_, ?_, ?_, ?_⟩
  · intro i w hw
    simp only [State.init] at hw ⊢
    rw [List.getElem?_replicate] at hw
    split at hw
    · simp only [Option.some.injEq] at hw
      subst hw
      simp [Worker.holds]
    · cases hw
  · intro i hi
    simp [State.init] at hi
  · intro w hw hd
    simp only [State.init] at hw
    rw [List.mem_replicate] at hw
    rw [hw.2] at hd
    cases hd
  · intro hc
    simp [State.init] at hc
  · intro hw
    exact Or.inl (hwait hw)
  · intro hr
    exact Or.inl (hret hr)
  · intro hr
    simp [State.init] at hr
  · intro _
    exact hpend
  · simp [State.init]
  · exact List.suffix_refl _
  · intro r hr
    simp [State.init] at hr
  · intro _
    rfl
  · simp [State.init]

/-- Every state of every run of `StreamBlobsToTar` satisfies the invariant. -/
theorem inv_StreamBlobsToTar (b : BlobArchiver) (env : BackupEnv) (pages : List PageResult)
    (sched : List Nat) :
    Inv b env (producer b.BatchSize pages) (StreamBlobsToTar b env pages sched) :=
  inv_run sched (inv_init b env pages)

/-! ### Progress: a run with at least one worker can always reach the return -/

theorem sum_map_set {α M : Type} [AddCommMonoid M] (f : α → M) :
    ∀ (l : List α) (i : Nat) (a a' : α), l[i]? = some a →
      ((l.set i a').map f).sum + f a = (l.map f).sum + f a' := by
  intro l
  induction l with
  | nil => intro i a a' h; simp at h
  | cons x xs ih =>
    intro i a a' h
    cases i with
    | zero =>
      simp only [List.getElem?_cons_zero, Option.some.injEq] at h
      subst h
      simp only [List.set_cons_zero, List.map_cons, List.sum_cons]
      abel
    | succ i =>
      simp only [List.getElem?_cons_succ] at h
      simp only [List.set_cons_succ, List.map_cons, List.sum_cons]
      rw [add_assoc, ih i a a' h, add_assoc]

theorem cost_set {st : State} {i : Nat} {w : Worker} (w' : Worker)
    (hw : st.workers[i]? = some w) :
    ((st.workers.set i w').map Worker.cost).sum + w.cost =
      (st.workers.map Worker.cost).sum + w'.cost :=
  sum_map_set Worker.cost st.workers i w w' hw

/-- A move of worker `i` lowers the cost, unless the worker is blocked: at a
receive with nothing to take and the channel open, at `Lock` with the mutex
held, or returned. -/
theorem workerStep_cost (env : BackupEnv) (i : Nat) (st : State) (w : Worker)
    (hw : st.workers[i]? = some w) :
    (workerStep env i st).cost < st.cost ∨
    (w = Worker.recv ∧ st.chan = [] ∧ sendsOf (st.prog.take 1) = [] ∧ st.closed = false) ∨
    ((∃ blobItem body rest, w = Worker.lock blobItem body rest) ∧ st.mutex ≠ none) ∨
    w = Worker.done := by
  unfold workerStep
  rw [hw]
  cases w with
  | recv =>
    simp only
    cases hc : st.chan with
    | cons batch chan =>
      left
      have := cost_set (.next batch) hw
      simp only [State.cost, hc, List.map_cons, List.sum_cons, Worker.cost, batchCost] at this ⊢
      omega
    | nil =>
      simp only
      cases hp : st.prog with
      | nil =>
        simp only
        cases hcl : st.closed with
        | true =>
          left
          have := cost_set .done hw
          simp only [State.cost, hc, hp, Worker.cost, if_true] at this ⊢
          omega
        | false =>
          right; left
          simp [sendsOf]
      | cons op prog =>
        cases op with
        | send batch =>
          left
          have := cost_set (.next batch) hw
          simp only [State.cost, hc, hp, List.map_cons, List.sum_cons, Worker.cost, batchCost,
            opCost] at this ⊢
          omega
        | close =>
          simp only
          cases hcl : st.closed with
          | true =>
            left
            have := cost_set .done hw
            simp only [State.cost, hc, hp, Worker.cost, if_true] at this ⊢
            omega
          | false =>
            right; left
            simp [sendsOf]
        | wait =>
          simp only
          cases hcl : st.closed with
          | true =>
            left
            have := cost_set .done hw
            simp only [State.cost, hc, hp, Worker.cost, if_true] at this ⊢
            omega
          | false =>
            right; left
            simp [sendsOf]
        | ret e =>
          simp only
          cases hcl : st.closed with
          | true =>
            left
            have := cost_set .done hw
            simp only [State.cost, hc, hp, Worker.cost, if_true] at this ⊢
            omega
          | false =>
            right; left
            simp [sendsOf]
  | next batch =>
    left
    cases batch with
    | nil =>
      have := cost_set .recv hw
      simp only [State.cost, Worker.cost, List.length_nil] at this ⊢
      omega
    | cons blobItem rest =>
      simp only
      cases hd : env.download blobItem with
      | none =>
        have := cost_set .recv hw
        simp only [State.cost, Worker.cost, List.length_cons] at this ⊢
        omega
      | some body =>
        have := cost_set (.lock blobItem body rest) hw
        simp only [State.cost, Worker.cost, List.length_cons] at this ⊢
        omega
  | lock blobItem body rest =>
    simp only
    cases hm : st.mutex with
    | none =>
      left
      have := cost_set (.hdr blobItem body rest) hw
      simp only [State.cost, Worker.cost] at this ⊢
      omega
    | some j =>
      right; right; left
      exact ⟨⟨blobItem, body, rest, rfl⟩, by simp⟩
  | hdr blobItem body rest =>
    left
    simp only
    split
    · have := cost_set (.copy blobItem body rest) hw
      simp only [State.cost, Worker.cost] at this ⊢
      omega
    · have := cost_set .recv hw
      simp only [State.cost, Worker.cost] at this ⊢
      omega
  | copy blobItem body rest =>
    left
    simp only
    split
    · have := cost_set (.next rest) hw
      simp only [State.cost, Worker.cost] at this ⊢
      omega
    · have := cost_set .recv hw
      simp only [State.cost, Worker.cost] at this ⊢
      omega
  | done => right; right; right; rfl

/-- A move of the producer lowers the cost, unless it has returned or is
blocked: at a send with the buffer full, or at `wg.Wait()` with a worker still
running. -/
theorem producerStep_cost (b : BlobArchiver) (env : BackupEnv) (st : State) :
    (producerStep b env st).cost < st.cost ∨ st.prog = [] ∨
    (∃ batch prog, st.prog = ProducerOp.send batch :: prog ∧ b.BatchSize ≤ st.chan.length) ∨
    (∃ prog, st.prog = ProducerOp.wait :: prog ∧ ¬ allDone st) := by
  unfold producerStep
  cases hp : st.prog with
  | nil => right; left; rfl
  | cons op prog =>
    cases op with
    | send batch =>
      simp only
      by_cases hroom : st.chan.length < b.BatchSize
      · left
        simp only [hroom, if_true, State.cost, hp, List.map_cons, List.sum_cons, opCost,
          List.map_append, List.sum_append, List.map_nil, List.sum_nil]
        omega
      · right; right; left
        exact ⟨batch, prog, rfl, by omega⟩
    | close =>
      left
      simp only [State.cost, hp, List.map_cons, List.sum_cons, opCost]
      omega
    | wait =>
      simp only
      by_cases hall : st.workers.all Worker.isDone = true
      · left
        simp only [hall, if_true, State.cost, hp, List.map_cons, List.sum_cons, opCost]
        omega
      · right; right; right
        exact ⟨prog, rfl, fun hd => hall ((allDone_all st).2 hd)⟩
    | ret e =>
      left
      simp only [State.cost, hp, List.map_cons, List.sum_cons, opCost, List.map_nil,
        List.sum_nil]
      omega

/-- Progress: in a state of a run with at least one worker, as long as
`StreamBlobsToTar` has not returned some thread can move, and its move lowers
the cost. -/
theorem progress {b : BlobArchiver} {env : BackupEnv} {ops0 : List ProducerOp} {st : State}
    (h : Inv b env ops0 st) (hW : 1 ≤ b.Workers) (hr : st.result = none) :
    ∃ t, (step b env st t).cost < st.cost := by
  by_cases hbusy : ∃ (i : Nat) (w : Worker),
      st.workers[i]? = some w ∧ w ≠ Worker.recv ∧ w ≠ Worker.done
  · obtain ⟨i, w, hw, hnr, hnd⟩ := hbusy
    cases hm : st.mutex with
    | none =>
      refine ⟨i + 1, ?_⟩
      rcases workerStep_cost env i st w hw with hlt | ⟨hrecv, _⟩ | ⟨_, hmx⟩ | hdone
      · exact hlt
      · exact absurd hrecv hnr
      · exact absurd hm hmx
      · exact absurd hdone hnd
    | some j =>
      have hj := h.held j hm
      have hwj : st.workers[j]? = some st.workers[j] := List.getElem?_eq_getElem hj
      have hholds := (h.mutex j _ hwj).2 hm
      refine ⟨j + 1, ?_⟩
      rcases workerStep_cost env j st _ hwj with hlt | ⟨hrecv, _⟩ | ⟨⟨_, _, _, hl⟩, _⟩ | hdone
      · exact hlt
      · rw [hrecv] at hholds; cases hholds
      · rw [hl] at hholds; cases hholds
      · rw [hdone] at hholds; cases hholds
  · have hidle : ∀ (i : Nat) (w : Worker),
        st.workers[i]? = some w → w = Worker.recv ∨ w = Worker.done := by
      intro i w hw
      by_contra hcon
      exact hbusy ⟨i, w, hw, fun h1 => hcon (Or.inl h1), fun h1 => hcon (Or.inr h1)⟩
    obtain ⟨e, he⟩ := h.pending hr
    cases hp : st.prog with
    | nil => rw [hp] at he; cases he
    | cons op prog =>
      cases op with
      | send batch =>
        have h0 : 0 < st.workers.length := by rw [h.workers]; exact hW
        have hw0 : st.workers[0]? = some st.workers[0] := List.getElem?_eq_getElem h0
        refine ⟨1, ?_⟩
        rcases hidle 0 _ hw0 with hrecv | hdone
        · rcases workerStep_cost env 0 st _ hw0 with hlt | ⟨_, _, hs, _⟩ | ⟨⟨_, _, _, hl⟩, _⟩
            | hdone
          · exact hlt
          · rw [hp] at hs
            simp [sendsOf] at hs
          · rw [hl] at hrecv; cases hrecv
          · rw [hdone] at hrecv; cases hrecv
        · have hcl := (h.done _ (List.getElem_mem h0) hdone).1
          have := h.closed hcl (.send batch) (by rw [hp]; exact List.mem_cons_self _ _)
          simp [rank] at this
      | close =>
        refine ⟨0, ?_⟩
        rcases producerStep_cost b env st with hlt | hnil | ⟨_, _, hs, _⟩ | ⟨_, hs, _⟩
        · exact hlt
        · rw [hp] at hnil; cases hnil
        · rw [hp] at hs; cases hs
        · rw [hp] at hs; cases hs
      | wait =>
        by_cases hall : allDone st
        · refine ⟨0, ?_⟩
          rcases producerStep_cost b env st with hlt | hnil | ⟨_, _, hs, _⟩ | ⟨_, _, hnot⟩
          · exact hlt
          · rw [hp] at hnil; cases hnil
          · rw [hp] at hs; cases hs
          · exact absurd hall hnot
        · have hcl : st.closed = true := by
            rcases h.wait (by rw [hp]; exact List.mem_cons_self _ _) with hc | hc
            · have hs := h.sorted
              rw [hp] at hs hc
              rcases List.mem_cons.1 hc with hc | hc
              · cases hc
              · have := (List.pairwise_cons.1 hs).1 _ hc
                simp [rank] at this
            · exact hc
          simp only [allDone, not_forall] at hall
          obtain ⟨w, hw, hnd⟩ := hall
          obtain ⟨i, hi⟩ := List.mem_iff_getElem?.1 hw
          refine ⟨i + 1, ?_⟩
          rcases workerStep_cost env i st w hi with hlt | ⟨_, _, _, hopen⟩ | ⟨⟨_, _, _, hl⟩, _⟩
            | hdone
          · exact hlt
          · rw [hcl] at hopen; cases hopen
          · rcases hidle i w hi with h1 | h1 <;> rw [hl] at h1 <;> cases h1
          · exact absurd hdone hnd
      | ret e' =>
        refine ⟨0, ?_⟩
        rcases producerStep_cost b env st with hlt | hnil | ⟨_, _, hs, _⟩ | ⟨_, hs, _⟩
        · exact hlt
        · rw [hp] at hnil; cases hnil
        · rw [hp] at hs; cases hs
        · rw [hp] at hs; cases hs

theorem exists_return_of_cost {b : BlobArchiver} {env : BackupEnv} {ops0 : List ProducerOp}
    (hW : 1 ≤ b.Workers) :
    ∀ (n : Nat) (st : State), st.cost ≤ n → Inv b env ops0 st →
      ∃ sched, (run b env st sched).result ≠ none := by
  intro n
  induction n with
  | zero =>
    intro st hc h
    by_cases hr : st.result = none
    · obtain ⟨t, ht⟩ := progress h hW hr
      omega
    · exact ⟨[], hr⟩
  | succ n ih =>
    intro st hc h
    by_cases hr : st.result = none
    · obtain ⟨t, ht⟩ := progress h hW hr
      obtain ⟨sched, hs⟩ := ih (step b env st t) (by omega) (inv_step t h)
      exact ⟨t :: sched, hs⟩
    · exact ⟨[], hr⟩

/-- With at least one worker, every run of `StreamBlobsToTar` can be continued
to the return: no reachable state is a deadlock. -/
theorem exists_return (b : BlobArchiver) (env : BackupEnv) (pages : List PageResult)
    (hW : 1 ≤ b.Workers) (sched : List Nat) :
    ∃ more, (StreamBlobsToTar b env pages (sched ++ more)).result ≠ none := by
  obtain ⟨more, h⟩ := exists_return_of_cost hW _ _ (Nat.le_refl _)
    (inv_StreamBlobsToTar b env pages sched)
  refine ⟨more, ?_⟩
  unfold StreamBlobsToTar run at *
  rw [List.foldl_append]
  exact h

/-! ### Conservation of the listed objects when nothing fails -/

theorem pending_set (x : BlobItem) {st : State} {i : Nat} {w : Worker} (w' : Worker)
    (hw : st.workers[i]? = some w) :
    ((st.workers.set i w').map (fun w => w.pending.count x)).sum + w.pending.count x =
      (st.workers.map (fun w => w.pending.count x)).sum + w'.pending.count x :=
  sum_map_set (fun w => w.pending.count x) st.workers i w w' hw

theorem pending_le_outstanding (x : BlobItem) {st : State} {i : Nat} {w : Worker}
    (hw : st.workers[i]? = some w) : w.pending.count x ≤ outstanding x st := by
  have := pending_set x Worker.recv hw
  have h0 : Worker.recv.pending.count x = 0 := rfl
  unfold outstanding
  omega

theorem mem_items_of_pending {env : BackupEnv} {items : List BlobItem} {st : State}
    (hc : Conserve env items st) {i : Nat} {w : Worker} {x : BlobItem}
    (hw : st.workers[i]? = some w) (hx : x ∈ w.pending) : x ∈ items := by
  obtain ⟨_, d, _, hcount⟩ := hc
  have h1 := pending_le_outstanding x hw
  have h2 := hcount x
  have h3 : 0 < w.pending.count x := List.count_pos_iff.2 hx
  exact List.count_pos_iff.1 (by omega)

theorem inflight_set_ne {mutex : Option Nat} {workers : List Worker} {i : Nat} (w' : Worker)
    (h : mutex ≠ some i) : inflight mutex (workers.set i w') = inflight mutex workers := by
  unfold inflight
  cases mutex with
  | none => rfl
  | some j =>
    have hij : i ≠ j := fun hij => h (by rw [hij])
    simp only
    rw [List.getElem?_set_ne hij]

theorem archiveOf_append (env : BackupEnv) (xs ys : List BlobItem) :
    archiveOf env (xs ++ ys) = archiveOf env xs ++ archiveOf env ys := by
  simp [archiveOf, List.flatMap_append]

theorem conserve_producerStep {b : BlobArchiver} {env : BackupEnv} {ops0 : List ProducerOp}
    {items : List BlobItem} {st : State} (h : Inv b env ops0 st)
    (hc : Conserve env items st) : Conserve env items (producerStep b env st) := by
  obtain ⟨hf, d, htar, hcount⟩ := hc
  unfold producerStep
  split
  · exact ⟨hf, d, htar, hcount⟩
  · rename_i batch prog hp
    split
    · refine ⟨hf, d, htar, ?_⟩
      intro x
      have := hcount x
      simp only [outstanding, hp, sendsOf, List.map_cons, List.sum_cons, List.map_append,
        List.sum_append, List.map_nil, List.sum_nil] at this ⊢
      omega
    · exact ⟨hf, d, htar, hcount⟩
  · rename_i prog hp
    refine ⟨hf, d, htar, ?_⟩
    intro x
    have := hcount x
    simp only [outstanding, hp, sendsOf] at this ⊢
    exact this
  · rename_i prog hp
    split
    · refine ⟨hf, d, htar, ?_⟩
      intro x
      have := hcount x
      simp only [outstanding, hp, sendsOf] at this ⊢
      exact this
    · exact ⟨hf, d, htar, hcount⟩
  · rename_i err prog hp
    have hs := h.sorted
    rw [hp] at hs
    have hns : sendsOf prog = [] := by
      apply sendsOf_eq_nil_of_rank
      intro op hop
      have := (List.pairwise_cons.1 hs).1 op hop
      have h3 : rank (ProducerOp.ret err) = 3 := rfl
      omega
    refine ⟨hf, d, htar, ?_⟩
    intro x
    have := hcount x
    simp only [outstanding, hp, sendsOf, hns] at this ⊢
    exact this

/-- A move of worker `i` that writes nothing and leaves the mutex alone keeps
conservation when the objects it holds afterwards are those it held before
plus the batch it took. -/
theorem conserve_update {env : BackupEnv} {items : List BlobItem} {st st' : State}
    {i : Nat} {w w' : Worker} (hc : Conserve env items st)
    (hw : st.workers[i]? = some w)
    (hworkers : st'.workers = st.workers.set i w')
    (htar : st'.tar = st.tar) (hmutex : st'.mutex = st.mutex) (hfree : st.mutex ≠ some i)
    (hfetched : ∀ blobItem body, w'.fetched = some (blobItem, body) →
      env.download blobItem = some body)
    (hcount : ∀ x, ((sendsOf st'.prog).map (List.count x)).sum +
        (st'.chan.map (List.count x)).sum + w'.pending.count x =
      ((sendsOf st.prog).map (List.count x)).sum + (st.chan.map (List.count x)).sum +
        w.pending.count x) :
    Conserve env items st' := by
  obtain ⟨hf, d, ht, hcnt⟩ := hc
  refine ⟨?_, d, ?_, ?_⟩
  · intro j x blobItem body hx hxf
    rw [hworkers] at hx
    rcases getElem?_set_some hx with ⟨_, hxw, _⟩ | ⟨_, hx⟩
    · subst hxw
      exact hfetched blobItem body hxf
    · exact hf j x blobItem body hx hxf
  · rw [htar, hmutex, hworkers, inflight_set_ne w' hfree]
    exact ht
  · intro x
    have h1 := hcnt x
    have h2 := hcount x
    have h3 := pending_set x w' hw
    simp only [outstanding] at h1 ⊢
    rw [hworkers]
    omega

theorem inflight_some_set {workers : List Worker} {i : Nat} {w : Worker} (w' : Worker)
    (hw : workers[i]? = some w) :
    inflight (some i) (workers.set i w') =
      match w' with
      | .copy blobItem _ _ => [.header (mkHeader blobItem)]
      | _ => [] := by
  have hlt : i < workers.length := (List.getElem?_eq_some.1 hw).1
  unfold inflight
  simp only [List.getElem?_set_self hlt]
  cases w' <;> rfl

theorem inflight_some {workers : List Worker} {i : Nat} {w : Worker}
    (hw : workers[i]? = some w) :
    inflight (some i) workers =
      match w with
      | .copy blobItem _ _ => [.header (mkHeader blobItem)]
      | _ => [] := by
  unfold inflight
  simp only [hw]
  cases w <;> rfl

theorem fetched_set {env : BackupEnv} {st : State} {i : Nat} {w' : Worker}
    (hf : ∀ (j : Nat) (w : Worker) (blobItem : BlobItem) (body : Body),
      st.workers[j]? = some w → w.fetched = some (blobItem, body) →
      env.download blobItem = some body)
    (hnew : ∀ blobItem body, w'.fetched = some (blobItem, body) →
      env.download blobItem = some body) :
    ∀ (j : Nat) (w : Worker) (blobItem : BlobItem) (body : Body),
      (st.workers.set i w')[j]? = some w → w.fetched = some (blobItem, body) →
      env.download blobItem = some body := by
  intro j x blobItem body hx hxf
  rcases getElem?_set_some hx with ⟨_, hxw, _⟩ | ⟨_, hx⟩
  · subst hxw
    exact hnew blobItem body hxf
  · exact hf j x blobItem body hx hxf

theorem conserve_workerStep {b : BlobArchiver} {env : BackupEnv} {ops0 : List ProducerOp}
    {items : List BlobItem} {st : State} (i : Nat) (h : Inv b env ops0 st)
    (hok : noFailure env items) (hc : Conserve env items st) :
    Conserve env items (workerStep env i st) := by
  have hfree : ∀ w, st.workers[i]? = some w → w.holds = false → st.mutex ≠ some i := by
    intro w hw hh hm
    have := (h.mutex i w hw).2 hm
    rw [hh] at this
    cases this
  have hheld : ∀ w, st.workers[i]? = some w → w.holds = true → st.mutex = some i :=
    fun w hw hh => (h.mutex i w hw).1 hh
  unfold workerStep
  split
  · exact hc
  · rename_i hw
    split
    · rename_i batch chan hch
      refine conserve_update hc hw rfl rfl rfl (hfree _ hw rfl) (by simp [Worker.fetched]) ?_
      intro x
      simp only [hch, Worker.pending, List.map_cons, List.sum_cons, List.count_nil]
      omega
    · split
      · rename_i batch prog hp
        refine conserve_update hc hw rfl rfl rfl (hfree _ hw rfl) (by simp [Worker.fetched]) ?_
        intro x
        simp only [hp, sendsOf, Worker.pending, List.map_cons, List.sum_cons, List.count_nil]
        omega
      · split
        · refine conserve_update hc hw rfl rfl rfl (hfree _ hw rfl)
            (by simp [Worker.fetched]) ?_
          intro x
          simp only [Worker.pending]
        · exact hc
  · rename_i hw
    refine conserve_update hc hw rfl rfl rfl (hfree _ hw rfl) (by simp [Worker.fetched]) ?_
    intro x
    simp only [Worker.pending]
  · rename_i blobItem rest hw
    have hmem : blobItem ∈ items :=
      mem_items_of_pending hc hw (by simp [Worker.pending])
    split
    · rename_i hd
      have := (hok blobItem hmem).1
      rw [hd] at this
      cases this
    · rename_i body hd
      refine conserve_update hc hw rfl rfl rfl (hfree _ hw rfl) ?_ ?_
      · intro x bd hx
        simp only [Worker.fetched, Option.some.injEq, Prod.mk.injEq] at hx
        obtain ⟨rfl, rfl⟩ := hx
        exact hd
      · intro x
        simp only [Worker.pending]
  · rename_i blobItem body rest hw
    split
    · rename_i hm
      obtain ⟨hf, d, ht, hcnt⟩ := hc
      refine ⟨fetched_set hf ?_, d, ?_, ?_⟩
      · intro x bd hx
        simp only [Worker.fetched, Option.some.injEq, Prod.mk.injEq] at hx
        obtain ⟨rfl, rfl⟩ := hx
        exact hf i _ _ _ hw rfl
      · simp only
        rw [inflight_some_set _ hw]
        rw [hm] at ht
        exact ht
      · intro x
        have h1 := hcnt x
        have h3 := pending_set x (.hdr blobItem body rest) hw
        simp only [outstanding, Worker.pending] at h1 h3 ⊢
        omega
    · exact hc
  · rename_i blobItem body rest hw
    have hm := hheld _ hw rfl
    have hmem : blobItem ∈ items :=
      mem_items_of_pending hc hw (by simp [Worker.pending])
    obtain ⟨hf, d, ht, hcnt⟩ := hc
    split
    · refine ⟨fetched_set hf ?_, d, ?_, ?_⟩
      · intro x bd hx
        simp only [Worker.fetched, Option.some.injEq, Prod.mk.injEq] at hx
        obtain ⟨rfl, rfl⟩ := hx
        exact hf i _ _ _ hw rfl
      · simp only
        rw [hm, inflight_some_set _ hw]
        rw [hm, inflight_some hw] at ht
        simp only [List.append_nil] at ht
        rw [ht]
      · intro x
        have h1 := hcnt x
        have h3 := pending_set x (.copy blobItem body rest) hw
        simp only [outstanding, Worker.pending] at h1 h3 ⊢
        omega
    · rename_i hbad
      exact absurd (hok blobItem hmem).2.1 hbad
  · rename_i blobItem body rest hw
    have hm := hheld _ hw rfl
    have hmem : blobItem ∈ items :=
      mem_items_of_pending hc hw (by simp [Worker.pending])
    obtain ⟨hf, d, ht, hcnt⟩ := hc
    split
    · have hbody := hf i _ _ _ hw rfl
      refine ⟨fetched_set hf (by simp [Worker.fetched]), d ++ [blobItem], ?_, ?_⟩
      · simp only
        rw [hm, inflight_some hw] at ht
        rw [ht, archiveOf_append]
        simp [archiveOf, inflight, hbody]
      · intro x
        have h1 := hcnt x
        have h3 := pending_set x (.next rest) hw
        simp only [outstanding, Worker.pending, List.count_cons, List.count_append,
          List.count_nil] at h1 h3 ⊢
        omega
    · rename_i hbad
      exact absurd (hok blobItem hmem).2.2 hbad
  · exact hc

theorem conserve_run {b : BlobArchiver} {env : BackupEnv} {ops0 : List ProducerOp}
    {items : List BlobItem} (hok : noFailure env items) (sched : List Nat) :
    ∀ {st : State}, Inv b env ops0 st → Conserve env items st →
      Conserve env items (run b env st sched) := by
  induction sched with
  | nil => intro st _ hc; exact hc
  | cons t sched ih =>
    intro st h hc
    refine ih (inv_step t h) ?_
    cases t with
    | zero => exact conserve_producerStep h hc
    | succ i => exact conserve_workerStep i h hok hc

/-! ### The batches the producer sends -/

theorem streamItems_flatten (s : Nat) :
    ∀ (items batch : List BlobItem),
      (streamItems s items batch).1.flatten ++ (streamItems s items batch).2 = batch ++ items := by
  intro items
  induction items with
  | nil => intro batch; simp [streamItems]
  | cons x xs ih =>
    intro batch
    simp only [streamItems]
    split
    · have := ih []
      simp only [List.flatten_cons, List.append_assoc, this]
      simp
    · rw [ih]
      simp

theorem streamItems_length (s : Nat) :
    ∀ (items batch : List BlobItem), batch.length < s →
      (∀ x ∈ (streamItems s items batch).1, x.length = s) ∧
      (streamItems s items batch).2.length < s := by
  intro items
  induction items with
  | nil => intro batch hb; simp [streamItems, hb]
  | cons x xs ih =>
    intro batch hb
    simp only [streamItems]
    split
    · rename_i hge
      have hlen : (batch ++ [x]).length = s := by
        simp only [List.length_append, List.length_singleton] at hge ⊢
        omega
      have := ih [] (by simp only [List.length_nil]; omega)
      refine ⟨?_, this.2⟩
      intro y hy
      rcases List.mem_cons.1 hy with hy | hy
      · rw [hy]; exact hlen
      · exact this.1 y hy
    · rename_i hlt
      exact ih _ (by omega)

theorem streamPages_ok (s : Nat) :
    ∀ (pages : List (List BlobItem)) (batch : List BlobItem), batch.length < s →
      ∃ sent rest, streamPages s (pages.map Except.ok) batch = (sent, Except.ok rest) ∧
        sent.flatten ++ rest = batch ++ listed pages ∧
        (∀ x ∈ sent, x.length = s) ∧ rest.length < s := by
  intro pages
  induction pages with
  | nil =>
    intro batch hb
    exact ⟨[], batch, rfl, by simp [listed], by simp, hb⟩
  | cons page pages ih =>
    intro batch hb
    have h1 := streamItems_flatten s page batch
    have h2 := streamItems_length s page batch hb
    obtain ⟨sent, rest, he, hfl, hlen, hrest⟩ := ih (streamItems s page batch).2 h2.2
    refine ⟨(streamItems s page batch).1 ++ sent, rest, ?_, ?_, ?_, hrest⟩
    · simp only [List.map_cons, streamPages, he]
    · simp only [List.flatten_append, List.append_assoc, hfl, listed, List.flatten_cons]
      rw [← List.append_assoc, h1, List.append_assoc]
    · intro x hx
      rcases List.mem_append.1 hx with hx | hx
      · exact h2.1 x hx
      · exact hlen x hx

theorem chunks_cons {α : Type} (s : Nat) (hs : 1 ≤ s) (x l : List α) (hx : x.length = s) :
    chunks s (x ++ l) = x :: chunks s l := by
  have hdiv : (x ++ l).length / s = l.length / s + 1 := by
    rw [List.length_append, hx, Nat.add_comm, Nat.add_div_right _ hs]
  have hmod : (x ++ l).length % s = l.length % s := by
    rw [List.length_append, hx, Nat.add_comm, Nat.add_mod_right]
  have hdrop : ∀ i, (x ++ l).drop ((i + 1) * s) = l.drop (i * s) := by
    intro i
    have : (i + 1) * s = x.length + i * s := by rw [hx, Nat.add_mul, Nat.one_mul, Nat.add_comm]
    rw [this, List.drop_append]
  unfold chunks
  rw [hdiv, hmod, List.range_succ_eq_map, List.map_cons, List.map_map, hdrop]
  simp only [Nat.zero_mul, List.drop_zero, List.cons_append, List.cons.injEq]
  refine ⟨?_, ?_⟩
  · rw [← hx, List.take_left']
    rfl
  · congr 1
    apply List.map_congr_left
    intro i _
    simp only [Function.comp, Nat.succ_eq_add_one, hdrop]

theorem chunks_of_flatten {α : Type} (s : Nat) (hs : 1 ≤ s) :
    ∀ (sent : List (List α)) (rest : List α), (∀ x ∈ sent, x.length = s) → rest.length < s →
      sent ++ (if rest.length > 0 then [rest] else []) = chunks s (sent.flatten ++ rest) := by
  intro sent
  induction sent with
  | nil =>
    intro rest _ hr
    simp only [List.flatten_nil, List.nil_append, chunks, Nat.div_eq_of_lt hr,
      Nat.mod_eq_of_lt hr, List.range_zero, List.map_nil, Nat.zero_mul, List.drop_zero]
    by_cases h0 : rest.length = 0
    · simp [h0]
    · have : rest.length > 0 := by omega
      simp [h0, this]
  | cons x sent ih =>
    intro rest hlen hr
    have := ih rest (fun y hy => hlen y (List.mem_cons_of_mem _ hy)) hr
    rw [List.flatten_cons, List.append_assoc,
      chunks_cons s hs x _ (hlen x (List.mem_cons_self _ _)), ← this]
    rfl

/-- The batches the producer sends for a listing without errors are the
consecutive chunks of the concatenated pages. -/
theorem sendsOf_producer_ok (s : Nat) (hs : 1 ≤ s) (pages : List (List BlobItem)) :
    sendsOf (producer s (pages.map Except.ok)) = chunks s (listed pages) := by
  obtain ⟨sent, rest, he, hfl, hlen, hrest⟩ := streamPages_ok s pages [] (by simpa using hs)
  simp only [List.nil_append] at hfl
  rw [← hfl, ← chunks_of_flatten s hs sent rest hlen hrest]
  unfold producer
  rw [he]
  simp only [sendsOf_append, sendsOf_map_send]
  by_cases h0 : rest.length > 0
  · simp [h0, sendsOf]
  · simp [h0, sendsOf]

theorem streamPages_flatten (s : Nat) :
    ∀ (pages : List (List BlobItem)) (batch : List BlobItem),
      ∃ sent rest, streamPages s (pages.map Except.ok) batch = (sent, Except.ok rest) ∧
        sent.flatten ++ rest = batch ++ listed pages := by
  intro pages
  induction pages with
  | nil =>
    intro batch
    exact ⟨[], batch, rfl, by simp [listed]⟩
  | cons page pages ih =>
    intro batch
    have h1 := streamItems_flatten s page batch
    obtain ⟨sent, rest, he, hfl⟩ := ih (streamItems s page batch).2
    refine ⟨(streamItems s page batch).1 ++ sent, rest, ?_, ?_⟩
    · simp only [List.map_cons, streamPages, he]
    · simp only [List.flatten_append, List.append_assoc, hfl, listed, List.flatten_cons]
      rw [← List.append_assoc, h1, List.append_assoc]

/-- For a listing without errors the producer's program is the sends, then
`close`, `wait` and the successful return, and the batches sent concatenate
to the listing. -/
theorem producer_ok (s : Nat) (pages : List (List BlobItem)) :
    ∃ bs : List (List BlobItem),
      producer s (pages.map Except.ok) = bs.map ProducerOp.send ++ [.close, .wait, .ret none] ∧
      bs.flatten = listed pages := by
  obtain ⟨sent, rest, he, hfl⟩ := streamPages_flatten s pages []
  simp only [List.nil_append] at hfl
  unfold producer
  rw [he]
  by_cases h0 : rest.length > 0
  · refine ⟨sent ++ [rest], by simp [h0], ?_⟩
    simpa using hfl
  · refine ⟨sent, by simp [h0], ?_⟩
    have : rest = [] := List.length_eq_zero.1 (by omega)
    rw [this] at hfl
    simpa using hfl

theorem sendsOf_producer_flatten (s : Nat) (pages : List (List BlobItem)) :
    (sendsOf (producer s (pages.map Except.ok))).flatten = listed pages := by
  obtain ⟨bs, hp, hfl⟩ := producer_ok s pages
  rw [hp, sendsOf_append, sendsOf_map_send]
  simpa [sendsOf] using hfl

theorem conserve_init (b : BlobArchiver) (env : BackupEnv) (pages : List (List BlobItem)) :
    Conserve env (listed pages) (State.init b (pages.map Except.ok)) := by
  refine ⟨?_, [], ?_, ?_⟩
  · intro i w blobItem body hw hf
    simp only [State.init] at hw
    rw [List.getElem?_replicate] at hw
    split at hw
    · simp only [Option.some.injEq] at hw
      subst hw
      cases hf
    · cases hw
  · simp [State.init, archiveOf, inflight]
  · intro x
    have := sendsOf_producer_flatten b.BatchSize pages
    simp only [outstanding, State.init, List.count_nil, List.map_nil, List.sum_nil,
      Nat.zero_add, Nat.add_zero]
    rw [← List.count_flatten, this]
    have hz : (List.map (fun w : Worker => List.count x w.pending)
        (List.replicate b.Workers Worker.recv)).sum = 0 := by
      induction b.Workers with
      | zero => rfl
      | succ n ih => simp [List.replicate_succ, Worker.pending, ih]
    rw [hz]
    rfl

/-- What a run on a listing without errors has done when `StreamBlobsToTar`
has returned, if there is at least one worker and nothing fails: it returned
success after every worker finished, and the archive is the complete entries
of a permutation of the listed objects. -/
theorem returned_ok {b : BlobArchiver} {env : BackupEnv} {pages : List (List BlobItem)}
    (hW : 1 ≤ b.Workers) (hok : noFailure env (listed pages)) (sched : List Nat)
    (hr : (StreamBlobsToTar b env (pages.map Except.ok) sched).result ≠ none) :
    (StreamBlobsToTar b env (pages.map Except.ok) sched).result = some none ∧
    allDone (StreamBlobsToTar b env (pages.map Except.ok) sched) ∧
    ∃ d : List BlobItem, d.Perm (listed pages) ∧
      (StreamBlobsToTar b env (pages.map Except.ok) sched).tar = archiveOf env d := by
  have hinv := inv_StreamBlobsToTar b env (pages.map Except.ok) sched
  have hcons : Conserve env (listed pages) (StreamBlobsToTar b env (pages.map Except.ok) sched) :=
    conserve_run hok sched (inv_init b env _) (conserve_init b env pages)
  generalize StreamBlobsToTar b env (pages.map Except.ok) sched = st at *
  obtain ⟨r, hres⟩ := Option.ne_none_iff_exists'.1 hr
  obtain ⟨hmem, _, hprog⟩ := hinv.result r hres
  have hrn : r = none := by
    obtain ⟨bs, hp, _⟩ := producer_ok b.BatchSize pages
    rw [hp] at hmem
    simp only [List.mem_append, List.mem_map, List.mem_cons, ProducerOp.ret.injEq,
      List.mem_singleton, reduceCtorEq, false_or, and_false, exists_false,
      List.not_mem_nil, or_false] at hmem
    exact hmem
  subst hrn
  have hall := hinv.resNone hres
  refine ⟨hres, hall, ?_⟩
  obtain ⟨_, d, htar, hcount⟩ := hcons
  have h0 : 0 < st.workers.length := by rw [hinv.workers]; exact hW
  have hchan : st.chan = [] :=
    (hinv.done _ (List.getElem_mem h0) (hall _ (List.getElem_mem h0))).2
  have hpend : ∀ x, (st.workers.map (fun w => w.pending.count x)).sum = 0 := by
    intro x
    apply List.sum_eq_zero
    intro n hn
    obtain ⟨w, hw, rfl⟩ := List.mem_map.1 hn
    rw [hall w hw]
    rfl
  refine ⟨d, ?_, ?_⟩
  · rw [List.perm_iff_count]
    intro x
    have := hcount x
    simp only [outstanding, hprog, hchan, hpend, sendsOf, List.map_nil, List.sum_nil] at this
    omega
  · have hin : inflight st.mutex st.workers = [] := by
      unfold inflight
      cases hm : st.mutex with
      | none => rfl
      | some i =>
        have hi := hinv.held i hm
        have hw : st.workers[i]? = some st.workers[i] := List.getElem?_eq_getElem hi
        simp only [hw, hall _ (List.getElem_mem hi)]
    rw [htar, hin, List.append_nil]

theorem entryNames_archiveOf (env : BackupEnv) (d : List BlobItem) :
    entryNames (archiveOf env d) = d.map BlobItem.Name := by
  induction d with
  | nil => rfl
  | cons x xs ih =>
    have : archiveOf env (x :: xs) =
        .header (mkHeader x) :: .body ((env.download x).getD []) :: archiveOf env xs := by
      simp [archiveOf]
    rw [this]
    simp only [entryNames, ih, List.map_cons, mkHeader]

theorem producer_ok_sends (s : Nat) (hs : 1 ≤ s) (pages : List (List BlobItem)) :
    ∃ (sent : List (List BlobItem)) (rest : List BlobItem),
      sendsOf (producer s (pages.map Except.ok)) =
        sent ++ (if rest.length > 0 then [rest] else []) ∧
      sent.flatten ++ rest = listed pages ∧ (∀ x ∈ sent, x.length = s) ∧ rest.length < s := by
  obtain ⟨sent, rest, he, hfl, hlen, hrest⟩ := streamPages_ok s pages [] (by simpa using hs)
  simp only [List.nil_append] at hfl
  refine ⟨sent, rest, ?_, hfl, hlen, hrest⟩
  unfold producer
  rw [he]
  simp only [sendsOf_append, sendsOf_map_send]
  by_cases h0 : rest.length > 0
  · simp [h0, sendsOf]
  · simp [h0, sendsOf]

theorem length_flatten_of_length {α : Type} (s : Nat) :
    ∀ (sent : List (List α)), (∀ x ∈ sent, x.length = s) →
      sent.flatten.length = sent.length * s ∧ sent.map List.length = List.replicate sent.length s := by
  intro sent
  induction sent with
  | nil => intro _; simp
  | cons x xs ih =>
    intro h
    have h1 := ih (fun y hy => h y (List.mem_cons_of_mem _ hy))
    have h2 := h x (List.mem_cons_self _ _)
    refine ⟨?_, ?_⟩
    · simp only [List.flatten_cons, List.length_append, h1.1, h2, List.length_cons]
      rw [Nat.add_mul, Nat.one_mul, Nat.add_comm]
    · simp only [List.map_cons, h1.2, h2, List.length_cons, List.replicate_succ]

/-- C2: for every listing without listing errors, every batch size and every
worker count of at least 1, when no download and no archive write fails for
the listed objects, every run can be continued until `StreamBlobsToTar`
returns, and in every run in which it has returned the names of the entries
written to the archive are, as a multiset, exactly the names of the listed
objects: the archive is the complete entries (header, then body) of a
permutation of the listed objects. -/
theorem StreamBlobsToTar_archives_each_listed_object_once (b : BlobArchiver)
    (env : BackupEnv) (pages : List (List BlobItem)) (hW : 1 ≤ b.Workers)
    (hok : noFailure env (listed pages)) :
    (∀ sched, ∃ more,
      (StreamBlobsToTar b env (pages.map Except.ok) (sched ++ more)).result ≠ none) ∧
    ∀ sched, (StreamBlobsToTar b env (pages.map Except.ok) sched).result ≠ none →
      Multiset.ofList (entryNames (StreamBlobsToTar b env (pages.map Except.ok) sched).tar) =
        Multiset.ofList ((listed pages).map BlobItem.Name) ∧
      ∃ d : List BlobItem, d.Perm (listed pages) ∧
        (StreamBlobsToTar b env (pages.map Except.ok) sched).tar = archiveOf env d := by
  refine ⟨fun sched => exists_return b env _ hW sched, ?_⟩
  intro sched hr
  obtain ⟨_, _, d, hperm, htar⟩ := returned_ok hW hok sched hr
  refine ⟨?_, d, hperm, htar⟩
  rw [htar, entryNames_archiveOf]
  exact Multiset.coe_eq_coe.2 (hperm.map _)

theorem noFailure_okEnv (items : List BlobItem) : noFailure okEnv items :=
  fun _ _ => ⟨rfl, rfl, rfl⟩

/-- The instance of C2 for ten objects in batches of 3 with two workers. -/
theorem StreamBlobsToTar_archives_each_listed_object_once_witness :
    (1 ≤ threeByTwo.Workers ∧ noFailure okEnv (listed tenObjects)) ∧
    ((∀ sched, ∃ more,
      (StreamBlobsToTar threeByTwo okEnv (tenObjects.map Except.ok)
        (sched ++ more)).result ≠ none) ∧
    ∀ sched, (StreamBlobsToTar threeByTwo okEnv (tenObjects.map Except.ok) sched).result ≠ none →
      Multiset.ofList
          (entryNames (StreamBlobsToTar threeByTwo okEnv (tenObjects.map Except.ok) sched).tar) =
        Multiset.ofList ((listed tenObjects).map BlobItem.Name) ∧
      ∃ d : List BlobItem, d.Perm (listed tenObjects) ∧
        (StreamBlobsToTar threeByTwo okEnv (tenObjects.map Except.ok) sched).tar =
          archiveOf okEnv d) :=
  ⟨⟨by decide, noFailure_okEnv _⟩,
    StreamBlobsToTar_archives_each_listed_object_once threeByTwo okEnv tenObjects (by decide)
      (noFailure_okEnv _)⟩

theorem workerStep_no_workers (env : BackupEnv) (i : Nat) (st : State)
    (h : st.workers = []) : workerStep env i st = st := by
  unfold workerStep
  simp [h]

/-- Without workers and with room for one batch in the channel, the producer
of a listing of two objects sends the first batch and is blocked at the
second for ever. -/
theorem run_oneByZero_blocked (env : BackupEnv) (x y : BlobItem) (sched : List Nat) :
    StreamBlobsToTar oneByZero env [Except.ok [x, y]] sched =
        State.init oneByZero [Except.ok [x, y]] ∨
      StreamBlobsToTar oneByZero env [Except.ok [x, y]] sched =
        producerStep oneByZero env (State.init oneByZero [Except.ok [x, y]]) := by
  have key : ∀ (sched : List Nat) (st : State),
      (st = State.init oneByZero [Except.ok [x, y]] ∨
        st = producerStep oneByZero env (State.init oneByZero [Except.ok [x, y]])) →
      (run oneByZero env st sched = State.init oneByZero [Except.ok [x, y]] ∨
        run oneByZero env st sched =
          producerStep oneByZero env (State.init oneByZero [Except.ok [x, y]])) := by
    intro sched
    induction sched with
    | nil => intro st h; exact h
    | cons t sched ih =>
      intro st h
      have hstep : run oneByZero env st (t :: sched) =
          run oneByZero env (step oneByZero env st t) sched := rfl
      rw [hstep]
      apply ih
      cases t with
      | zero =>
        rcases h with h | h
        · right; rw [h]; rfl
        · right; rw [h]; rfl
      | succ i =>
        have hw : st.workers = [] := by
          rcases h with h | h <;> rw [h] <;> rfl
        show workerStep env i st = _ ∨ workerStep env i st = _
        rw [workerStep_no_workers env i st hw]
        exact h
  exact key sched _ (Or.inl rfl)

/-- C3, as stated, fails: with batch size 1 and no worker (`-w 0`), for the
listing of the two objects `a`, `b`, whose consecutive chunks are the batches
`[a]` and `[b]`, no run of `StreamBlobsToTar` sends more than one batch: the
producer is blocked at the second send for ever and never returns. -/
theorem StreamBlobsToTar_without_worker_sends_one_batch :
    1 ≤ oneByZero.BatchSize ∧
    chunks 1 (listed [[blob "a" 1, blob "b" 2]]) = [[blob "a" 1], [blob "b" 2]] ∧
    (StreamBlobsToTar oneByZero okEnv [Except.ok [blob "a" 1, blob "b" 2]] [0, 0, 0]).sent =
      [[blob "a" 1]] ∧
    ∀ sched : List Nat,
      (StreamBlobsToTar oneByZero okEnv [Except.ok [blob "a" 1, blob "b" 2]] sched).sent ≠
        chunks 1 (listed [[blob "a" 1, blob "b" 2]]) ∧
      (StreamBlobsToTar oneByZero okEnv [Except.ok [blob "a" 1, blob "b" 2]] sched).result =
        none := by
  have hc : chunks 1 (listed [[blob "a" 1, blob "b" 2]]) = [[blob "a" 1], [blob "b" 2]] := by
    decide
  refine ⟨by decide, hc, by decide, ?_⟩
  intro sched
  rw [hc]
  rcases run_oneByZero_blocked okEnv (blob "a" 1) (blob "b" 2) sched with h | h
  · rw [h]; exact ⟨by decide, by decide⟩
  · rw [h]; exact ⟨by decide, by decide⟩

/-- C3, amended: for every batch size `s ≥ 1`, every worker count of at least
1 and every listing without errors, however it is split into pages, the
batches `StreamBlobsToTar` sends are the consecutive chunks of the
concatenated listing: every run can be continued until the function returns,
in every run the batches sent so far are a prefix of the chunks, and they are
all of them once the function has returned; the chunks are `n / s` batches of
exactly `s` objects, then one batch of `n % s` objects when that is not zero,
so every batch has between 1 and `s` objects. -/
theorem StreamBlobsToTar_sends_consecutive_chunks (b : BlobArchiver) (env : BackupEnv)
    (pages : List (List BlobItem)) (hs : 1 ≤ b.BatchSize) (hW : 1 ≤ b.Workers) :
    (∀ sched, ∃ more,
      (StreamBlobsToTar b env (pages.map Except.ok) (sched ++ more)).result ≠ none) ∧
    (∀ sched, (StreamBlobsToTar b env (pages.map Except.ok) sched).sent <+:
      chunks b.BatchSize (listed pages)) ∧
    (∀ sched, (StreamBlobsToTar b env (pages.map Except.ok) sched).result ≠ none →
      (StreamBlobsToTar b env (pages.map Except.ok) sched).sent =
        chunks b.BatchSize (listed pages)) ∧
    (chunks b.BatchSize (listed pages)).map List.length =
      List.replicate ((listed pages).length / b.BatchSize) b.BatchSize ++
        (if (listed pages).length % b.BatchSize = 0 then []
         else [(listed pages).length % b.BatchSize]) ∧
    ∀ batch ∈ chunks b.BatchSize (listed pages),
      1 ≤ batch.length ∧ batch.length ≤ b.BatchSize := by
  obtain ⟨sent, rest, hsends, hfl, hlen, hrest⟩ := producer_ok_sends b.BatchSize hs pages
  have hch := sendsOf_producer_ok b.BatchSize hs pages
  have hl := length_flatten_of_length b.BatchSize sent hlen
  have hn : (listed pages).length = sent.length * b.BatchSize + rest.length := by
    rw [← hfl, List.length_append, hl.1]
  have hdiv : (listed pages).length / b.BatchSize = sent.length := by
    rw [hn, Nat.mul_comm, Nat.mul_add_div (by omega), Nat.div_eq_of_lt hrest, Nat.add_zero]
  have hmod : (listed pages).length % b.BatchSize = rest.length := by
    rw [hn, Nat.mul_comm, Nat.mul_add_mod, Nat.mod_eq_of_lt hrest]
  refine ⟨fun sched => exists_return b env _ hW sched, ?_, ?_, ?_, ?_⟩
  · intro sched
    rw [← hch]
    exact ⟨_, (inv_StreamBlobsToTar b env (pages.map Except.ok) sched).sent⟩
  · intro sched hr
    have hinv := inv_StreamBlobsToTar b env (pages.map Except.ok) sched
    obtain ⟨r, hres⟩ := Option.ne_none_iff_exists'.1 hr
    have := hinv.sent
    rw [(hinv.result r hres).2.2] at this
    rw [← hch]
    simpa [sendsOf] using this
  · rw [← hch, hsends, hdiv, hmod, List.map_append, hl.2]
    by_cases h0 : rest.length = 0
    · simp [h0]
    · have : rest.length > 0 := by omega
      simp [h0, this]
  · intro batch hb
    rw [← hch, hsends] at hb
    rcases List.mem_append.1 hb with hb | hb
    · rw [hlen batch hb]
      exact ⟨hs, Nat.le_refl _⟩
    · by_cases h0 : rest.length > 0
      · simp only [h0, if_true, List.mem_singleton] at hb
        rw [hb]
        exact ⟨h0, by omega⟩
      · simp [h0] at hb

/-- The instance of amended C3 for ten objects, listed in pages of four and
six, batches of 3 and two workers: the batches have sizes 3, 3, 3, 1. -/
theorem StreamBlobsToTar_sends_consecutive_chunks_witness :
    (1 ≤ threeByTwo.BatchSize ∧ 1 ≤ threeByTwo.Workers) ∧
    (chunks threeByTwo.BatchSize (listed tenObjects)).map List.length = [3, 3, 3, 1] ∧
    ((∀ sched, ∃ more,
      (StreamBlobsToTar threeByTwo okEnv (tenObjects.map Except.ok)
        (sched ++ more)).result ≠ none) ∧
    (∀ sched, (StreamBlobsToTar threeByTwo okEnv (tenObjects.map Except.ok) sched).sent <+:
      chunks threeByTwo.BatchSize (listed tenObjects)) ∧
    ∀ sched, (StreamBlobsToTar threeByTwo okEnv (tenObjects.map Except.ok) sched).result ≠ none →
      (StreamBlobsToTar threeByTwo okEnv (tenObjects.map Except.ok) sched).sent =
        chunks threeByTwo.BatchSize (listed tenObjects)) :=
  ⟨⟨by decide, by decide⟩, by decide,
    (StreamBlobsToTar_sends_consecutive_chunks threeByTwo okEnv tenObjects (by decide)
      (by decide)).1,
    (StreamBlobsToTar_sends_consecutive_chunks threeByTwo okEnv tenObjects (by decide)
      (by decide)).2.1,
    (StreamBlobsToTar_sends_consecutive_chunks threeByTwo okEnv tenObjects (by decide)
      (by decide)).2.2.1⟩

/-! ### The value returned -/

theorem streamPages_error_iff (s : Nat) :
    ∀ (pages : List PageResult) (batch : List BlobItem),
      (∃ e, (streamPages s pages batch).2 = Except.error e) ↔ ∃ e, Except.error e ∈ pages := by
  intro pages
  induction pages with
  | nil => intro batch; simp [streamPages]
  | cons page pages ih =>
    intro batch
    cases page with
    | error e =>
      simp only [streamPages, Except.error.injEq, exists_eq', List.mem_cons, true_iff]
      exact ⟨e, Or.inl rfl⟩
    | ok items =>
      simp only [streamPages, ih, List.mem_cons, reduceCtorEq, false_or]

theorem producer_ret (s : Nat) (pages : List PageResult) (r : Option String)
    (h : ProducerOp.ret r ∈ producer s pages) :
    r.isSome = true ↔ ∃ e, Except.error e ∈ pages := by
  have hiff := streamPages_error_iff s pages []
  unfold producer at h
  rcases hres : streamPages s pages [] with ⟨sent, res⟩
  rw [hres] at h hiff
  cases res with
  | error e =>
    simp only [List.mem_append, List.mem_map, reduceCtorEq, and_false, exists_false,
      List.mem_singleton, ProducerOp.ret.injEq, false_or] at h
    rw [h]
    simp only [Option.isSome_some, true_iff]
    exact hiff.1 ⟨e, rfl⟩
  | ok batch =>
    have hr : r = none := by
      by_cases hb : batch.length > 0 <;>
        simpa [hb] using h
    rw [hr]
    simp only [Option.isSome_none, Bool.false_eq_true, false_iff]
    intro hex
    obtain ⟨e, he⟩ := hiff.2 hex
    cases he

/-- C7: once the workers are started, `StreamBlobsToTar` returns an error if
and only if a listing page call fails, whatever downloads and archive writes
fail: with at least one worker every run can be continued to the return, and
in every run the value returned is an error exactly when a page call failed. -/
theorem StreamBlobsToTar_error_iff_listing_fails (b : BlobArchiver) (env : BackupEnv)
    (pages : List PageResult) :
    (1 ≤ b.Workers → ∀ sched, ∃ more,
      (StreamBlobsToTar b env pages (sched ++ more)).result ≠ none) ∧
    ∀ sched r, (StreamBlobsToTar b env pages sched).result = some r →
      (r.isSome = true ↔ ∃ e, Except.error e ∈ pages) := by
  refine ⟨fun hW sched => exists_return b env pages hW sched, ?_⟩
  intro sched r hr
  exact producer_ret b.BatchSize pages r
    ((inv_StreamBlobsToTar b env pages sched).result r hr).1

/-- The instance of C7 for a listing whose second page call fails. -/
theorem StreamBlobsToTar_error_iff_listing_fails_witness :
    (StreamBlobsToTar oneByOne okEnv failingListing [0, 1, 0]).result =
      some (some "failed to list blobs") ∧
    ((some "failed to list blobs" : Option String).isSome = true ↔
      ∃ e, Except.error e ∈ failingListing) :=
  ⟨by decide,
    (StreamBlobsToTar_error_iff_listing_fails oneByOne okEnv failingListing).2 [0, 1, 0] _
      (by decide)⟩

/-- C8, as stated, fails: one object is backed up with compression, then both
the flush of the tar trailer and the close of the compressor fail, and
`StreamBlobsToTar` returns success. -/
theorem StreamBlobsToTar_close_failure_returns_success :
    (StreamBlobsToTar oneByOneGz closeFailEnv [Except.ok [blob "a" 1]] oneObjectSchedule).closes =
      [(Resource.tarWriter, false), (Resource.gzipWriter, false), (Resource.tarFile, true)] ∧
    (StreamBlobsToTar oneByOneGz closeFailEnv [Except.ok [blob "a" 1]] oneObjectSchedule).result =
      some none := by
  decide

/-- C8, amended: when the listing has no error and the flush of the tar
trailer fails, or compression is on and the close of the compressor fails,
the failing close is run at the return of `StreamBlobsToTar` and its error is
dropped: the function returns success. With at least one worker every run
reaches that return. -/
theorem StreamBlobsToTar_close_failure_is_dropped (b : BlobArchiver) (env : BackupEnv)
    (pages : List (List BlobItem))
    (hfail : env.tarCloseOk = false ∨ (b.Compression = true ∧ env.gzipCloseOk = false)) :
    (1 ≤ b.Workers → ∀ sched, ∃ more,
      (StreamBlobsToTar b env (pages.map Except.ok) (sched ++ more)).result ≠ none) ∧
    ∀ sched, (StreamBlobsToTar b env (pages.map Except.ok) sched).result ≠ none →
      (StreamBlobsToTar b env (pages.map Except.ok) sched).result = some none ∧
      (StreamBlobsToTar b env (pages.map Except.ok) sched).closes = deferred b env ∧
      ∃ res, (res, false) ∈ (StreamBlobsToTar b env (pages.map Except.ok) sched).closes := by
  refine ⟨fun hW sched => exists_return b env _ hW sched, ?_⟩
  intro sched hr
  obtain ⟨r, hres⟩ := Option.ne_none_iff_exists'.1 hr
  have hinv := (inv_StreamBlobsToTar b env (pages.map Except.ok) sched).result r hres
  have hiff := producer_ret b.BatchSize (pages.map Except.ok) r hinv.1
  have hrn : r = none := by
    cases r with
    | none => rfl
    | some e =>
      obtain ⟨e', he'⟩ := hiff.1 rfl
      simp at he'
  subst hrn
  refine ⟨hres, hinv.2.1, ?_⟩
  rw [hinv.2.1]
  rcases hfail with ht | ⟨hc, hg⟩
  · exact ⟨Resource.tarWriter, by simp [deferred, ht]⟩
  · exact ⟨Resource.gzipWriter, by simp [deferred, hc, hg]⟩

/-- The instance of amended C8 for the backup of one object with failing closes. -/
theorem StreamBlobsToTar_close_failure_is_dropped_witness :
    (closeFailEnv.tarCloseOk = false ∨
      (oneByOneGz.Compression = true ∧ closeFailEnv.gzipCloseOk = false)) ∧
    ((StreamBlobsToTar oneByOneGz closeFailEnv ([[blob "a" 1]].map Except.ok)
        oneObjectSchedule).result ≠ none →
      (StreamBlobsToTar oneByOneGz closeFailEnv ([[blob "a" 1]].map Except.ok)
        oneObjectSchedule).result = some none ∧
      (StreamBlobsToTar oneByOneGz closeFailEnv ([[blob "a" 1]].map Except.ok)
        oneObjectSchedule).closes = deferred oneByOneGz closeFailEnv ∧
      ∃ res, (res, false) ∈ (StreamBlobsToTar oneByOneGz closeFailEnv
        ([[blob "a" 1]].map Except.ok) oneObjectSchedule).closes) :=
  ⟨Or.inl rfl,
    (StreamBlobsToTar_close_failure_is_dropped oneByOneGz closeFailEnv [[blob "a" 1]]
      (Or.inl rfl)).2 oneObjectSchedule⟩

/-- On every path the deferred closes, once run, are the three of `deferred`
in its order, each once, and on the path that returns success they run after
every worker has finished. -/
theorem closes_after_workers_on_success (b : BlobArchiver) (env : BackupEnv)
    (pages : List PageResult) (sched : List Nat)
    (hcl : (StreamBlobsToTar b env pages sched).closes ≠ []) :
    (StreamBlobsToTar b env pages sched).closes = deferred b env ∧
    ((StreamBlobsToTar b env pages sched).result = some none →
      allDone (StreamBlobsToTar b env pages sched)) := by
  have hinv := inv_StreamBlobsToTar b env pages sched
  cases hres : (StreamBlobsToTar b env pages sched).result with
  | none => exact absurd (hinv.closes hres) hcl
  | some r =>
    refine ⟨(hinv.result r hres).2.1, ?_⟩
    intro hr
    exact hinv.resNone (by rw [hres, hr])

/-- C9, at the failing input: the first page holds one object and the second
page call fails. After the producer has sent the batch, the worker has taken
it and the producer has met the listing error, `StreamBlobsToTar` has
returned and the tar writer and the file are closed, while the worker still
holds the whole batch, nothing of it is archived and the channel is not
closed. -/
theorem StreamBlobsToTar_listing_error_closes_while_worker_runs :
    (StreamBlobsToTar oneByOne okEnv failingListing [0, 1, 0]).result =
      some (some "failed to list blobs") ∧
    (StreamBlobsToTar oneByOne okEnv failingListing [0, 1, 0]).closes =
      [(Resource.tarWriter, true), (Resource.tarFile, true)] ∧
    (StreamBlobsToTar oneByOne okEnv failingListing [0, 1, 0]).workers =
      [Worker.next [blob "a" 1]] ∧
    (StreamBlobsToTar oneByOne okEnv failingListing [0, 1, 0]).closed = false ∧
    (StreamBlobsToTar oneByOne okEnv failingListing [0, 1, 0]).tar = [] := by
  decide

/-! ### The worker of the run executes `processBlobBatch` -/

theorem run_replicate_succ (b : BlobArchiver) (env : BackupEnv) (st : State) (n t : Nat) :
    run b env st (List.replicate (n + 1) t) = run b env (step b env st t) (List.replicate n t) :=
  rfl

/-- A worker that has taken a batch and moves alone, with the mutex free,
does what `processBlobBatch` does: after some moves of its own it is back at
the receive, the mutex is free again, the archive log is the one
`processBlobBatch` returns and the error, if any, is printed. -/
theorem worker_runs_processBlobBatch (b : BlobArchiver) (env : BackupEnv) :
    ∀ (batch : List BlobItem) (st : State) (i : Nat),
      st.workers[i]? = some (Worker.next batch) → st.mutex = none →
      ∃ n, run b env st (List.replicate n (i + 1)) =
        { st with tar := (processBlobBatch env batch st.tar).1,
                  workers := st.workers.set i Worker.recv,
                  printed := st.printed ++ (processBlobBatch env batch st.tar).2.toList } := by
  intro batch
  induction batch with
  | nil =>
    intro st i hw hm
    refine ⟨1, ?_⟩
    show workerStep env i st = _
    unfold workerStep
    simp only [hw, processBlobBatch, Option.toList, List.append_nil]
  | cons x xs ih =>
    intro st i hw hm
    have hlt : i < st.workers.length := (List.getElem?_eq_some.1 hw).1
    cases hd : env.download x with
    | none =>
      refine ⟨1, ?_⟩
      show workerStep env i st = _
      unfold workerStep
      simp only [hw, hd, processBlobBatch, Option.toList]
    | some body =>
      have e1 : step b env st (i + 1) =
          { st with workers := st.workers.set i (.lock x body xs) } := by
        show workerStep env i st = _
        unfold workerStep
        simp only [hw, hd]
      have e2 : step b env { st with workers := st.workers.set i (.lock x body xs) } (i + 1) =
          { st with mutex := some i, workers := st.workers.set i (.hdr x body xs) } := by
        show workerStep env i _ = _
        unfold workerStep
        simp only [List.getElem?_set_self hlt, hm, List.set_set]
      by_cases hh : env.writeHeaderOk x = true
      · have e3 :
            step b env
              { st with mutex := some i
                        workers := st.workers.set i (.hdr x body xs) } (i + 1) =
            { st with mutex := some i
                      tar := st.tar ++ [.header (mkHeader x)]
                      workers := st.workers.set i (.copy x body xs) } := by
          show workerStep env i _ = _
          unfold workerStep
          simp only [List.getElem?_set_self hlt, hh, if_true, List.set_set]
        by_cases hcp : env.copyOk x = true
        · have e4 :
              step b env
                { st with mutex := some i
                          tar := st.tar ++ [.header (mkHeader x)]
                          workers := st.workers.set i (.copy x body xs) } (i + 1) =
              { st with mutex := none
                        tar := st.tar ++ [.header (mkHeader x), .body body]
                        workers := st.workers.set i (.next xs) } := by
            show workerStep env i _ = _
            unfold workerStep
            simp only [List.getElem?_set_self hlt, hcp, if_true, List.set_set,
              List.append_assoc, List.singleton_append, hm]
          obtain ⟨n, hn⟩ := ih
            { st with mutex := none
                      tar := st.tar ++ [.header (mkHeader x), .body body]
                      workers := st.workers.set i (.next xs) } i
            (by simp only [List.getElem?_set_self hlt]) rfl
          refine ⟨n + 4, ?_⟩
          rw [run_replicate_succ, e1, run_replicate_succ, e2, run_replicate_succ, e3,
            run_replicate_succ, e4, hn]
          simp only [processBlobBatch, hd, hh, hcp, if_true, List.set_set, hm]
        · refine ⟨4, ?_⟩
          rw [run_replicate_succ, e1, run_replicate_succ, e2, run_replicate_succ, e3]
          show workerStep env i _ = _
          unfold workerStep
          simp only [List.getElem?_set_self hlt, hcp, Bool.false_eq_true, if_false,
            List.set_set, processBlobBatch, hd, hh, if_true, Option.toList, hm,
            List.append_assoc, List.singleton_append]
      · refine ⟨3, ?_⟩
        rw [run_replicate_succ, e1, run_replicate_succ, e2]
        show workerStep env i _ = _
        unfold workerStep
        simp only [List.getElem?_set_self hlt, hh, Bool.false_eq_true, if_false,
          List.set_set, processBlobBatch, hd, Option.toList, hm]

/-! ## Theorems: `processBlobBatch` -/

theorem processBlobBatch_all_succeed (env : BackupEnv) :
    ∀ (batch : List BlobItem) (tar : List TarWrite),
      (∀ blobItem ∈ batch, succeeds env blobItem = true) →
      processBlobBatch env batch tar = (tar ++ archiveOf env batch, none) := by
  intro batch
  induction batch with
  | nil => intro tar _; simp [processBlobBatch, archiveOf]
  | cons x xs ih =>
    intro tar h
    have hx := h x (List.mem_cons_self _ _)
    simp only [succeeds, Bool.and_eq_true] at hx
    obtain ⟨⟨hd, hh⟩, hcp⟩ := hx
    obtain ⟨body, hbody⟩ := Option.isSome_iff_exists.1 hd
    simp only [processBlobBatch, hbody, hh, hcp, if_true]
    rw [ih _ (fun y hy => h y (List.mem_cons_of_mem _ hy))]
    simp [archiveOf, hbody]

/-- C4, as stated, fails: in the batch `a`, `b` the download of `a` fails and
everything succeeds for `b`, yet `processBlobBatch` writes nothing and returns
the error; in the whole run of `StreamBlobsToTar` with that batch the archive
stays empty, the worker prints the error and success is returned. -/
theorem processBlobBatch_skips_rest_of_batch :
    succeeds failFirstEnv (blob "b" 2) = true ∧
    processBlobBatch failFirstEnv [blob "a" 1, blob "b" 2] [] =
      ([], some "failed to download blob a") ∧
    (StreamBlobsToTar twoByOne failFirstEnv [Except.ok [blob "a" 1, blob "b" 2]]
      [0, 1, 1, 0, 1, 0, 0]).tar = [] ∧
    (StreamBlobsToTar twoByOne failFirstEnv [Except.ok [blob "a" 1, blob "b" 2]]
      [0, 1, 1, 0, 1, 0, 0]).printed = ["failed to download blob a"] ∧
    (StreamBlobsToTar twoByOne failFirstEnv [Except.ok [blob "a" 1, blob "b" 2]]
      [0, 1, 1, 0, 1, 0, 0]).result = some none := by
  decide

/-- C4, amended: `processBlobBatch` stops at the first object of the batch whose
download or archive write fails: the objects listed before it are written in
full, in order, and no object listed after it is written, whether or not its
download and write would succeed; what is in the archive of the failing
object is nothing when its download or header write failed, and its header
with the bytes copied before the error when the copy of its body failed; an
error is returned. A worker of the run that holds such a batch and moves
alone does exactly that, prints the error and is back at the receive for the
next batch. -/
theorem processBlobBatch_stops_at_first_failure (env : BackupEnv)
    (pre post : List BlobItem) (x : BlobItem) (tar : List TarWrite)
    (hpre : ∀ blobItem ∈ pre, succeeds env blobItem = true)
    (hx : succeeds env x = false) :
    (processBlobBatch env (pre ++ x :: post) tar).1 =
      tar ++ archiveOf env pre ++ leftover env x ∧
    (processBlobBatch env (pre ++ x :: post) tar).2 ≠ none ∧
    ∀ (b : BlobArchiver) (st : State) (i : Nat),
      st.workers[i]? = some (Worker.next (pre ++ x :: post)) → st.mutex = none →
      ∃ n err, run b env st (List.replicate n (i + 1)) =
        { st with tar := st.tar ++ archiveOf env pre ++ leftover env x
                  workers := st.workers.set i Worker.recv
                  printed := st.printed ++ [err] } := by
  have key : ∀ tar : List TarWrite,
      (processBlobBatch env (pre ++ x :: post) tar).1 =
        tar ++ archiveOf env pre ++ leftover env x ∧
      (processBlobBatch env (pre ++ x :: post) tar).2 ≠ none := by
    intro tar
    induction pre generalizing tar with
    | nil =>
      simp only [List.nil_append, archiveOf, List.flatMap_nil, List.append_nil,
        processBlobBatch, leftover]
      cases hd : env.download x with
      | none => simp
      | some body =>
        by_cases hh : env.writeHeaderOk x = true
        · have hcp : env.copyOk x = false := by
            simpa [succeeds, hd, hh] using hx
          simp [hh, hcp]
        · simp [hh]
    | cons y ys ih =>
      have hy := hpre y (List.mem_cons_self _ _)
      simp only [succeeds, Bool.and_eq_true] at hy
      obtain ⟨⟨hd, hh⟩, hcp⟩ := hy
      obtain ⟨body, hbody⟩ := Option.isSome_iff_exists.1 hd
      have := ih (fun z hz => hpre z (List.mem_cons_of_mem _ hz))
        (tar ++ [TarWrite.header (mkHeader y), TarWrite.body body])
      have hstep : processBlobBatch env ((y :: ys) ++ x :: post) tar =
          processBlobBatch env (ys ++ x :: post)
            (tar ++ [TarWrite.header (mkHeader y), TarWrite.body body]) := by
        rw [List.cons_append]
        simp only [processBlobBatch, hbody, hh, hcp, if_true]
      rw [hstep]
      refine ⟨?_, this.2⟩
      rw [this.1]
      simp [archiveOf, hbody]
  refine ⟨(key tar).1, (key tar).2, ?_⟩
  intro b st i hw hm
  obtain ⟨n, hn⟩ := worker_runs_processBlobBatch b env _ st i hw hm
  obtain ⟨err, herr⟩ := Option.ne_none_iff_exists'.1 (key st.tar).2
  refine ⟨n, err, ?_⟩
  rw [hn, (key st.tar).1, herr]
  rfl

/-- The instance of amended C4 for the batch `b`, `a`, `c` in which the copy
of the five bytes of `a` fails after two bytes: `b` is archived in full, of
`a` the header and two bytes are in the archive, and `c` is not archived. -/
theorem processBlobBatch_stops_at_first_failure_witness :
    ((∀ blobItem ∈ [blob "b" 2], succeeds failCopyEnv blobItem = true) ∧
      succeeds failCopyEnv (blob "a" 5) = false) ∧
    succeeds failCopyEnv (blob "c" 3) = true ∧
    (processBlobBatch failCopyEnv [blob "b" 2, blob "a" 5, blob "c" 3] []).1 =
      [TarWrite.header (mkHeader (blob "b" 2)), TarWrite.body [7, 7],
       TarWrite.header (mkHeader (blob "a" 5)), TarWrite.part [7, 7]] ∧
    ((processBlobBatch failCopyEnv ([blob "b" 2] ++ blob "a" 5 :: [blob "c" 3]) []).1 =
      [] ++ archiveOf failCopyEnv [blob "b" 2] ++ leftover failCopyEnv (blob "a" 5) ∧
    (processBlobBatch failCopyEnv ([blob "b" 2] ++ blob "a" 5 :: [blob "c" 3]) []).2 ≠ none) :=
  ⟨⟨by decide, by decide⟩, by decide, by decide,
    ⟨(processBlobBatch_stops_at_first_failure failCopyEnv [blob "b" 2] [blob "c" 3]
      (blob "a" 5) [] (by decide) (by decide)).1,
     (processBlobBatch_stops_at_first_failure failCopyEnv [blob "b" 2] [blob "c" 3]
      (blob "a" 5) [] (by decide) (by decide)).2.1⟩⟩

/-- C10: every tar header `processBlobBatch` writes is that of an object of the
batch, with `Name` the object's key, `Size` its listed content length,
`ModTime` its listed last-modified time, `Uid = 1000`, `Gid = 1000` and
`Mode = 0600`; and when the batch is processed without error every object of
it has its header written. -/
theorem processBlobBatch_header_fields (env : BackupEnv) (batch : List BlobItem) :
    (∀ h, TarWrite.header h ∈ (processBlobBatch env batch []).1 →
      ∃ blobItem ∈ batch, h = mkHeader blobItem ∧ h.Name = blobItem.Name ∧
        h.Size = blobItem.ContentLength ∧ h.ModTime = blobItem.LastModified ∧
        h.Uid = 1000 ∧ h.Gid = 1000 ∧ h.Mode = 0o600) ∧
    ((processBlobBatch env batch []).2 = none →
      ∀ blobItem ∈ batch, TarWrite.header (mkHeader blobItem) ∈ (processBlobBatch env batch []).1) := by
  have key : ∀ (batch : List BlobItem) (tar : List TarWrite),
      (∀ h, TarWrite.header h ∈ (processBlobBatch env batch tar).1 →
        TarWrite.header h ∈ tar ∨ ∃ blobItem ∈ batch, h = mkHeader blobItem) ∧
      (∀ w ∈ tar, w ∈ (processBlobBatch env batch tar).1) ∧
      ((processBlobBatch env batch tar).2 = none →
        ∀ blobItem ∈ batch,
          TarWrite.header (mkHeader blobItem) ∈ (processBlobBatch env batch tar).1) := by
    intro batch
    induction batch with
    | nil =>
      intro tar
      simp [processBlobBatch]
    | cons x xs ih =>
      intro tar
      simp only [processBlobBatch]
      cases hd : env.download x with
      | none => exact ⟨fun h hmem => Or.inl hmem, fun w hw => hw, by simp⟩
      | some body =>
        simp only
        by_cases hh : env.writeHeaderOk x = true
        · by_cases hcp : env.copyOk x = true
          · simp only [hh, hcp, if_true]
            obtain ⟨h1, h2, h3⟩ := ih (tar ++ [TarWrite.header (mkHeader x), TarWrite.body body])
            refine ⟨?_, ?_, ?_⟩
            · intro h hmem
              rcases h1 h hmem with hin | ⟨it, hit, he⟩
              · simp only [List.mem_append, List.mem_cons, TarWrite.header.injEq, reduceCtorEq,
                  List.not_mem_nil, or_false] at hin
                rcases hin with hin | hin
                · exact Or.inl hin
                · exact Or.inr ⟨x, List.mem_cons_self _ _, hin⟩
              · exact Or.inr ⟨it, List.mem_cons_of_mem _ hit, he⟩
            · intro w hw
              exact h2 w (List.mem_append_left _ hw)
            · intro hnone it hit
              rcases List.mem_cons.1 hit with hit | hit
              · rw [hit]
                exact h2 _ (by simp)
              · exact h3 hnone it hit
          · simp only [hh, hcp, if_true, Bool.false_eq_true, if_false]
            refine ⟨?_, ?_, by simp⟩
            · intro h hmem
              simp only [List.mem_append, List.mem_cons, TarWrite.header.injEq, reduceCtorEq,
                List.not_mem_nil, or_false] at hmem
              rcases hmem with hin | hin
              · exact Or.inl hin
              · exact Or.inr ⟨x, List.mem_cons_self _ _, hin⟩
            · intro w hw
              exact List.mem_append_left _ hw
        · simp only [hh, Bool.false_eq_true, if_false]
          exact ⟨fun h hmem => Or.inl hmem, fun w hw => hw, by simp⟩
  obtain ⟨h1, _, h3⟩ := key batch []
  refine ⟨?_, h3⟩
  intro h hmem
  rcases h1 h hmem with hin | ⟨it, hit, he⟩
  · cases hin
  · refine ⟨it, hit, he, ?_⟩
    rw [he]
    simp [mkHeader]

/-- The instance of C10 for a batch of one object. -/
theorem processBlobBatch_header_fields_witness :
    TarWrite.header (mkHeader (blob "a" 1)) ∈ (processBlobBatch okEnv [blob "a" 1] []).1 ∧
    ∃ blobItem ∈ [blob "a" 1], mkHeader (blob "a" 1) = mkHeader blobItem ∧
      (mkHeader (blob "a" 1)).Name = blobItem.Name ∧
      (mkHeader (blob "a" 1)).Size = blobItem.ContentLength ∧
      (mkHeader (blob "a" 1)).ModTime = blobItem.LastModified ∧
      (mkHeader (blob "a" 1)).Uid = 1000 ∧ (mkHeader (blob "a" 1)).Gid = 1000 ∧
      (mkHeader (blob "a" 1)).Mode = 0o600 :=
  ⟨by decide,
    (processBlobBatch_header_fields okEnv [blob "a" 1]).1 (mkHeader (blob "a" 1)) (by decide)⟩

/-! ## Theorems: backup, then restore -/

theorem restoreLoop_archiveOf (env : BackupEnv) (pfx : String) (d : List BlobItem) :
    restoreLoop pfx (archiveOf env d) = (d.map (uploadOf env pfx), none) := by
  induction d with
  | nil => rfl
  | cons x xs ih =>
    have : archiveOf env (x :: xs) =
        .header (mkHeader x) :: .body ((env.download x).getD []) :: archiveOf env xs := by
      simp [archiveOf]
    rw [this]
    simp only [restoreLoop, ih, List.map_cons, uploadOf, mkHeader]

theorem restoreName_injective (pfx : String) {x y : String}
    (h : restoreName pfx x = restoreName pfx y) : x = y := by
  unfold restoreName at h
  by_cases hp : pfx = ""
  · simpa [hp] using h
  · simp only [ne_eq, hp, not_false_eq_true, if_true] at h
    have hd := congrArg String.data h
    simp only [String.data_append, List.append_assoc] at hd
    have := List.append_cancel_left (List.append_cancel_left hd)
    exact String.ext this

theorem filter_uploads (env : BackupEnv) (pfx : String) (x : BlobItem) :
    ∀ (l : List BlobItem), (l.map BlobItem.Name).Nodup → x ∈ l →
      (l.map (uploadOf env pfx)).filter (fun u => decide (u.Name = restoreName pfx x.Name)) =
        [uploadOf env pfx x] := by
  have hnone : ∀ (l : List BlobItem), x.Name ∉ l.map BlobItem.Name →
      (l.map (uploadOf env pfx)).filter (fun u => decide (u.Name = restoreName pfx x.Name)) =
        [] := by
    intro l hl
    rw [List.filter_eq_nil_iff]
    intro u hu
    obtain ⟨y, hy, rfl⟩ := List.mem_map.1 hu
    simp only [uploadOf, decide_eq_true_eq]
    intro hname
    exact hl (List.mem_map.2 ⟨y, hy, restoreName_injective pfx hname⟩)
  intro l
  induction l with
  | nil => intro _ hx; cases hx
  | cons y ys ih =>
    intro hnd hx
    simp only [List.map_cons, List.nodup_cons] at hnd
    by_cases hxy : y = x
    · subst hxy
      simp only [List.map_cons, List.filter_cons, uploadOf, decide_True, if_true]
      have := hnone ys hnd.1
      simp only [uploadOf] at this
      rw [this]
    · have hxs : x ∈ ys := by
        rcases List.mem_cons.1 hx with h | h
        · exact absurd h.symm hxy
        · exact h
      have hne : ¬ (uploadOf env pfx y).Name = restoreName pfx x.Name := by
        intro hname
        have hyx : y.Name = x.Name := restoreName_injective pfx hname
        exact hnd.1 (by rw [hyx]; exact List.mem_map.2 ⟨x, hxs, rfl⟩)
      simp only [List.map_cons, List.filter_cons, hne, decide_False, Bool.false_eq_true,
        if_false]
      exact ih hnd.2 hxs

/-- C6, as stated, fails: with no worker (`-w 0`) and batches of 3, the backup
of the two objects `a`, `b`, which have distinct names and for which nothing
fails, returns success after its closes have succeeded, the archive it has
produced is empty, and restoring that archive sends no upload unit at all;
and when the closes of the tar writer and of the compressor fail the backup
of `a` still returns success, while the archive file is not known to be
complete. -/
theorem backup_without_worker_restores_nothing :
    ((listed [[blob "a" 1, blob "b" 2]]).map BlobItem.Name).Nodup ∧
    (∀ blobItem ∈ listed [[blob "a" 1, blob "b" 2]], succeeds okEnv blobItem = true) ∧
    (StreamBlobsToTar threeByZero okEnv [Except.ok [blob "a" 1, blob "b" 2]]
      [0, 0, 0, 0]).result = some none ∧
    archiveFile (StreamBlobsToTar threeByZero okEnv [Except.ok [blob "a" 1, blob "b" 2]]
      [0, 0, 0, 0]) = some [] ∧
    RestoreFromTarFile threeByZero [] = ([], none) ∧
    (StreamBlobsToTar oneByOneGz closeFailEnv [Except.ok [blob "a" 1]]
      oneObjectSchedule).result = some none ∧
    archiveFile (StreamBlobsToTar oneByOneGz closeFailEnv [Except.ok [blob "a" 1]]
      oneObjectSchedule) = none := by
  decide

/-- C6, amended: for every listing without errors of objects with distinct
names, when there is at least one worker, no download and no archive write
fails and the closes of the tar writer, of the compressor when compressing
and of the file succeed, every run of the backup can be continued until it
returns, and restoring the archive file that a returned backup has produced
reads it without error and sends, up to order, exactly the upload units of
the listed objects: for each object exactly one unit carries its target name,
the original name when the prefix is empty and `prefix/name` otherwise, and
that unit's body is the object's body. -/
theorem backup_then_restore_uploads_each_object (b : BlobArchiver) (env : BackupEnv)
    (pages : List (List BlobItem)) (hW : 1 ≤ b.Workers)
    (hok : noFailure env (listed pages))
    (hnames : ((listed pages).map BlobItem.Name).Nodup)
    (htar : env.tarCloseOk = true) (hgzip : b.Compression = true → env.gzipCloseOk = true)
    (hfile : env.fileCloseOk = true) :
    (∀ sched, ∃ more,
      (StreamBlobsToTar b env (pages.map Except.ok) (sched ++ more)).result ≠ none) ∧
    ∀ sched, (StreamBlobsToTar b env (pages.map Except.ok) sched).result ≠ none →
      ∃ file, archiveFile (StreamBlobsToTar b env (pages.map Except.ok) sched) = some file ∧
        (RestoreFromTarFile b file).2 = none ∧
        (RestoreFromTarFile b file).1.Perm ((listed pages).map (uploadOf env b.pfx)) ∧
        ∀ blobItem ∈ listed pages, ∀ body, env.download blobItem = some body →
          (RestoreFromTarFile b file).1.filter
              (fun u => decide (u.Name = restoreName b.pfx blobItem.Name)) =
            [{ Name := if b.pfx ≠ "" then b.pfx ++ "/" ++ blobItem.Name else blobItem.Name,
               Content := body }] := by
  refine ⟨fun sched => exists_return b env _ hW sched, ?_⟩
  intro sched hr
  obtain ⟨hres, _, d, hperm, hlog⟩ := returned_ok hW hok sched hr
  have hcl := ((inv_StreamBlobsToTar b env (pages.map Except.ok) sched).result none hres).2.1
  have hfileEq : archiveFile (StreamBlobsToTar b env (pages.map Except.ok) sched) =
      some (archiveOf env d) := by
    unfold archiveFile
    rw [hcl, hlog]
    cases hc : b.Compression
    · simp [deferred, htar, hfile, hc]
    · simp [deferred, htar, hfile, hgzip hc, hc]
  refine ⟨archiveOf env d, hfileEq, ?_, ?_, ?_⟩
  · unfold RestoreFromTarFile
    rw [restoreLoop_archiveOf]
  · unfold RestoreFromTarFile
    rw [restoreLoop_archiveOf]
    exact hperm.map _
  · intro blobItem hmem body hbody
    unfold RestoreFromTarFile
    rw [restoreLoop_archiveOf]
    have h1 := (hperm.map (uploadOf env b.pfx)).filter
      (fun u => decide (u.Name = restoreName b.pfx blobItem.Name))
    rw [filter_uploads env b.pfx blobItem _ hnames hmem] at h1
    rw [List.perm_singleton.1 h1]
    simp only [uploadOf, hbody, Option.getD_some, restoreName]

/-- The instance of amended C6 for one object restored under the prefix
`restored`: the single unit sent is named `restored/a` and carries the body. -/
theorem backup_then_restore_uploads_each_object_witness :
    (1 ≤ withPrefix.Workers ∧ noFailure okEnv (listed [[blob "a" 1]]) ∧
      ((listed [[blob "a" 1]]).map BlobItem.Name).Nodup ∧ okEnv.tarCloseOk = true ∧
      (withPrefix.Compression = true → okEnv.gzipCloseOk = true) ∧
      okEnv.fileCloseOk = true) ∧
    (StreamBlobsToTar withPrefix okEnv ([[blob "a" 1]].map Except.ok)
      oneObjectSchedule).result ≠ none ∧
    (archiveFile (StreamBlobsToTar withPrefix okEnv ([[blob "a" 1]].map Except.ok)
      oneObjectSchedule)).map (RestoreFromTarFile withPrefix) =
      some ([{ Name := "restored/a", Content := [7] }], none) ∧
    ∃ file, archiveFile (StreamBlobsToTar withPrefix okEnv ([[blob "a" 1]].map Except.ok)
        oneObjectSchedule) = some file ∧
      (RestoreFromTarFile withPrefix file).2 = none ∧
      (RestoreFromTarFile withPrefix file).1.Perm
        ((listed [[blob "a" 1]]).map (uploadOf okEnv withPrefix.pfx)) :=
  ⟨⟨by decide, noFailure_okEnv _, by decide, rfl, fun _ => rfl, rfl⟩, by decide, by decide,
    (((backup_then_restore_uploads_each_object withPrefix okEnv [[blob "a" 1]] (by decide)
      (noFailure_okEnv _) (by decide) rfl (fun _ => rfl) rfl).2 oneObjectSchedule
      (by decide)).imp fun _ h => ⟨h.1, h.2.1, h.2.2.1⟩)⟩

/-! ## Theorems: the batches of `DeleteBatch` -/

theorem deletePage_chunks (env : DeleteEnv) (hok : env.noFailure) (n : Nat) :
    ∀ (rest : List BlobItem) (k : Nat) (batch : BatchBuilder),
      k + rest.length = n → batch.subRequests.length = k % maxResults →
      (rest = [] → batch.subRequests = []) →
      (deletePage env n k rest batch).2 = Except.ok { subRequests := [] } ∧
      ∃ (full : List (List String)) (last : List String),
        (deletePage env n k rest batch).1.map (fun bp => bp.batch.subRequests) =
          full ++ (if last.length > 0 then [last] else []) ∧
        (∀ x ∈ full, x.length = maxResults) ∧ last.length < maxResults ∧
        full.flatten ++ last = batch.subRequests ++ rest.map BlobItem.Name := by
  intro rest
  induction rest with
  | nil =>
    intro k batch _ _ hnil
    have hb : batch = { subRequests := [] } := by
      cases batch
      simp only [BatchBuilder.mk.injEq]
      exact hnil rfl
    subst hb
    exact ⟨rfl, [], [], by simp [deletePage], by simp, by decide, by simp⟩
  | cons x xs ih =>
    intro k batch hk hlen _
    have hmod : k % maxResults < maxResults := Nat.mod_lt _ (by decide)
    simp only [List.length_cons] at hk
    simp only [deletePage, hok.2, hok.1, if_true]
    by_cases hsend : (k + 1) % maxResults = 0 ∨ k + 1 = n
    · simp only [hsend, if_true]
      by_cases hxs : xs = []
      · subst hxs
        refine ⟨rfl, ?_⟩
        by_cases hfull : (batch.subRequests ++ [x.Name]).length = maxResults
        · refine ⟨[batch.subRequests ++ [x.Name]], [], ?_, ?_, by decide, by simp⟩
          · simp [deletePage, NewBatchProcessor]
          · intro y hy
            simp only [List.mem_singleton] at hy
            rw [hy]; exact hfull
        · refine ⟨[], batch.subRequests ++ [x.Name], ?_, by simp, ?_, by simp⟩
          · simp [deletePage, NewBatchProcessor]
          · simp only [List.length_append, List.length_singleton] at hfull ⊢
            omega
      · have hne : k + 1 ≠ n := by
          intro h
          apply hxs
          apply List.length_eq_zero.1
          omega
        have h0 : (k + 1) % maxResults = 0 := by
          rcases hsend with h | h
          · exact h
          · exact absurd h hne
        have hfull : (batch.subRequests ++ [x.Name]).length = maxResults := by
          simp only [List.length_append, List.length_singleton, hlen]
          simp only [maxResults] at *
          omega
        obtain ⟨hres, full, last, hsent, hall, hlast, hfl⟩ :=
          ih (k + 1) { subRequests := [] } (by omega) (by simp [h0]) (fun h => absurd h hxs)
        refine ⟨hres, (batch.subRequests ++ [x.Name]) :: full, last, ?_, ?_, hlast, ?_⟩
        · simp only [List.map_cons, hsent, NewBatchProcessor, List.cons_append]
        · intro y hy
          rcases List.mem_cons.1 hy with hy | hy
          · rw [hy]; exact hfull
          · exact hall y hy
        · simp only [List.nil_append] at hfl
          simp [← hfl]
    · simp only [hsend, if_false]
      have hxs : xs ≠ [] := by
        intro h
        subst h
        simp only [List.length_nil] at hk
        exact hsend (Or.inr (by omega))
      have hstep : (k + 1) % maxResults = k % maxResults + 1 := by
        have h0 : ¬ (k + 1) % maxResults = 0 := fun h => hsend (Or.inl h)
        simp only [maxResults] at *
        omega
      obtain ⟨hres, full, last, hsent, hall, hlast, hfl⟩ :=
        ih (k + 1) { subRequests := batch.subRequests ++ [x.Name] } (by omega)
          (by simp only [List.length_append, List.length_singleton, hlen, hstep])
          (fun h => absurd h hxs)
      refine ⟨hres, full, last, hsent, hall, hlast, ?_⟩
      rw [hfl]
      simp

theorem deletePage_ok (env : DeleteEnv) (hok : env.noFailure) (items : List BlobItem) :
    deletePage env items.length 0 items { subRequests := [] } =
      ((deletePage env items.length 0 items { subRequests := [] }).1,
        Except.ok { subRequests := [] }) ∧
    (deletePage env items.length 0 items { subRequests := [] }).1.map
        (fun bp => bp.batch.subRequests) =
      chunks maxResults (items.map BlobItem.Name) := by
  obtain ⟨hres, full, last, hsent, hall, hlast, hfl⟩ :=
    deletePage_chunks env hok items.length items 0 { subRequests := [] } (by simp) (by simp)
      (fun _ => rfl)
  refine ⟨?_, ?_⟩
  · rw [← hres]
  · rw [hsent, chunks_of_flatten maxResults (by decide) full last hall hlast, hfl]
    rfl

theorem deletePages_chunks (env : DeleteEnv) (hok : env.noFailure) :
    ∀ (pages : List (List BlobItem)),
      (deletePages env (pages.map Except.ok) { subRequests := [] }).2 = none ∧
      (deletePages env (pages.map Except.ok) { subRequests := [] }).1.map
          (fun bp => bp.batch.subRequests) =
        pages.flatMap (fun page => chunks maxResults (page.map BlobItem.Name)) := by
  intro pages
  induction pages with
  | nil => exact ⟨rfl, rfl⟩
  | cons page pages ih =>
    obtain ⟨h1, h2⟩ := deletePage_ok env hok page
    simp only [List.map_cons, deletePages]
    rw [h1]
    simp only [List.map_append, List.flatMap_cons, ih.2, h2]
    exact ⟨ih.1, trivial⟩

theorem chunks_flatten {α : Type} (s : Nat) (hs : 1 ≤ s) (l : List α) :
    (chunks s l).flatten = l ∧ ∀ x ∈ chunks s l, x ≠ [] := by
  have key : ∀ (n : Nat) (l : List α), l.length ≤ n →
      (chunks s l).flatten = l ∧ ∀ x ∈ chunks s l, x ≠ [] := by
    intro n
    induction n with
    | zero =>
      intro l hl
      have : l = [] := List.length_eq_zero.1 (by omega)
      subst this
      simp [chunks]
    | succ n ih =>
      intro l hl
      by_cases hlt : l.length < s
      · have h := chunks_of_flatten s hs ([] : List (List α)) l (by simp) hlt
        simp only [List.nil_append, List.flatten_nil] at h
        rw [← h]
        by_cases h0 : l.length > 0
        · simp only [h0, if_true, List.flatten_cons, List.flatten_nil, List.append_nil,
            List.mem_singleton, true_and]
          intro x hx
          rw [hx]
          intro hnil
          rw [hnil] at h0
          simp at h0
        · have : l = [] := List.length_eq_zero.1 (by omega)
          subst this
          simp
      · have hsplit : l = l.take s ++ l.drop s := (List.take_append_drop s l).symm
        have htake : (l.take s).length = s := by
          rw [List.length_take]
          omega
        have hdrop : (l.drop s).length ≤ n := by
          rw [List.length_drop]
          omega
        obtain ⟨h1, h2⟩ := ih (l.drop s) hdrop
        rw [hsplit, chunks_cons s hs _ _ htake]
        refine ⟨?_, ?_⟩
        · rw [List.flatten_cons, h1]
        · intro x hx
          rcases List.mem_cons.1 hx with hx | hx
          · rw [hx]
            intro hnil
            rw [hnil] at htake
            simp at htake
            omega
          · exact h2 x hx
  exact key l.length l (Nat.le_refl _)

theorem okDeleteEnv_noFailure : okDeleteEnv.noFailure := ⟨rfl, fun _ => rfl⟩

/-! ## Theorems: the run of `DeleteBatch` -/

theorem DeleteBatch_nil_of_newBatch_fails (env : DeleteEnv) (pages : List PageResult)
    (h : env.newBatchOk = false) : (DeleteBatch env pages).1 = [] := by
  unfold DeleteBatch
  simp [h]

theorem deleteInv_init (b : BlobArchiver) (env : DeleteEnv) (pages : List PageResult) :
    DeleteInv b env pages (DeleteState.init b env pages) := by
  refine ⟨?_, ?_, Or.inl ⟨(DeleteBatch env pages).1, ?_⟩⟩
  · simp only [DeleteState.init]
    split <;> simp
  · simp [DeleteState.init]
  · have hw : ∀ w ∈ (DeleteState.init b env pages).workers, w.exited = false := by
      intro w hw
      simp only [DeleteState.init] at hw
      split at hw
      · rw [List.eq_of_mem_replicate hw]
      · cases hw
    have hprog : (DeleteState.init b env pages).prog = deleteProducer env pages := rfl
    cases h : (DeleteBatch env pages).2 with
    | none =>
      refine ⟨[.close, .wait, .ret none], ?_, Or.inl ⟨rfl, rfl⟩, rfl, rfl, rfl, rfl, hw⟩
      rw [hprog]
      unfold deleteProducer
      generalize DeleteBatch env pages = d at h
      obtain ⟨sent, r⟩ := d
      simp only at h
      subst h
      rfl
    | some e =>
      refine ⟨[.ret (some e)], ?_, Or.inr ⟨e, rfl, rfl⟩, rfl, rfl, rfl, rfl, hw⟩
      rw [hprog]
      unfold deleteProducer
      generalize DeleteBatch env pages = d at h
      obtain ⟨sent, r⟩ := d
      simp only at h
      subst h
      rfl

theorem deleteInv_producerStep {b : BlobArchiver} {env : DeleteEnv} {pages : List PageResult}
    {st : DeleteState} (h : DeleteInv b env pages st) :
    DeleteInv b env pages (deleteProducerStep st) := by
  obtain ⟨hworkers, hcap, hphase⟩ := h
  rcases hphase with ⟨rest, tail, hprog, htail, hsent, hcl, hcn, hres, hex⟩ |
    ⟨hprog, hsent, hcl, hcn, hres, hok⟩ | ⟨hprog, hsent, hcl, hcn, hres, hok⟩ |
    ⟨hprog, hsent, hcn, hres⟩
  · cases rest with
    | nil =>
      rw [List.append_nil] at hsent
      simp only [List.map_nil, List.nil_append] at hprog
      rcases htail with ⟨htail, hok⟩ | ⟨e, htail, herr⟩
      · subst htail
        unfold deleteProducerStep
        rw [hprog]
        exact ⟨hworkers, hcap, Or.inr (Or.inl ⟨rfl, hsent, rfl, hcn, hres, hok⟩)⟩
      · subst htail
        unfold deleteProducerStep
        rw [hprog]
        exact ⟨hworkers, hcap, Or.inr (Or.inr (Or.inr ⟨rfl, hsent, rfl, by rw [herr]⟩))⟩
    | cons batcher rest =>
      simp only [List.map_cons, List.cons_append] at hprog
      unfold deleteProducerStep
      rw [hprog]
      simp only
      split
      · rename_i hlt
        refine ⟨hworkers, ?_, Or.inl ⟨rest, tail, rfl, htail, ?_, hcl, hcn, hres, hex⟩⟩
        · simp only [List.length_append, List.length_singleton]
          omega
        · simp only [List.append_assoc, List.singleton_append]
          exact hsent
      · exact ⟨hworkers, hcap,
          Or.inl ⟨batcher :: rest, tail, by simpa using hprog, htail, hsent, hcl, hcn, hres, hex⟩⟩
  · unfold deleteProducerStep
    rw [hprog]
    simp only
    split
    · exact ⟨hworkers, hcap, Or.inr (Or.inr (Or.inl ⟨rfl, hsent, hcl, hcn, hres, hok⟩))⟩
    · exact ⟨hworkers, hcap, Or.inr (Or.inl ⟨hprog, hsent, hcl, hcn, hres, hok⟩)⟩
  · unfold deleteProducerStep
    rw [hprog]
    exact ⟨hworkers, hcap, Or.inr (Or.inr (Or.inr ⟨rfl, hsent, rfl, by rw [hok]⟩))⟩
  · unfold deleteProducerStep
    rw [hprog]
    exact ⟨hworkers, hcap, Or.inr (Or.inr (Or.inr ⟨hprog, hsent, hcn, hres⟩))⟩

/-- A move of worker `i` changes neither the producer nor the channel state,
except that it may take a batch from the buffer; it keeps the facts of a run
when the worker stays in its loop as long as the channel is open and the
context is not cancelled. -/
theorem deleteInv_update {b : BlobArchiver} {env : DeleteEnv} {pages : List PageResult}
    {st st' : DeleteState} {i : Nat} {w' : DeleteWorkerState}
    (h : DeleteInv b env pages st)
    (hprog : st'.prog = st.prog) (hsent : st'.sent = st.sent) (hclosed : st'.closed = st.closed)
    (hcancelled : st'.cancelled = st.cancelled) (hresult : st'.result = st.result)
    (hchan : st'.chan.length ≤ st.chan.length)
    (hworkers : st'.workers = st.workers.set i w')
    (hexit : st.closed = false → st.cancelled = false → w'.exited = false) :
    DeleteInv b env pages st' := by
  obtain ⟨hlen, hcap, hphase⟩ := h
  refine ⟨by rw [hworkers, List.length_set]; exact hlen, by omega, ?_⟩
  rw [hprog, hsent, hclosed, hcancelled, hresult]
  rcases hphase with ⟨rest, tail, hp, htail, hs, hcl, hcn, hres, hex⟩ | hW | hR | hD
  · refine Or.inl ⟨rest, tail, hp, htail, hs, hcl, hcn, hres, ?_⟩
    intro w hw
    rw [hworkers] at hw
    rcases mem_set_cases hw with hw | hw
    · rw [hw]
      exact hexit hcl hcn
    · exact hex w hw
  · exact Or.inr (Or.inl hW)
  · exact Or.inr (Or.inr (Or.inl hR))
  · exact Or.inr (Or.inr (Or.inr hD))

theorem deleteWorkerStep_recv_exited (submit : BatchBuilder → SubmitResult)
    (w : DeleteWorkerState) (batcher : batchProcessor) :
    (deleteWorkerStep submit w (.recv (some batcher))).exited = w.exited := by
  simp only [deleteWorkerStep]
  split <;> rfl

theorem deleteInv_step {b : BlobArchiver} {env : DeleteEnv} {pages : List PageResult}
    (submit : BatchBuilder → SubmitResult) {st : DeleteState} (m : DeleteMove)
    (h : DeleteInv b env pages st) : DeleteInv b env pages (deleteStep submit st m) := by
  cases m with
  | producer => exact deleteInv_producerStep h
  | receive i =>
    simp only [deleteStep]
    split
    · exact h
    · rename_i w hw
      split
      · exact h
      · rename_i hex
        split
        · rename_i batcher chan hchan
          refine deleteInv_update h rfl rfl rfl rfl rfl ?_ rfl ?_
          · simp [hchan]
          · intro _ _
            rw [deleteWorkerStep_recv_exited]
            simpa using hex
        · split
          · rename_i hcl
            exact deleteInv_update h rfl rfl rfl rfl rfl (Nat.le_refl _) rfl
              (fun hc _ => by rw [hc] at hcl; cases hcl)
          · exact h
  | done i =>
    simp only [deleteStep]
    split
    · exact h
    · split
      · rename_i hcn
        exact deleteInv_update h rfl rfl rfl rfl rfl (Nat.le_refl _) rfl
          (fun _ hc => by rw [hc] at hcn; cases hcn)
      · exact h

theorem deleteInv_run {b : BlobArchiver} {env : DeleteEnv} {pages : List PageResult}
    (submit : BatchBuilder → SubmitResult) (sched : List DeleteMove) :
    ∀ {st : DeleteState}, DeleteInv b env pages st →
      DeleteInv b env pages (deleteRun submit st sched) := by
  induction sched with
  | nil => intro st h; exact h
  | cons m sched ih => intro st h; exact ih (deleteInv_step submit m h)

theorem deleteInv_runDeleteBatch (b : BlobArchiver) (env : DeleteEnv)
    (submit : BatchBuilder → SubmitResult) (pages : List PageResult)
    (sched : List DeleteMove) :
    DeleteInv b env pages (runDeleteBatch b env submit pages sched) :=
  deleteInv_run submit sched (deleteInv_init b env pages)

/-! ### Progress: with at least one worker the run reaches the return -/

theorem deleteCost_set {st : DeleteState} {i : Nat} {w : DeleteWorkerState}
    (w' : DeleteWorkerState) (hw : st.workers[i]? = some w) :
    ((st.workers.set i w').map DeleteWorkerState.cost).sum + w.cost =
      (st.workers.map DeleteWorkerState.cost).sum + w'.cost :=
  sum_map_set DeleteWorkerState.cost st.workers i w w' hw

theorem exists_running {workers : List DeleteWorkerState}
    (h : workers.all (fun w => w.exited) = false) :
    ∃ (i : Nat) (w : DeleteWorkerState), workers[i]? = some w ∧ w.exited = false := by
  have : ∃ w ∈ workers, w.exited = false := by
    by_contra hne
    have hall : workers.all (fun w => w.exited) = true := by
      rw [List.all_eq_true]
      intro w hw
      cases hx : w.exited with
      | true => rfl
      | false => exact absurd ⟨w, hw, hx⟩ hne
    rw [hall] at h
    cases h
  obtain ⟨w, hw, hx⟩ := this
  obtain ⟨i, hi⟩ := List.mem_iff_getElem?.1 hw
  exact ⟨i, w, hi, hx⟩

/-- In a state that has not returned, with at least one worker, some move
lowers the measure: no reachable state is a deadlock. -/
theorem deleteProgress {b : BlobArchiver} {env : DeleteEnv} {pages : List PageResult}
    (submit : BatchBuilder → SubmitResult) {st : DeleteState}
    (h : DeleteInv b env pages st) (hW : 1 ≤ b.Workers) (hr : st.result = none) :
    ∃ m, (deleteStep submit st m).cost < st.cost := by
  obtain ⟨hlen, hcap, hphase⟩ := h
  rcases hphase with ⟨rest, tail, hprog, htail, hsent, hcl, hcn, hres, hex⟩ |
    ⟨hprog, hsent, hcl, hcn, hres, hok⟩ | ⟨hprog, hsent, hcl, hcn, hres, hok⟩ |
    ⟨hprog, hsent, hcn, hres⟩
  · cases rest with
    | nil =>
      refine ⟨.producer, ?_⟩
      simp only [List.map_nil, List.nil_append] at hprog
      rcases htail with ⟨htail, _⟩ | ⟨e, htail, _⟩
      · subst htail
        simp only [deleteStep, deleteProducerStep, hprog, DeleteState.cost, List.map_cons,
          List.sum_cons, DeleteOp.cost]
        omega
      · subst htail
        simp only [deleteStep, deleteProducerStep, hprog, DeleteState.cost, List.map_cons,
          List.sum_cons, DeleteOp.cost, List.map_nil, List.sum_nil]
        omega
    | cons batcher rest =>
      simp only [List.map_cons, List.cons_append] at hprog
      by_cases hroom : st.chan.length < batchChanCap
      · refine ⟨.producer, ?_⟩
        simp only [deleteStep, deleteProducerStep, hprog, hroom, if_true, DeleteState.cost,
          List.map_cons, List.sum_cons, DeleteOp.cost, List.length_append,
          List.length_singleton]
        omega
      · have hnew : env.newBatchOk = true := by
          cases hn : env.newBatchOk with
          | true => rfl
          | false =>
            have := DeleteBatch_nil_of_newBatch_fails env pages hn
            rw [← hsent] at this
            simp at this
        rw [if_pos hnew] at hlen
        have h0 : 0 < st.workers.length := by omega
        have hw0 : st.workers[0]? = some (st.workers.get ⟨0, h0⟩) := by
          simp [List.getElem?_eq_getElem h0]
        have hx0 : (st.workers.get ⟨0, h0⟩).exited = false :=
          hex _ (List.get_mem _ _ _)
        cases hchan : st.chan with
        | nil =>
          rw [hchan] at hroom
          simp [batchChanCap] at hroom
        | cons c cs =>
          refine ⟨.receive 0, ?_⟩
          have hset := deleteCost_set
            (deleteWorkerStep submit (st.workers.get ⟨0, h0⟩) (.recv (some c))) hw0
          have hsame : (deleteWorkerStep submit (st.workers.get ⟨0, h0⟩)
              (.recv (some c))).cost = (st.workers.get ⟨0, h0⟩).cost := by
            simp only [DeleteWorkerState.cost, deleteWorkerStep_recv_exited]
          simp only [deleteStep, hw0, hx0, hchan, DeleteState.cost, List.length_cons,
            Bool.false_eq_true, if_false]
          omega
  · by_cases hall : st.workers.all (fun w => w.exited) = true
    · refine ⟨.producer, ?_⟩
      simp only [deleteStep, deleteProducerStep, hprog, hall, if_true, DeleteState.cost,
        List.map_cons, List.sum_cons, DeleteOp.cost, List.map_nil, List.sum_nil]
      omega
    · obtain ⟨i, w, hw, hx⟩ := exists_running (by simpa using hall)
      refine ⟨.receive i, ?_⟩
      cases hchan : st.chan with
      | nil =>
        have hset := deleteCost_set (deleteWorkerStep submit w .closed) hw
        have h1 : w.cost = 1 := by simp [DeleteWorkerState.cost, hx]
        have h2 : (deleteWorkerStep submit w .closed).cost = 0 := by
          simp [DeleteWorkerState.cost, deleteWorkerStep, hx]
        simp only [deleteStep, hw, hx, hchan, hcl, DeleteState.cost, List.length_nil,
          Bool.false_eq_true, if_false, if_true]
        omega
      | cons c cs =>
        have hset := deleteCost_set (deleteWorkerStep submit w (.recv (some c))) hw
        have hsame : (deleteWorkerStep submit w (.recv (some c))).cost = w.cost := by
          simp only [DeleteWorkerState.cost, deleteWorkerStep_recv_exited]
        simp only [deleteStep, hw, hx, hchan, DeleteState.cost, List.length_cons,
          Bool.false_eq_true, if_false]
        omega
  · refine ⟨.producer, ?_⟩
    simp only [deleteStep, deleteProducerStep, hprog, DeleteState.cost, List.map_cons,
      List.sum_cons, DeleteOp.cost, List.map_nil, List.sum_nil]
    omega
  · rw [hres] at hr
    cases hr

theorem deleteRun_append (submit : BatchBuilder → SubmitResult) (st : DeleteState)
    (xs ys : List DeleteMove) :
    deleteRun submit st (xs ++ ys) = deleteRun submit (deleteRun submit st xs) ys := by
  simp only [deleteRun, List.foldl_append]

theorem delete_exists_return_of_cost {b : BlobArchiver} {env : DeleteEnv}
    {pages : List PageResult} (submit : BatchBuilder → SubmitResult) (hW : 1 ≤ b.Workers) :
    ∀ (n : Nat) (st : DeleteState), st.cost ≤ n → DeleteInv b env pages st →
      ∃ sched, (deleteRun submit st sched).result ≠ none := by
  intro n
  induction n with
  | zero =>
    intro st hc h
    by_cases hr : st.result = none
    · obtain ⟨m, hm⟩ := deleteProgress submit h hW hr
      omega
    · exact ⟨[], hr⟩
  | succ n ih =>
    intro st hc h
    by_cases hr : st.result = none
    · obtain ⟨m, hm⟩ := deleteProgress submit h hW hr
      obtain ⟨sched, hs⟩ := ih (deleteStep submit st m) (by omega) (deleteInv_step submit m h)
      exact ⟨m :: sched, hs⟩
    · exact ⟨[], hr⟩

/-- With at least one worker, every run of `DeleteBatch` can be continued to
the return. -/
theorem delete_exists_return (b : BlobArchiver) (env : DeleteEnv)
    (submit : BatchBuilder → SubmitResult) (pages : List PageResult)
    (hW : 1 ≤ b.Workers) (sched : List DeleteMove) :
    ∃ more, (runDeleteBatch b env submit pages (sched ++ more)).result ≠ none := by
  obtain ⟨more, h⟩ := delete_exists_return_of_cost submit hW _ _ (Nat.le_refl _)
    (deleteInv_runDeleteBatch b env submit pages sched)
  refine ⟨more, ?_⟩
  unfold runDeleteBatch at *
  rw [deleteRun_append]
  exact h

/-- In every state of a run the batches sent so far are the first of the
batches of `DeleteBatch`, and all of them once it has returned. -/
theorem deleteInv_sent {b : BlobArchiver} {env : DeleteEnv} {pages : List PageResult}
    {st : DeleteState} (h : DeleteInv b env pages st) :
    st.sent <+: (DeleteBatch env pages).1 ∧
    (st.result ≠ none → st.result = some (DeleteBatch env pages).2 ∧
      st.sent = (DeleteBatch env pages).1) := by
  rcases h.phase with ⟨rest, tail, hprog, htail, hsent, hcl, hcn, hres, hex⟩ |
    ⟨hprog, hsent, hcl, hcn, hres, hok⟩ | ⟨hprog, hsent, hcl, hcn, hres, hok⟩ |
    ⟨hprog, hsent, hcn, hres⟩
  · exact ⟨⟨rest, hsent⟩, fun hr => absurd hres hr⟩
  · exact ⟨by rw [hsent], fun hr => absurd hres hr⟩
  · exact ⟨by rw [hsent], fun hr => absurd hres hr⟩
  · exact ⟨by rw [hsent], fun _ => ⟨hres, hsent⟩⟩

/-! ### Without workers nothing leaves the channel -/

theorem deleteRun_no_workers (submit : BatchBuilder → SubmitResult) (sched : List DeleteMove) :
    ∀ (st : DeleteState), st.workers = [] → st.sent = st.chan →
      (deleteRun submit st sched).workers = [] ∧
      (deleteRun submit st sched).sent = (deleteRun submit st sched).chan := by
  induction sched with
  | nil => intro st hw hs; exact ⟨hw, hs⟩
  | cons m sched ih =>
    intro st hw hs
    have hstep : deleteRun submit st (m :: sched) =
        deleteRun submit (deleteStep submit st m) sched := rfl
    rw [hstep]
    cases m with
    | producer =>
      apply ih
      · show (deleteProducerStep st).workers = []
        unfold deleteProducerStep
        split <;> try split
        all_goals exact hw
      · show (deleteProducerStep st).sent = (deleteProducerStep st).chan
        unfold deleteProducerStep
        split <;> try split
        all_goals first | exact hs | simp only [hs]
    | receive i =>
      have : deleteStep submit st (.receive i) = st := by
        simp [deleteStep, hw]
      rw [this]
      exact ih st hw hs
    | done i =>
      have : deleteStep submit st (.done i) = st := by
        simp [deleteStep, hw]
      rw [this]
      exact ih st hw hs

theorem mem_of_prefix_of_length_le {α : Type} {l all : List α} {n : Nat} {x : α}
    (hp : l <+: all) (hn : l.length ≤ n) (hx : x ∈ l) : x ∈ all.take n := by
  rw [List.prefix_iff_eq_take] at hp
  rw [hp] at hx
  have : List.take l.length all = List.take l.length (List.take n all) := by
    rw [List.take_take, Nat.min_eq_left hn]
  rw [this] at hx
  exact List.mem_of_mem_take hx

set_option maxRecDepth 100000 in
/-- C12, as stated, fails: with no worker (`-w 0`) and 26 listing pages of one
object each, for which nothing fails, no run of `DeleteBatch` sends more than
the 25 batches that fit the buffer of `batchChan`: the producer is blocked at
the 26th send for ever, so the listed name `25` of the last page is in no
batch sent, and the function never returns. -/
theorem DeleteBatch_without_worker_blocks_at_26th_send :
    okDeleteEnv.noFailure ∧
    "25" ∈ (listed pages26).map BlobItem.Name ∧
    (runDeleteBatch threeByZero okDeleteEnv okSubmit (pages26.map Except.ok)
      (List.replicate 30 DeleteMove.producer)).sent.length = 25 ∧
    ∀ sched : List DeleteMove,
      (runDeleteBatch threeByZero okDeleteEnv okSubmit (pages26.map Except.ok)
        sched).sent.length ≤ 25 ∧
      (∀ bp ∈ (runDeleteBatch threeByZero okDeleteEnv okSubmit (pages26.map Except.ok)
        sched).sent, "25" ∉ bp.batch.subRequests) ∧
      (runDeleteBatch threeByZero okDeleteEnv okSubmit (pages26.map Except.ok)
        sched).result = none := by
  refine ⟨⟨rfl, fun _ => rfl⟩, by decide, by decide, ?_⟩
  intro sched
  have hinv := deleteInv_runDeleteBatch threeByZero okDeleteEnv okSubmit
    (pages26.map Except.ok) sched
  have hnw := deleteRun_no_workers okSubmit sched
    (DeleteState.init threeByZero okDeleteEnv (pages26.map Except.ok)) rfl rfl
  have hlen : (runDeleteBatch threeByZero okDeleteEnv okSubmit (pages26.map Except.ok)
      sched).sent.length ≤ 25 := by
    unfold runDeleteBatch
    rw [hnw.2]
    exact hinv.cap
  have hall : (DeleteBatch okDeleteEnv (pages26.map Except.ok)).1.length = 26 := by decide
  refine ⟨hlen, ?_, ?_⟩
  · intro bp hbp
    have hmem := mem_of_prefix_of_length_le (deleteInv_sent hinv).1 hlen hbp
    have hdec : ∀ x ∈ (DeleteBatch okDeleteEnv (pages26.map Except.ok)).1.take 25,
        "25" ∉ x.batch.subRequests := by decide
    exact hdec bp hmem
  · cases hr : (runDeleteBatch threeByZero okDeleteEnv okSubmit (pages26.map Except.ok)
        sched).result with
    | none => rfl
    | some r =>
      have := ((deleteInv_sent hinv).2 (by rw [hr]; simp)).2
      rw [this, hall] at hlen
      omega

/-- C12, amended: for every sequence of listing pages, when no page call, no
`batch.Delete` and no `NewBatchBuilder` fails and there is at least one
worker, every run of `DeleteBatch` can be continued until it returns; the
batches sent so far are in every run the first of the batches of the
producer, and once the function has returned, which it does without error,
the batches sent are, page after page, the consecutive chunks of 256 of the
names of the page (a batch at every page position that is a multiple of 256
and at the end of the page), so the delete operations of the batches sent,
concatenated in send order, are the names of the listing in listing order;
and no batch sent is empty. -/
theorem DeleteBatch_sends_every_name_once (b : BlobArchiver) (env : DeleteEnv)
    (submit : BatchBuilder → SubmitResult) (pages : List (List BlobItem))
    (hok : env.noFailure) (hW : 1 ≤ b.Workers) :
    (∀ sched, ∃ more,
      (runDeleteBatch b env submit (pages.map Except.ok) (sched ++ more)).result ≠ none) ∧
    (∀ sched, (runDeleteBatch b env submit (pages.map Except.ok) sched).sent <+:
      (DeleteBatch env (pages.map Except.ok)).1) ∧
    (∀ sched, (runDeleteBatch b env submit (pages.map Except.ok) sched).result ≠ none →
      (runDeleteBatch b env submit (pages.map Except.ok) sched).result = some none ∧
      (runDeleteBatch b env submit (pages.map Except.ok) sched).sent.map
          (fun bp => bp.batch.subRequests) =
        pages.flatMap (fun page => chunks 256 (page.map BlobItem.Name)) ∧
      (runDeleteBatch b env submit (pages.map Except.ok) sched).sent.flatMap
          (fun bp => bp.batch.subRequests) =
        (listed pages).map BlobItem.Name) ∧
    (∀ sched, ∀ bp ∈ (runDeleteBatch b env submit (pages.map Except.ok) sched).sent,
      bp.batch.subRequests ≠ []) ∧
    (DeleteBatch env (pages.map Except.ok)).2 = none ∧
    (DeleteBatch env (pages.map Except.ok)).1.map (fun bp => bp.batch.subRequests) =
      pages.flatMap (fun page => chunks 256 (page.map BlobItem.Name)) ∧
    (DeleteBatch env (pages.map Except.ok)).1.flatMap (fun bp => bp.batch.subRequests) =
      (listed pages).map BlobItem.Name := by
  have h := deletePages_chunks env hok pages
  have hD : DeleteBatch env (pages.map Except.ok) =
      deletePages env (pages.map Except.ok) { subRequests := [] } := by
    unfold DeleteBatch
    rw [if_pos hok.1]
  have hmap : (DeleteBatch env (pages.map Except.ok)).1.map (fun bp => bp.batch.subRequests) =
      pages.flatMap (fun page => chunks 256 (page.map BlobItem.Name)) := by
    rw [hD]
    have := h.2
    simp only [maxResults] at this
    exact this
  have hnone : (DeleteBatch env (pages.map Except.ok)).2 = none := by
    rw [hD]
    exact h.1
  have hflat : (DeleteBatch env (pages.map Except.ok)).1.flatMap
      (fun bp => bp.batch.subRequests) = (listed pages).map BlobItem.Name := by
    rw [List.flatMap_def, hmap]
    simp only [listed]
    clear hmap h hD hnone
    induction pages with
    | nil => rfl
    | cons page pages ih =>
      simp only [List.flatMap_cons, List.flatten_append, ih, List.flatten_cons, List.map_append,
        (chunks_flatten 256 (by decide) (page.map BlobItem.Name)).1]
  have hne : ∀ bp ∈ (DeleteBatch env (pages.map Except.ok)).1, bp.batch.subRequests ≠ [] := by
    intro bp hbp
    have hmem : bp.batch.subRequests ∈
        pages.flatMap (fun page => chunks 256 (page.map BlobItem.Name)) := by
      rw [← hmap]
      exact List.mem_map.2 ⟨bp, hbp, rfl⟩
    obtain ⟨page, _, hin⟩ := List.mem_flatMap.1 hmem
    exact (chunks_flatten 256 (by decide) _).2 _ hin
  refine ⟨fun sched => delete_exists_return b env submit _ hW sched, ?_, ?_, ?_, hnone, hmap,
    hflat⟩
  · intro sched
    exact (deleteInv_sent (deleteInv_runDeleteBatch b env submit _ sched)).1
  · intro sched hr
    obtain ⟨hres, hsent⟩ :=
      (deleteInv_sent (deleteInv_runDeleteBatch b env submit _ sched)).2 hr
    rw [hsent, hres, hnone]
    exact ⟨rfl, hmap, hflat⟩
  · intro sched bp hbp
    exact hne bp
      ((deleteInv_sent (deleteInv_runDeleteBatch b env submit _ sched)).1.subset hbp)

set_option maxRecDepth 100000 in
/-- The instance of amended C12 for two workers and a page of two objects
followed by an empty page and a page of one object: the run of the schedule
returns without error after sending the batches `a, b` and `c`, which the two
workers submit; and for a page of 300 objects the batches of the producer
have 256 and 44 names. -/
theorem DeleteBatch_sends_every_name_once_witness :
    (okDeleteEnv.noFailure ∧ 1 ≤ threeByTwo.Workers) ∧
    (runDeleteBatch threeByTwo okDeleteEnv okSubmit
      ([[blob "a" 1, blob "b" 2], [], [blob "c" 3]].map Except.ok) twoBatchSchedule).result =
      some none ∧
    (runDeleteBatch threeByTwo okDeleteEnv okSubmit
      ([[blob "a" 1, blob "b" 2], [], [blob "c" 3]].map Except.ok) twoBatchSchedule).sent.map
        (fun bp => bp.batch.subRequests) = [["a", "b"], ["c"]] ∧
    (runDeleteBatch threeByTwo okDeleteEnv okSubmit
      ([[blob "a" 1, blob "b" 2], [], [blob "c" 3]].map Except.ok) twoBatchSchedule).workers.map
        (fun w => w.submitted) = [[{ subRequests := ["a", "b"] }], [{ subRequests := ["c"] }]] ∧
    ((DeleteBatch okDeleteEnv ([page300, []].map Except.ok)).1.map
      (fun bp => bp.batch.subRequests.length) = [256, 44]) ∧
    (runDeleteBatch threeByTwo okDeleteEnv okSubmit
        ([[blob "a" 1, blob "b" 2], [], [blob "c" 3]].map Except.ok) twoBatchSchedule).sent.flatMap
      (fun bp => bp.batch.subRequests) =
      (listed [[blob "a" 1, blob "b" 2], [], [blob "c" 3]]).map BlobItem.Name :=
  ⟨⟨okDeleteEnv_noFailure, by decide⟩, by decide, by decide, by decide, by decide,
    ((DeleteBatch_sends_every_name_once threeByTwo okDeleteEnv okSubmit
      [[blob "a" 1, blob "b" 2], [], [blob "c" 3]] okDeleteEnv_noFailure (by decide)).2.2.1
      twoBatchSchedule (by decide)).2.2⟩

set_option maxRecDepth 100000 in
/-- C16, at the failing input: for one page of 300 objects the second batch
holds 44 delete operations while the count recorded with it is 300, the
position reached in the page. -/
theorem DeleteBatch_count_is_page_position :
    (DeleteBatch okDeleteEnv [Except.ok page300]).1.map
      (fun bp => (bp.batch.subRequests.length, bp.count)) = [(256, 256), (44, 300)] := by
  decide

/-! ## Theorems: the worker loop of `DeleteBatch` -/

theorem deleteWorkerLoop_exited (submit : BatchBuilder → SubmitResult) :
    ∀ (events : List Select) (st : DeleteWorkerState), st.exited = true →
      events.foldl (deleteWorkerStep submit) st = st := by
  intro events
  induction events with
  | nil => intro st _; rfl
  | cons ev events ih =>
    intro st hst
    have : deleteWorkerStep submit st ev = st := by
      cases ev with
      | recv batcher => cases batcher <;> simp [deleteWorkerStep, hst]
      | closed => simp [deleteWorkerStep, hst]
      | cancelled => simp [deleteWorkerStep, hst]
    rw [List.foldl_cons, this]
    exact ih st hst

theorem deleteWorkerLoop_running (submit : BatchBuilder → SubmitResult) :
    ∀ (events : List Select) (st : DeleteWorkerState), st.exited = false →
      ((events.foldl (deleteWorkerStep submit) st).exited = true ↔
        ∃ ev ∈ events, ev.isRecv = false) ∧
      (events.foldl (deleteWorkerStep submit) st).submitted =
        st.submitted ++ (events.takeWhile Select.isRecv).filterMap Select.batch? ∧
      (events.foldl (deleteWorkerStep submit) st).printed =
        st.printed ++ ((events.takeWhile Select.isRecv).filterMap Select.batch?).flatMap
          (fun batch => submitAndLog (submit batch)) ∧
      ((events.foldl (deleteWorkerStep submit) st).printed,
          (events.foldl (deleteWorkerStep submit) st).submitted) =
        (st.printed ++ (deleteWorker submit events).1,
          st.submitted ++ (deleteWorker submit events).2) := by
  intro events
  induction events with
  | nil => intro st hst; simp [hst, deleteWorker]
  | cons ev events ih =>
    intro st hst
    rw [List.foldl_cons]
    cases ev with
    | closed =>
      have hstep : deleteWorkerStep submit st Select.closed = { st with exited := true } := by
        simp [deleteWorkerStep, hst]
      rw [hstep, deleteWorkerLoop_exited submit events _ rfl]
      simp [Select.isRecv, deleteWorker]
    | cancelled =>
      have hstep : deleteWorkerStep submit st Select.cancelled = { st with exited := true } := by
        simp [deleteWorkerStep, hst]
      rw [hstep, deleteWorkerLoop_exited submit events _ rfl]
      simp [Select.isRecv, deleteWorker]
    | recv batcher =>
      cases batcher with
      | none =>
        have hstep : deleteWorkerStep submit st (Select.recv none) = st := rfl
        rw [hstep]
        obtain ⟨h1, h2, h3, h4⟩ := ih st hst
        refine ⟨?_, ?_, ?_, ?_⟩
        · rw [h1]
          simp [Select.isRecv]
        · rw [h2]
          simp [Select.isRecv, Select.batch?]
        · rw [h3]
          simp [Select.isRecv, Select.batch?]
        · rw [h4]
          simp [deleteWorker]
      | some bp =>
        have hstep : deleteWorkerStep submit st (Select.recv (some bp)) =
            { st with printed := st.printed ++ submitAndLog (submit bp.batch)
                      submitted := st.submitted ++ [bp.batch] } := by
          simp [deleteWorkerStep, hst]
        rw [hstep]
        obtain ⟨h1, h2, h3, h4⟩ := ih
          { st with printed := st.printed ++ submitAndLog (submit bp.batch)
                    submitted := st.submitted ++ [bp.batch] } hst
        refine ⟨?_, ?_, ?_, ?_⟩
        · rw [h1]
          simp [Select.isRecv]
        · rw [h2]
          simp [Select.isRecv, Select.batch?]
        · rw [h3]
          simp [Select.isRecv, Select.batch?]
        · rw [h4]
          simp [deleteWorker]

/-- C13: the loop of a worker of `DeleteBatch` has returned exactly when its
`select` has yielded a closed channel or a cancelled context, and it stops at
the first of them: the batches it submits are the non-nil batches received
before that, each once and in order, a nil batch being passed over without
a submission; the lines printed are those of these submissions. The loop
run step by step agrees with `deleteWorker`. -/
theorem deleteWorker_exits_on_close_or_cancel (submit : BatchBuilder → SubmitResult)
    (events : List Select) :
    ((deleteWorkerLoop submit events).exited = true ↔
      ∃ ev ∈ events, ev = Select.closed ∨ ev = Select.cancelled) ∧
    (deleteWorkerLoop submit events).submitted =
      (events.takeWhile Select.isRecv).filterMap Select.batch? ∧
    (deleteWorkerLoop submit events).printed =
      ((events.takeWhile Select.isRecv).filterMap Select.batch?).flatMap
        (fun batch => submitAndLog (submit batch)) ∧
    deleteWorker submit events =
      ((deleteWorkerLoop submit events).printed, (deleteWorkerLoop submit events).submitted) := by
  obtain ⟨h1, h2, h3, h4⟩ := deleteWorkerLoop_running submit events
    { exited := false, printed := [], submitted := [] } rfl
  unfold deleteWorkerLoop
  refine ⟨?_, ?_, ?_, ?_⟩
  · rw [h1]
    constructor
    · rintro ⟨ev, hev, hr⟩
      refine ⟨ev, hev, ?_⟩
      cases ev <;> simp_all [Select.isRecv]
    · rintro ⟨ev, hev, hr⟩
      refine ⟨ev, hev, ?_⟩
      rcases hr with hr | hr <;> rw [hr] <;> rfl
  · simpa using h2
  · simpa using h3
  · rw [h4]
    simp

/-- The instance of C13 for a batch, a nil batch, a batch, the channel closed
and a further batch: the two batches before the close are submitted, the one
after it is not. -/
theorem deleteWorker_exits_on_close_or_cancel_witness :
    (deleteWorkerLoop alreadyDeleted fiveEvents).exited = true ∧
    (deleteWorkerLoop alreadyDeleted fiveEvents).submitted =
      [{ subRequests := ["a"] }, { subRequests := ["b"] }] ∧
    ((deleteWorkerLoop alreadyDeleted fiveEvents).exited = true ↔
      ∃ ev ∈ fiveEvents, ev = Select.closed ∨ ev = Select.cancelled) :=
  ⟨by decide, by decide, (deleteWorker_exits_on_close_or_cancel alreadyDeleted fiveEvents).1⟩

/-! ## Theorems: mutual exclusion on the archive -/

theorem holder_unique {b : BlobArchiver} {env : BackupEnv} {ops0 : List ProducerOp}
    {st : State} (h : Inv b env ops0 st) {i j : Nat} {wi wj : Worker}
    (hi : st.workers[i]? = some wi) (hj : st.workers[j]? = some wj)
    (hhi : wi.holds = true) (hhj : wj.holds = true) : i = j := by
  have h1 := (h.mutex i wi hi).1 hhi
  have h2 := (h.mutex j wj hj).1 hhj
  rw [h1] at h2
  exact Option.some.inj h2

theorem mutex_free_iff {b : BlobArchiver} {env : BackupEnv} {ops0 : List ProducerOp}
    {st : State} (h : Inv b env ops0 st) :
    st.mutex = none ↔ ∀ w ∈ st.workers, w.holds = false := by
  constructor
  · intro hm w hw
    obtain ⟨i, hi⟩ := List.mem_iff_getElem?.1 hw
    cases hh : w.holds with
    | false => rfl
    | true =>
      have := (h.mutex i w hi).1 hh
      rw [hm] at this
      cases this
  · intro hall
    cases hm : st.mutex with
    | none => rfl
    | some i =>
      have hi := h.held i hm
      have hw : st.workers[i]? = some st.workers[i] := List.getElem?_eq_getElem hi
      have := (h.mutex i _ hw).2 hm
      rw [hall _ (List.getElem_mem hi)] at this
      cases this

theorem workerStep_other (env : BackupEnv) (i j : Nat) (st : State) (hij : j ≠ i) :
    (workerStep env i st).workers[j]? = st.workers[j]? := by
  have hset : ∀ w : Worker, (st.workers.set i w)[j]? = st.workers[j]? :=
    fun w => List.getElem?_set_ne (fun h => hij h.symm)
  unfold workerStep
  split
  · rfl
  · split
    · exact hset _
    · split
      · exact hset _
      · split
        · exact hset _
        · rfl
  · exact hset _
  · split
    · exact hset _
    · exact hset _
  · split
    · exact hset _
    · rfl
  · split
    · exact hset _
    · exact hset _
  · split
    · exact hset _
    · exact hset _
  · rfl

theorem writes_producerStep {b : BlobArchiver} {env : BackupEnv} {st : State}
    (h : Writes env st) : Writes env (producerStep b env st) := by
  unfold producerStep
  split
  · exact h
  · split
    · exact ⟨h.fetched, h.segments⟩
    · exact h
  · exact ⟨h.fetched, h.segments⟩
  · split
    · exact ⟨h.fetched, h.segments⟩
    · exact h
  · exact ⟨h.fetched, h.segments⟩

/-- A move of worker `i` that writes nothing and does not bring it between
`WriteHeader` and `io.Copy` keeps the facts about the archive log. -/
theorem writes_update {env : BackupEnv} {st st' : State} {i : Nat} {w' : Worker}
    (h : Writes env st) (hworkers : st'.workers = st.workers.set i w')
    (htar : st'.tar = st.tar)
    (hcopy : ∀ blobItem body rest, w' ≠ Worker.copy blobItem body rest)
    (hfetched : ∀ blobItem body, w'.fetched = some (blobItem, body) →
      env.download blobItem = some body) :
    Writes env st' := by
  refine ⟨?_, ?_⟩
  · rw [hworkers]
    exact fetched_set h.fetched hfetched
  · obtain ⟨segs, hs, hc⟩ := h.segments
    refine ⟨segs, by rw [htar]; exact hs, ?_⟩
    intro j blobItem body rest hj
    rw [hworkers] at hj
    rcases getElem?_set_some hj with ⟨_, hw, _⟩ | ⟨_, hj⟩
    · exact absurd hw.symm (hcopy blobItem body rest)
    · exact hc j blobItem body rest hj

theorem writes_workerStep {b : BlobArchiver} {env : BackupEnv} {ops0 : List ProducerOp}
    {st : State} (i : Nat) (hinv : Inv b env ops0 st) (h : Writes env st) :
    Writes env (workerStep env i st) := by
  have hsole : ∀ (w : Worker), st.workers[i]? = some w → w.holds = true →
      ∀ (j : Nat) (blobItem : BlobItem) (body : Body) (rest : List BlobItem),
        j ≠ i → st.workers[j]? ≠ some (Worker.copy blobItem body rest) := by
    intro w hw hh j blobItem body rest hji hj
    exact hji (holder_unique hinv hj hw rfl hh)
  unfold workerStep
  split
  · exact h
  · split
    · exact writes_update h rfl rfl (by simp) (by simp [Worker.fetched])
    · split
      · exact writes_update h rfl rfl (by simp) (by simp [Worker.fetched])
      · split
        · exact writes_update h rfl rfl (by simp) (by simp [Worker.fetched])
        · exact h
  · exact writes_update h rfl rfl (by simp) (by simp [Worker.fetched])
  · rename_i blobItem rest hw
    split
    · exact writes_update h rfl rfl (by simp) (by simp [Worker.fetched])
    · rename_i body hd
      refine writes_update h rfl rfl (by simp) ?_
      intro x bd hx
      simp only [Worker.fetched, Option.some.injEq, Prod.mk.injEq] at hx
      obtain ⟨rfl, rfl⟩ := hx
      exact hd
  · rename_i blobItem body rest hw
    split
    · refine writes_update h rfl rfl (by simp) ?_
      intro x bd hx
      simp only [Worker.fetched, Option.some.injEq, Prod.mk.injEq] at hx
      obtain ⟨rfl, rfl⟩ := hx
      exact h.fetched i _ _ _ hw rfl
    · exact h
  · rename_i blobItem body rest hw
    split
    · obtain ⟨segs, hs, hc⟩ := h.segments
      refine ⟨fetched_set h.fetched ?_, segs ++ [(blobItem, CopyState.pending)], ?_, ?_⟩
      · intro x bd hx
        simp only [Worker.fetched, Option.some.injEq, Prod.mk.injEq] at hx
        obtain ⟨rfl, rfl⟩ := hx
        exact h.fetched i _ _ _ hw rfl
      · simp only [hs, List.flatMap_append, List.flatMap_cons, List.flatMap_nil,
          List.append_nil, segment]
      · intro j x bd rs hj
        rcases getElem?_set_some hj with ⟨_, hwj, _⟩ | ⟨hji, hj⟩
        · simp only [Worker.copy.injEq] at hwj
          exact ⟨segs, by rw [hwj.1]⟩
        · exact absurd hj (hsole _ hw rfl j x bd rs hji)
    · exact writes_update h rfl rfl (by simp) (by simp [Worker.fetched])
  · rename_i blobItem body rest hw
    split
    · obtain ⟨segs, hs, hc⟩ := h.segments
      obtain ⟨segs', hsegs⟩ := hc i blobItem body rest hw
      have hbody := h.fetched i _ _ _ hw rfl
      refine ⟨fetched_set h.fetched (by simp [Worker.fetched]),
        segs' ++ [(blobItem, CopyState.whole)], ?_, ?_⟩
      · simp only [hs, hsegs, List.flatMap_append, List.flatMap_cons, List.flatMap_nil,
          List.append_nil, segment, hbody,
          Option.getD_some, List.append_assoc, List.singleton_append]
      · intro j x bd rs hj
        rcases getElem?_set_some hj with ⟨_, hwj, _⟩ | ⟨hji, hj⟩
        · cases hwj
        · exact absurd hj (hsole _ hw rfl j x bd rs hji)
    · obtain ⟨segs, hs, hc⟩ := h.segments
      obtain ⟨segs', hsegs⟩ := hc i blobItem body rest hw
      have hbody := h.fetched i _ _ _ hw rfl
      refine ⟨fetched_set h.fetched (by simp [Worker.fetched]),
        segs' ++ [(blobItem, CopyState.cut)], ?_, ?_⟩
      · simp only [hs, hsegs, List.flatMap_append, List.flatMap_cons, List.flatMap_nil,
          List.append_nil, segment, hbody,
          Option.getD_some, List.append_assoc, List.singleton_append]
      · intro j x bd rs hj
        rcases getElem?_set_some hj with ⟨_, hwj, _⟩ | ⟨hji, hj⟩
        · cases hwj
        · exact absurd hj (hsole _ hw rfl j x bd rs hji)
  · exact h

theorem writes_run {b : BlobArchiver} {env : BackupEnv} {ops0 : List ProducerOp}
    (sched : List Nat) :
    ∀ {st : State}, Inv b env ops0 st → Writes env st → Writes env (run b env st sched) := by
  induction sched with
  | nil => intro st _ h; exact h
  | cons t sched ih =>
    intro st hinv h
    refine ih (inv_step t hinv) ?_
    cases t with
    | zero => exact writes_producerStep h
    | succ i => exact writes_workerStep i hinv h

theorem writes_init (b : BlobArchiver) (env : BackupEnv) (pages : List PageResult) :
    Writes env (State.init b pages) := by
  have hrecv : ∀ (i : Nat) (w : Worker), (State.init b pages).workers[i]? = some w →
      w = Worker.recv := by
    intro i w hw
    simp only [State.init] at hw
    rw [List.getElem?_replicate] at hw
    split at hw
    · exact (Option.some.inj hw).symm
    · cases hw
  refine ⟨?_, [], rfl, ?_⟩
  · intro i w blobItem body hw hf
    rw [hrecv i w hw] at hf
    cases hf
  · intro i blobItem body rest hw
    cases hrecv i _ hw

/-- C11: in every state of every run of `StreamBlobsToTar`, for every listing,
environment and worker count, at most one worker is between `tarMutex.Lock()`
and its `Unlock()`; the mutex is free exactly when no worker is there, and a
move that takes a worker out of that section, by a failed `WriteHeader`, a
failed `io.Copy` or the end of the copy, leaves the mutex free; the archive
log is a sequence of entries, each the header of an object followed at once
by the body of that same object (by the bytes copied before the error when
its copy failed, and by nothing while its copy has not returned), and while a
worker is copying the last write is the header of its object. -/
theorem StreamBlobsToTar_mutual_exclusion (b : BlobArchiver) (env : BackupEnv)
    (pages : List PageResult) (sched : List Nat) :
    (∀ (i j : Nat) (wi wj : Worker),
      (StreamBlobsToTar b env pages sched).workers[i]? = some wi →
      (StreamBlobsToTar b env pages sched).workers[j]? = some wj →
      wi.holds = true → wj.holds = true → i = j) ∧
    ((StreamBlobsToTar b env pages sched).mutex = none ↔
      ∀ w ∈ (StreamBlobsToTar b env pages sched).workers, w.holds = false) ∧
    (∀ (i : Nat) (w w' : Worker),
      (StreamBlobsToTar b env pages sched).workers[i]? = some w → w.holds = true →
      (StreamBlobsToTar b env pages (sched ++ [i + 1])).workers[i]? = some w' →
      w'.holds = false → (StreamBlobsToTar b env pages (sched ++ [i + 1])).mutex = none) ∧
    (∃ segs : List (BlobItem × CopyState),
      (StreamBlobsToTar b env pages sched).tar = segs.flatMap (segment env)) ∧
    ∀ (i : Nat) (blobItem : BlobItem) (body : Body) (rest : List BlobItem),
      (StreamBlobsToTar b env pages sched).workers[i]? =
        some (Worker.copy blobItem body rest) →
      ∃ tar, (StreamBlobsToTar b env pages sched).tar =
        tar ++ [TarWrite.header (mkHeader blobItem)] := by
  have hinv := inv_StreamBlobsToTar b env pages sched
  have hw : Writes env (StreamBlobsToTar b env pages sched) :=
    writes_run sched (inv_init b env pages) (writes_init b env pages)
  refine ⟨fun i j wi wj hi hj hhi hhj => holder_unique hinv hi hj hhi hhj,
    mutex_free_iff hinv, ?_, ?_, ?_⟩
  · intro i w w' hwi hh hwi' hh'
    have hinv' := inv_StreamBlobsToTar b env pages (sched ++ [i + 1])
    have hstep : StreamBlobsToTar b env pages (sched ++ [i + 1]) =
        workerStep env i (StreamBlobsToTar b env pages sched) := by
      simp only [StreamBlobsToTar, run, List.foldl_append, List.foldl_cons, List.foldl_nil, step]
    rw [mutex_free_iff hinv']
    intro x hx
    obtain ⟨j, hj⟩ := List.mem_iff_getElem?.1 hx
    by_cases hji : j = i
    · rw [hji, hwi'] at hj
      rw [← Option.some.inj hj]
      exact hh'
    · rw [hstep, workerStep_other env i j _ hji] at hj
      cases hx' : x.holds with
      | false => rfl
      | true => exact absurd (holder_unique hinv hj hwi hx' hh) hji
  · obtain ⟨segs, hs, _⟩ := hw.segments
    exact ⟨segs, hs⟩
  · intro i blobItem body rest hi
    obtain ⟨segs, hs, hc⟩ := hw.segments
    obtain ⟨segs', hsegs⟩ := hc i blobItem body rest hi
    refine ⟨segs'.flatMap (segment env), ?_⟩
    rw [hs, hsegs]
    simp [segment]

/-- The instance of C11 for two workers that have both downloaded an object:
one holds the mutex with its header written, the other waits at the lock. -/
theorem StreamBlobsToTar_mutual_exclusion_witness :
    (StreamBlobsToTar oneByTwo okEnv [Except.ok [blob "a" 1, blob "b" 2]]
      [0, 0, 1, 2, 1, 2, 1, 1, 2]).workers =
      [Worker.copy (blob "a" 1) [7] [], Worker.lock (blob "b" 2) [7, 7] []] ∧
    (StreamBlobsToTar oneByTwo okEnv [Except.ok [blob "a" 1, blob "b" 2]]
      [0, 0, 1, 2, 1, 2, 1, 1, 2]).tar = [TarWrite.header (mkHeader (blob "a" 1))] ∧
    ((StreamBlobsToTar oneByTwo okEnv [Except.ok [blob "a" 1, blob "b" 2]]
      [0, 0, 1, 2, 1, 2, 1, 1, 2]).mutex = none ↔
      ∀ w ∈ (StreamBlobsToTar oneByTwo okEnv [Except.ok [blob "a" 1, blob "b" 2]]
        [0, 0, 1, 2, 1, 2, 1, 1, 2]).workers, w.holds = false) :=
  ⟨by decide, by decide,
    (StreamBlobsToTar_mutual_exclusion oneByTwo okEnv [Except.ok [blob "a" 1, blob "b" 2]]
      [0, 0, 1, 2, 1, 2, 1, 1, 2]).2.1⟩

/-! ## Theorems: the command line and the tar file path -/

theorem flagParse_not_given (p : IntFlag) :
    ∀ (given : List (String × Int)), (∀ s ∈ given, s.1 ∉ p.names) →
      flagParse p given = p := by
  intro given
  induction given with
  | nil => intro _; rfl
  | cons s rest ih =>
    intro h
    obtain ⟨name, v⟩ := s
    have h1 : name ∉ p.names := h (name, v) (List.mem_cons_self _ _)
    simp only [flagParse, h1, if_false]
    exact ih (fun s hs => h s (List.mem_cons_of_mem _ hs))

/-- Whatever other flags are given, without `-w` and `--workers` the worker
count is 25, the default written last into the shared variable. -/
theorem workersArg_default (given : List (String × Int))
    (h : ∀ s ∈ given, s.1 ≠ "w" ∧ s.1 ≠ "workers") : workersArg given = 25 := by
  unfold workersArg
  rw [flagParse_not_given]
  · rfl
  · intro s hs
    have := h s hs
    simp [flagIntVar, flagInt, this.1, this.2]

/-- C14, at the failing input: with no flag at all, or with only `-b 10`, the
worker count passed to the archiver is 25, not 8; `-w 3` does give 3. -/
theorem workersArg_without_flag_is_25 :
    workersArg [] = 25 ∧ workersArg [("b", 10)] = 25 ∧ workersArg [("w", 3)] = 3 ∧
    (flagInt "w" 8).value = 8 := by
  decide

/-- With no `-P`, the file `DeleteTarFile` removes is the one `TarFile` names
exactly when `-t` is given. -/
theorem DeleteTarFile_eq_TarFile_of_name (join : String → String → String)
    (b : BlobArchiver) (hp : b.Path = "") (hn : b.TarFileName ≠ "") :
    DeleteTarFile b = TarFile join b := by
  simp [DeleteTarFile, TarFile, hp, hn]

/-- With neither `-P` nor `-t`, `TarFile` is the name derived from the
container, the time string and the extension. -/
theorem TarFile_default (join : String → String → String) (b : BlobArchiver)
    (hp : b.Path = "") (hn : b.TarFileName = "") :
    TarFile join b =
      b.ContainerName ++ "-" ++ b.TimeStr ++ "." ++ (if b.Compression then "tgz" else "tar") := by
  simp [TarFile, hp, hn]

/-- With both `-P` and `-t`, the file `DeleteTarFile` removes is not the one
`TarFile` names, as soon as joining the directory changes the name. -/
theorem DeleteTarFile_ne_TarFile_of_path (join : String → String → String)
    (b : BlobArchiver) (hp : b.Path ≠ "") (hn : b.TarFileName ≠ "")
    (hj : join b.Path b.TarFileName ≠ b.TarFileName) :
    DeleteTarFile b ≠ TarFile join b := by
  simp only [DeleteTarFile, TarFile, ne_eq, hp, hn, not_false_eq_true, and_self, if_true]
  exact fun h => hj h.symm

/-- C15, at the failing input: for a backup of the container `photos` with
neither `-P` nor `-t`, the archive written is `photos-2025-01-01.tar`, while
`DeleteTarFile` hands the empty path to `os.Remove`. -/
theorem DeleteTarFile_removes_TarFileName (join : String → String → String) :
    TarFile join photos = "photos-2025-01-01.tar" ∧ DeleteTarFile photos = "" := by
  constructor
  · rw [TarFile_default join photos rfl rfl]
    decide
  · rfl

/-! ## Theorems: `ByteCountSI` and `Divisor` -/

theorem siLoop_lt (n div : Int) (exp : Nat) (h : n < 1000) : siLoop n div exp = (div, exp) := by
  rw [siLoop]
  simp [Int.not_le.2 h]

theorem siLoop_ge (n div : Int) (exp : Nat) (h : 1000 ≤ n) :
    siLoop n div exp = siLoop (n / 1000) (wrap64 (div * 1000)) (exp + 1) := by
  rw [siLoop]
  simp [h]

theorem siLoop_exp_le :
    ∀ (k : Nat) (n div : Int) (exp : Nat), n < 1000 ^ (k + 1) →
      (siLoop n div exp).2 ≤ exp + k := by
  intro k
  induction k with
  | zero =>
    intro n div exp h
    rw [siLoop_lt n div exp (by simpa using h)]
    exact Nat.le_refl _
  | succ k ih =>
    intro n div exp h
    by_cases hn : 1000 ≤ n
    · rw [siLoop_ge n div exp hn]
      have hdiv : n / 1000 < 1000 ^ (k + 1) := by
        apply Int.ediv_lt_of_lt_mul (by decide)
        rw [pow_succ] at h
        exact h
      have := ih (n / 1000) (wrap64 (div * 1000)) (exp + 1) hdiv
      omega
    · rw [siLoop_lt n div exp (by omega)]
      exact Nat.le_add_right _ _

/-- For every 64-bit `b` the index into the unit table at
blockarchive-helpers.go:25 is at most 5, so `ByteCountSI` does not panic. -/
theorem ByteCountSI_index_in_table (b : Int) (hb : b < 9223372036854775808) :
    (siLoop (b / 1000) 1000 0).2 ≤ 5 ∧ (ByteCountSI b).isSome = true := by
  have h5 : (siLoop (b / 1000) 1000 0).2 ≤ 5 := by
    have := siLoop_exp_le 5 (b / 1000) 1000 0 (by norm_num; omega)
    omega
  refine ⟨h5, ?_⟩
  unfold ByteCountSI
  split
  · rfl
  · have hlt : (siLoop (b / 1000) 1000 0).2 < unitTable.length := by
      simp only [unitTable, List.length_cons, List.length_nil]
      omega
    rw [List.getElem?_eq_getElem hlt]
    rfl

/-- In the kilobyte range the unit `ByteCountSI` prints is `kB`, which no case
of `Divisor` matches: the block size returned is 0. -/
theorem Divisor_kilobyte (b : Int) (h1 : 1000 ≤ b) (h2 : b < 1000000) :
    ByteCountSI b = some "kB" ∧ Divisor b = some 0 := by
  have hu : ByteCountSI b = some "kB" := by
    unfold ByteCountSI
    rw [if_neg (by omega), siLoop_lt _ _ _ (by omega)]
    rfl
  refine ⟨hu, ?_⟩
  unfold Divisor
  rw [hu]
  decide

/-- In the megabyte range `Divisor` returns 8388608. -/
theorem Divisor_megabyte (b : Int) (h1 : 1000000 ≤ b) (h2 : b < 1000000000) :
    ByteCountSI b = some "MB" ∧ Divisor b = some 8388608 := by
  have hu : ByteCountSI b = some "MB" := by
    unfold ByteCountSI
    rw [if_neg (by omega), siLoop_ge _ _ _ (by omega), siLoop_lt _ _ _ (by omega)]
    rfl
  refine ⟨hu, ?_⟩
  unfold Divisor
  rw [hu]
  decide

/-- In the gigabyte range `Divisor` returns 104857600. -/
theorem Divisor_gigabyte (b : Int) (h1 : 1000000000 ≤ b) (h2 : b < 1000000000000) :
    ByteCountSI b = some "GB" ∧ Divisor b = some 104857600 := by
  have hu : ByteCountSI b = some "GB" := by
    unfold ByteCountSI
    rw [if_neg (by omega), siLoop_ge _ _ _ (by omega), siLoop_ge _ _ _ (by omega),
      siLoop_lt _ _ _ (by omega)]
    rfl
  refine ⟨hu, ?_⟩
  unfold Divisor
  rw [hu]
  decide

/-- C18, at the failing input: for 1000 bytes, and up to 999999 bytes,
`ByteCountSI` prints the unit `kB` and `Divisor` returns 0, not 32768; the
megabyte and gigabyte ranges do give 8388608 and 104857600. -/
theorem Divisor_kilobyte_is_zero :
    ByteCountSI 1000 = some "kB" ∧ Divisor 1000 = some 0 ∧ Divisor 999999 = some 0 ∧
    Divisor 1000000 = some 8388608 ∧ Divisor 999999999999 = some 104857600 :=
  ⟨(Divisor_kilobyte 1000 (by decide) (by decide)).1,
    (Divisor_kilobyte 1000 (by decide) (by decide)).2,
    (Divisor_kilobyte 999999 (by decide) (by decide)).2,
    (Divisor_megabyte 1000000 (by decide) (by decide)).2,
    (Divisor_gigabyte 999999999999 (by decide) (by decide)).2⟩

/-! ## Theorems: the chunk loop of `DownloadBlobToBuffer` -/

theorem downloadLoop_even_never_breaks :
    ∀ (fuel : Nat) (offset count : Int), offset % 2 = 0 →
      -9223372036854775808 ≤ offset → offset < 9223372036854775808 →
      downloadLoop 9223372036854775807 fuel offset count = none := by
  intro fuel
  induction fuel with
  | zero => intro offset count _ _ _; rfl
  | succ fuel ih =>
    intro offset count he hlo hhi
    have hnot : ¬ offset ≥ 9223372036854775807 := by omega
    simp only [downloadLoop, hnot, if_false]
    rw [ih]
    · rfl
    · simp only [wrap64, bufferLen]; omega
    · simp only [wrap64, bufferLen]; omega
    · simp only [wrap64, bufferLen]; omega

/-- C17, as stated, fails: for a blob size of `2^63 - 1` the offset, a multiple
of 104057600 on 64 bits, stays even and so never reaches the odd size: with
no download error the loop does not terminate, whatever the fuel. -/
theorem DownloadBlobToBuffer_max_size_never_ends :
    ¬ ∃ (fuel : Nat) (ranges : List (Int × Int)),
      DownloadBlobToBuffer 9223372036854775807 fuel = some ranges := by
  rintro ⟨fuel, ranges, h⟩
  unfold DownloadBlobToBuffer at h
  rw [downloadLoop_even_never_breaks fuel 0 bufferLen (by decide) (by decide) (by decide)] at h
  cases h

theorem downloadLoop_mono (blobSize : Int) :
    ∀ (fuel : Nat) (offset count : Int) (ranges : List (Int × Int)),
      downloadLoop blobSize fuel offset count = some ranges →
      ∀ fuel', fuel ≤ fuel' → downloadLoop blobSize fuel' offset count = some ranges := by
  intro fuel
  induction fuel with
  | zero => intro offset count ranges h; cases h
  | succ fuel ih =>
    intro offset count ranges h fuel' hle
    obtain ⟨f, rfl⟩ : ∃ f, fuel' = f + 1 := ⟨fuel' - 1, by omega⟩
    simp only [downloadLoop] at h ⊢
    split
    · rename_i hbreak
      rw [if_pos hbreak] at h
      exact h
    · rename_i hbreak
      rw [if_neg hbreak] at h
      cases hrec : downloadLoop blobSize fuel (wrap64 (offset + bufferLen))
          (if wrap64 (offset + count) > blobSize then 0 else count) with
      | none => rw [hrec] at h; cases h
      | some rs =>
        rw [hrec] at h
        rw [ih _ _ rs hrec f (by omega)]
        exact h

theorem downloadLoop_covers (blobSize : Int) (hmax : blobSize + bufferLen ≤ 9223372036854775807) :
    ∀ (fuel : Nat) (offset : Int), 0 ≤ offset → offset ≤ blobSize →
      (blobSize - offset) / 104057600 + 2 ≤ (fuel : Int) →
      ∃ ranges, downloadLoop blobSize fuel offset bufferLen = some ranges ∧
        covers blobSize offset ranges := by
  have hL : bufferLen = 104057600 := rfl
  intro fuel
  induction fuel with
  | zero =>
    intro offset h0 hle hfuel
    omega
  | succ fuel ih =>
    intro offset h0 hle hfuel
    simp only [downloadLoop]
    by_cases hbreak : offset ≥ blobSize
    · rw [if_pos hbreak]
      exact ⟨[], rfl, by simp only [covers]; omega⟩
    · rw [if_neg hbreak]
      have hw : wrap64 (offset + bufferLen) = offset + bufferLen := by
        simp only [wrap64]
        omega
      rw [hw]
      by_cases hlast : offset + bufferLen > blobSize
      · rw [if_pos hlast]
        obtain ⟨f, rfl⟩ : ∃ f, fuel = f + 1 := ⟨fuel - 1, by omega⟩
        have hend : offset + bufferLen ≥ blobSize := by omega
        simp only [downloadLoop, hend, if_true, Option.map_some']
        refine ⟨_, rfl, ?_⟩
        simp only [covers, rangeEnd, if_true, and_true, true_and, Int.le_refl]
        omega
      · rw [if_neg hlast]
        obtain ⟨rs, hrs, hcov⟩ := ih (offset + bufferLen) (by omega) (by omega) (by omega)
        rw [hrs]
        refine ⟨_, rfl, ?_⟩
        have hne : ¬ bufferLen = 0 := by decide
        simp only [covers, rangeEnd, hne, if_false]
        exact ⟨trivial, by omega, by omega, by omega, hcov⟩

/-- C17, amended: for every blob size from 0 to `2^63 - 1 - 104057600`, so that
`offset + count` and `offset + bufferLen` stay within 64 bits, and with no
download error, the chunk loop of `DownloadBlobToBuffer` terminates (every
fuel of at least `blobSize / 104057600 + 2` iterations gives the same
result) and the ranges it requests, a `Count` of 0 meaning up to the end of
the blob, are in order contiguous and not overlapping, cover exactly the
bytes from 0 to `blobSize`, and each spans at most 104057600 bytes. -/
theorem DownloadBlobToBuffer_ranges_cover (blobSize : Int) (h0 : 0 ≤ blobSize)
    (hmax : blobSize + 104057600 ≤ 9223372036854775807) :
    ∃ ranges : List (Int × Int),
      (∀ fuel : Nat, blobSize / 104057600 + 2 ≤ (fuel : Int) →
        DownloadBlobToBuffer blobSize fuel = some ranges) ∧
      covers blobSize 0 ranges := by
  obtain ⟨rs, hrs, hcov⟩ := downloadLoop_covers blobSize (by simpa [bufferLen] using hmax)
    (blobSize / 104057600 + 2).toNat 0 (Int.le_refl _) h0 (by omega)
  refine ⟨rs, ?_, hcov⟩
  intro fuel hfuel
  exact downloadLoop_mono blobSize _ 0 bufferLen rs hrs fuel (by omega)

/-- The instance of amended C17 for a blob of 250000000 bytes: two full chunks
and a last request up to the end of the blob. -/
theorem DownloadBlobToBuffer_ranges_cover_witness :
    ((0 : Int) ≤ 250000000 ∧ (250000000 : Int) + 104057600 ≤ 9223372036854775807) ∧
    DownloadBlobToBuffer 250000000 4 =
      some [(0, 104057600), (104057600, 104057600), (208115200, 0)] ∧
    ∃ ranges : List (Int × Int),
      (∀ fuel : Nat, (250000000 : Int) / 104057600 + 2 ≤ (fuel : Int) →
        DownloadBlobToBuffer 250000000 fuel = some ranges) ∧
      covers 250000000 0 ranges :=
  ⟨⟨by decide, by decide⟩, by decide,
    DownloadBlobToBuffer_ranges_cover 250000000 (by decide) (by decide)⟩

end AsmaAsync
